import Mathlib

/-!
# Thread pool (thread_pool.cpp): bounded task queue, worker loop, shutdown

A shallow embedding of `class ThreadPool` as an interleaving transition system.

* `TaskFunc` is `std::function<void()>`: `none` is the empty function, `some k` a
  callable whose identity is `k`.
* Both mutexes and both condition variables are explicit: a mutex is the identity
  of its holder, a condition variable is the list of threads blocked in `wait`
  that have not been notified yet.
* A thread takes one step per shared-memory event (lock acquisition, access to the
  atomic stop flag, a critical section of the queue, lock release).  Program
  counters are named after the source lines they stand before.
* Histories (`pushed`, `popped`, `executed`, `returned`, ...) are ghost fields:
  no step reads them.
* A task is opaque: the call `f()` of line 78 is one step that returns normally and does not
  touch the pool.
* Condition variables may wake a waiter spuriously; `notify_one` wakes any one waiter.
-/

namespace ThreadPool

/-- The type `std::function<void()>`: `none` is an empty function object. -/
abbrev TaskFunc := Option Nat

/-- Identity of a thread: a pool worker or an external caller of `submit`/`stop`. -/
inductive Tid where
  | worker (i : Nat)
  | caller (c : Nat)
deriving DecidableEq, Repr

/-- Number of values of `size_t` (64-bit). -/
def SIZE_MOD : Nat := 18446744073709551616

/-- Integral conversion `int → size_t`, as performed by `_tasks.size() < _max_tasks_num`
and by `_threads.resize(_threads_num)`. -/
def toSizeT (x : Int) : Nat := (x % (SIZE_MOD : Int)).toNat

/-- The default queue capacity, `MAX_TASKS_NUM` (line 59). -/
def MAX_TASKS_NUM : Int := 20

/-- The struct `TaskQueue` (lines 16-56). -/
structure TaskQueue where
  /-- Field `_tasks`, head first. -/
  _tasks : List TaskFunc
  /-- Field `_max_tasks_num`. -/
  _max_tasks_num : Int
  /-- Field `_mtx`: the holder of the queue mutex. -/
  _mtx : Option Tid
  /-- Field `_cv`: callers blocked in `push` and not yet notified. -/
  _cv : List Nat

/-- Constructor `TaskQueue(int num)` (lines 26-28). -/
def TaskQueue.new (num : Int) : TaskQueue :=
  { _tasks := [], _max_tasks_num := num, _mtx := none, _cv := [] }

/-- The wait predicate of `push` (line 34): `_tasks.size() < _max_tasks_num`, the `int`
converted to `size_t`. -/
def TaskQueue.has_room (q : TaskQueue) : Bool :=
  decide (q._tasks.length < toSizeT q._max_tasks_num)

/-- The effect of `push` on `_tasks` (lines 33-37): `none` when the predicate of the wait
is false, in which case the caller blocks on `_cv` and nothing is enqueued. -/
def TaskQueue.push (q : TaskQueue) (f : TaskFunc) : Option TaskQueue :=
  if q.has_room then some { q with _tasks := q._tasks ++ [f] } else none

/-- The effect of `pop` (lines 44-54): the returned function and the queue afterwards. -/
def TaskQueue.pop (q : TaskQueue) : TaskFunc × TaskQueue :=
  match q._tasks with
  | [] => (none, q)
  | f :: rest => (f, { q with _tasks := rest })

/-- What a `pop` adds to the history of dequeued entries: the head, when there is one. -/
def TaskQueue.front (q : TaskQueue) : List TaskFunc :=
  match q._tasks with
  | [] => []
  | f :: _ => [f]

/-- An operation on a queue used by one thread at a time. -/
inductive QueueOp where
  | push (f : TaskFunc)
  | pop

/-- A queue together with the history of its operations. -/
structure QueueRun where
  q : TaskQueue
  /-- Tasks enqueued, in order. -/
  pushed : List TaskFunc
  /-- Tasks returned by `pop` on a non-empty queue, in order. -/
  popped : List TaskFunc

/-- One operation on a queue: a `push` whose predicate is false does not complete and
leaves the queue as it is. -/
def QueueRun.op (r : QueueRun) : QueueOp → QueueRun
  | .push f =>
    match r.q.push f with
    | some q1 => { r with q := q1, pushed := r.pushed ++ [f] }
    | none => r
  | .pop => { r with q := r.q.pop.2, popped := r.popped ++ r.q.front }

/-- A sequence of operations applied from left to right. -/
def QueueRun.ops (r : QueueRun) (l : List QueueOp) : QueueRun :=
  l.foldl QueueRun.op r

/-- The run that starts from the empty queue of capacity `num`. -/
def QueueRun.start (num : Int) : QueueRun :=
  { q := TaskQueue.new num, pushed := [], popped := [] }

/-- The call `notify_one()` on a condition variable with waiters `cv`: no effect when nobody
waits, otherwise the chosen waiter leaves the wait set; `none` when the choice is not a
waiter. -/
def notify_one (cv : List Nat) (choice : Nat) : Option (List Nat) :=
  if cv = [] then some []
  else if choice ∈ cv then some (cv.erase choice)
  else none

/-- Program counter of a worker inside `thread_do` (lines 71-93). -/
inductive WorkerPc where
  /-- Line 73, before `pop` locks the queue. -/
  | l73
  /-- Line 73, inside `pop`, holding the queue mutex. -/
  | l73_pop
  /-- Line 77, the test `is_pop == true`. -/
  | l77
  /-- Line 78, the call `f()`. -/
  | l78
  /-- Line 79, before `pop` locks the queue. -/
  | l79
  /-- Line 79, inside `pop`, holding the queue mutex. -/
  | l79_pop
  /-- Line 85, locking the pool mutex. -/
  | l85
  /-- Line 87, the predicate reads `*_is_stop`; the pool mutex is held. -/
  | l86
  /-- Line 87, the predicate calls `pop`, before it locks the queue. -/
  | l87
  /-- Line 87, inside `pop`, holding both mutexes. -/
  | l87_pop
  /-- Line 87, the predicate converts `f` to `bool`: return from `wait` or block. -/
  | l88
  /-- Blocked inside `_cv.wait`, the pool mutex released. -/
  | wait
  /-- Line 89, reading `*_is_stop`. -/
  | l89
  /-- Line 90, `if (f) is_pop = true`, then the lock goes out of scope. -/
  | l90
  /-- Line 89, `return`: the lock goes out of scope. -/
  | ret
  /-- Returned from `thread_do`. -/
  | terminated
  /-- An empty `std::function` was invoked (`std::bad_function_call`). -/
  | crashed
deriving DecidableEq, Repr

/-- A worker thread: its place in `thread_do`, the locals `f` and `is_pop`, and whether its
`std::thread` handle is still joinable. -/
structure Worker where
  pc : WorkerPc
  f : TaskFunc
  is_pop : Bool
  joinable : Bool
deriving DecidableEq, Repr

/-- Program counter of an external thread calling `submit` (lines 107-111, with `push`,
lines 30-40) or `stop` (lines 114-126). -/
inductive CallerPc where
  /-- Outside the pool. -/
  | idle
  /-- Line 32, `push` locks the queue mutex. -/
  | l32 (f : TaskFunc)
  /-- Lines 33-38, holding the queue mutex: predicate, then enqueue or block. -/
  | l33 (f : TaskFunc)
  /-- Blocked inside `_cv.wait` of `push`, the queue mutex released. -/
  | push_wait (f : TaskFunc)
  /-- Line 109, locking the pool mutex. -/
  | l109 (f : TaskFunc)
  /-- Line 110, `_cv.notify_one()`. -/
  | l110 (f : TaskFunc)
  /-- Line 111, the lock goes out of scope and `submit` returns. -/
  | l111 (f : TaskFunc)
  /-- Line 115, `*_is_stop = true`. -/
  | l115
  /-- Line 117, locking the pool mutex. -/
  | l117
  /-- Line 118, `_cv.notify_all()`. -/
  | l118
  /-- Line 119, the lock goes out of scope. -/
  | l119
  /-- Line 121, the loop test `i < _threads_num`. -/
  | l121 (i : Nat)
  /-- Line 122, the test `_threads[i]->joinable()`. -/
  | l122 (i : Nat)
  /-- Line 123, `_threads[i]->join()`. -/
  | l123 (i : Nat)
deriving DecidableEq, Repr

/-- The pool and its environment. -/
structure State where
  /-- Field `_threads_num`. -/
  _threads_num : Int
  /-- Field `_threads`, each entry with the state of the thread it owns. -/
  _threads : List Worker
  /-- Field `_is_stop` (the atomic it points to). -/
  _is_stop : Bool
  /-- Field `_taskq`. -/
  _taskq : TaskQueue
  /-- Field `_mtx`: the holder of the pool mutex. -/
  _mtx : Option Tid
  /-- Field `_cv`: workers blocked in `wait` and not yet notified. -/
  _cv : List Nat
  /-- The external threads. -/
  callers : Nat → CallerPc
  /-- History: tasks enqueued by `push`, in order. -/
  pushed : List TaskFunc
  /-- History: entries dequeued by `pop`, in order. -/
  popped : List TaskFunc
  /-- History: calls `f()` of line 78, as (worker, task), in order. -/
  executed : List (Nat × Nat)
  /-- History: tasks whose `submit` call has returned, in order. -/
  returned : List TaskFunc
  /-- History: the value of `returned` when `stop` was first called. -/
  before_stop : Option (List TaskFunc)
  /-- History: number of `stop` calls that have returned. -/
  stop_returns : Nat
  /-- History: number of `notify_all` calls issued by `stop` (line 118). -/
  broadcasts : Nat

/-- The state right after the constructor (lines 95-104) has launched `n` workers. -/
def State.init (n : Nat) (max_tasks_num : Int) : State :=
  { _threads_num := n
    _threads := List.replicate n { pc := .l73, f := none, is_pop := false, joinable := true }
    _is_stop := false
    _taskq := TaskQueue.new max_tasks_num
    _mtx := none
    _cv := []
    callers := fun _ => .idle
    pushed := []
    popped := []
    executed := []
    returned := []
    before_stop := none
    stop_returns := 0
    broadcasts := 0 }

/-- Failure of the constructor. -/
inductive CtorError where
  /-- The exception `std::length_error` thrown by `_threads.resize`. -/
  | length_error
deriving DecidableEq, Repr

/-- The constructor `ThreadPool(int threads_num, int max_tasks_num)` (lines 95-104).
`max_size` is `_threads.max_size()` of the standard library in use: `resize` throws when the
requested size, the `int` converted to `size_t`, exceeds it.  Neither argument is inspected
otherwise. -/
def State.new (max_size : Nat) (threads_num max_tasks_num : Int) : Except CtorError State :=
  if max_size < toSizeT threads_num then .error .length_error
  else .ok { State.init threads_num.toNat max_tasks_num with _threads_num := threads_num }

/-- Replace the state of worker `i`. -/
def State.setWorker (s : State) (i : Nat) (w : Worker) : State :=
  { s with _threads := s._threads.set i w }

/-- Replace the program counter of caller `c`. -/
def State.setCaller (s : State) (c : Nat) (pc : CallerPc) : State :=
  { s with callers := fun j => if j = c then pc else s.callers j }

/-- One step of worker `i`, whose current state is `w`; `none` when the worker cannot move
(a mutex is taken, it is blocked in `wait`, or it has left `thread_do`). -/
def workerStep (s : State) (i : Nat) (w : Worker) : Option State :=
  match w.pc with
  | .l73 =>
    if s._taskq._mtx = none then
      some ({ s with _taskq := { s._taskq with _mtx := some (.worker i) } }.setWorker i
        { w with pc := .l73_pop })
    else none
  | .l73_pop =>
    some ({ s with
        _taskq := { s._taskq.pop.2 with _mtx := none }
        popped := s.popped ++ s._taskq.front }.setWorker i
      { w with pc := .l77, f := s._taskq.pop.1, is_pop := s._taskq.pop.1.isSome })
  | .l77 =>
    if w.is_pop then some (s.setWorker i { w with pc := .l78 })
    else some (s.setWorker i { w with pc := .l85 })
  | .l78 =>
    match w.f with
    | some k =>
      some ({ s with executed := s.executed ++ [(i, k)] }.setWorker i { w with pc := .l79 })
    | none => some (s.setWorker i { w with pc := .crashed })
  | .l79 =>
    if s._taskq._mtx = none then
      some ({ s with _taskq := { s._taskq with _mtx := some (.worker i) } }.setWorker i
        { w with pc := .l79_pop })
    else none
  | .l79_pop =>
    some ({ s with
        _taskq := { s._taskq.pop.2 with _mtx := none }
        popped := s.popped ++ s._taskq.front }.setWorker i
      { w with pc := .l77, f := s._taskq.pop.1, is_pop := s._taskq.pop.1.isSome })
  | .l85 =>
    if s._mtx = none then
      some ({ s with _mtx := some (.worker i) }.setWorker i { w with pc := .l86 })
    else none
  | .l86 =>
    if s._is_stop then some (s.setWorker i { w with pc := .l89 })
    else some (s.setWorker i { w with pc := .l87 })
  | .l87 =>
    if s._taskq._mtx = none then
      some ({ s with _taskq := { s._taskq with _mtx := some (.worker i) } }.setWorker i
        { w with pc := .l87_pop })
    else none
  | .l87_pop =>
    some ({ s with
        _taskq := { s._taskq.pop.2 with _mtx := none }
        popped := s.popped ++ s._taskq.front }.setWorker i
      { w with pc := .l88, f := s._taskq.pop.1 })
  | .l88 =>
    if w.f.isSome then some (s.setWorker i { w with pc := .l89 })
    else some ({ s with _mtx := none, _cv := s._cv ++ [i] }.setWorker i { w with pc := .wait })
  | .wait =>
    if i ∉ s._cv ∧ s._mtx = none then
      some ({ s with _mtx := some (.worker i) }.setWorker i { w with pc := .l86 })
    else none
  | .l89 =>
    if s._is_stop then some (s.setWorker i { w with pc := .ret })
    else some (s.setWorker i { w with pc := .l90 })
  | .l90 =>
    some ({ s with _mtx := none }.setWorker i
      { w with pc := .l77, is_pop := if w.f.isSome then true else w.is_pop })
  | .ret => some ({ s with _mtx := none }.setWorker i { w with pc := .terminated })
  | .terminated => none
  | .crashed => none

/-- One step of caller `c` inside `submit` or `stop`; `choice` names the waiter that a
`notify_one` wakes.  `none` when the caller cannot move. -/
def callerStep (s : State) (c : Nat) (choice : Nat) : Option State :=
  match s.callers c with
  | .idle => none
  | .l32 f =>
    if s._taskq._mtx = none then
      some ({ s with _taskq := { s._taskq with _mtx := some (.caller c) } }.setCaller c (.l33 f))
    else none
  | .l33 f =>
    match s._taskq.push f with
    | some q1 =>
      match notify_one q1._cv choice with
      | some cv1 =>
        some ({ s with
            _taskq := { q1 with _cv := cv1, _mtx := none }
            pushed := s.pushed ++ [f] }.setCaller c (.l109 f))
      | none => none
    | none =>
      some ({ s with
          _taskq := { s._taskq with _cv := s._taskq._cv ++ [c], _mtx := none } }.setCaller c
        (.push_wait f))
  | .push_wait f =>
    if c ∉ s._taskq._cv ∧ s._taskq._mtx = none then
      some ({ s with _taskq := { s._taskq with _mtx := some (.caller c) } }.setCaller c (.l33 f))
    else none
  | .l109 f =>
    if s._mtx = none then some ({ s with _mtx := some (.caller c) }.setCaller c (.l110 f))
    else none
  | .l110 f =>
    match notify_one s._cv choice with
    | some cv1 => some ({ s with _cv := cv1 }.setCaller c (.l111 f))
    | none => none
  | .l111 f =>
    some ({ s with _mtx := none, returned := s.returned ++ [f] }.setCaller c .idle)
  | .l115 => some ({ s with _is_stop := true }.setCaller c .l117)
  | .l117 =>
    if s._mtx = none then some ({ s with _mtx := some (.caller c) }.setCaller c .l118)
    else none
  | .l118 => some ({ s with _cv := [], broadcasts := s.broadcasts + 1 }.setCaller c .l119)
  | .l119 => some ({ s with _mtx := none }.setCaller c (.l121 0))
  | .l121 i =>
    if (i : Int) < s._threads_num then some (s.setCaller c (.l122 i))
    else some ({ s with stop_returns := s.stop_returns + 1 }.setCaller c .idle)
  | .l122 i =>
    match s._threads[i]? with
    | some w =>
      if w.joinable then some (s.setCaller c (.l123 i))
      else some (s.setCaller c (.l121 (i + 1)))
    | none => none
  | .l123 i =>
    match s._threads[i]? with
    | some w =>
      if w.pc = .terminated then
        some ((s.setWorker i { w with joinable := false }).setCaller c (.l121 (i + 1)))
      else none
    | none => none

/-- What can happen next. -/
inductive Action where
  /-- Worker `i` takes its next step. -/
  | worker (i : Nat)
  /-- Caller `c` takes the next step of the call it is in. -/
  | caller (c : Nat) (choice : Nat)
  /-- Idle caller `c` calls `submit(f)`. -/
  | submit (c : Nat) (f : TaskFunc)
  /-- Idle caller `c` calls `stop()`. -/
  | stop (c : Nat)
  /-- Worker `i`, blocked in `wait`, wakes up spuriously. -/
  | wake_worker (i : Nat)
  /-- Caller `c`, blocked in the `wait` of `push`, wakes up spuriously. -/
  | wake_caller (c : Nat)
deriving DecidableEq, Repr

/-- The transition function: `none` when the action is not enabled. -/
def step (s : State) : Action → Option State
  | .worker i =>
    match s._threads[i]? with
    | some w => workerStep s i w
    | none => none
  | .caller c choice => callerStep s c choice
  | .submit c f =>
    match s.callers c with
    | .idle => some (s.setCaller c (.l32 f))
    | _ => none
  | .stop c =>
    match s.callers c with
    | .idle =>
      some ({ s with
          before_stop := match s.before_stop with
            | some l => some l
            | none => some s.returned }.setCaller c .l115)
    | _ => none
  | .wake_worker i => if i ∈ s._cv then some { s with _cv := s._cv.erase i } else none
  | .wake_caller c =>
    if c ∈ s._taskq._cv then
      some { s with _taskq := { s._taskq with _cv := s._taskq._cv.erase c } }
    else none

/-- A schedule run from `s`: `none` as soon as one of its actions is not enabled. -/
def run (s : State) : List Action → Option State
  | [] => some s
  | a :: l =>
    match step s a with
    | some s1 => run s1 l
    | none => none

/-- The states the pool can be in after construction with `n` workers and capacity field
`max_tasks_num`. -/
def Reachable (n : Nat) (max_tasks_num : Int) (s : State) : Prop :=
  ∃ l : List Action, run (State.init n max_tasks_num) l = some s

/-- The steps of worker `i`, whose state is `w`: the shared part of the next state and the
next state of the worker, one constructor per branch of `workerStep`. -/
inductive WStep (s : State) (i : Nat) (w : Worker) : State → Worker → Prop where
  | l73 (hpc : w.pc = .l73) (hq : s._taskq._mtx = none) :
      WStep s i w { s with _taskq := { s._taskq with _mtx := some (.worker i) } }
        { w with pc := .l73_pop }
  | l73_pop (hpc : w.pc = .l73_pop) :
      WStep s i w
        { s with
          _taskq := { s._taskq.pop.2 with _mtx := none }
          popped := s.popped ++ s._taskq.front }
        { w with pc := .l77, f := s._taskq.pop.1, is_pop := s._taskq.pop.1.isSome }
  | l77_true (hpc : w.pc = .l77) (hp : w.is_pop = true) :
      WStep s i w s
        { w with pc := .l78 }
  | l77_false (hpc : w.pc = .l77) (hp : w.is_pop = false) :
      WStep s i w s
        { w with pc := .l85 }
  | l78_call (k : Nat) (hpc : w.pc = .l78) (hf : w.f = some k) :
      WStep s i w { s with executed := s.executed ++ [(i, k)] }
        { w with pc := .l79 }
  | l78_empty (hpc : w.pc = .l78) (hf : w.f = none) :
      WStep s i w s
        { w with pc := .crashed }
  | l79 (hpc : w.pc = .l79) (hq : s._taskq._mtx = none) :
      WStep s i w { s with _taskq := { s._taskq with _mtx := some (.worker i) } }
        { w with pc := .l79_pop }
  | l79_pop (hpc : w.pc = .l79_pop) :
      WStep s i w
        { s with
          _taskq := { s._taskq.pop.2 with _mtx := none }
          popped := s.popped ++ s._taskq.front }
        { w with pc := .l77, f := s._taskq.pop.1, is_pop := s._taskq.pop.1.isSome }
  | l85 (hpc : w.pc = .l85) (hm : s._mtx = none) :
      WStep s i w { s with _mtx := some (.worker i) }
        { w with pc := .l86 }
  | l86_stop (hpc : w.pc = .l86) (hs : s._is_stop = true) :
      WStep s i w s
        { w with pc := .l89 }
  | l86_go (hpc : w.pc = .l86) (hs : s._is_stop = false) :
      WStep s i w s
        { w with pc := .l87 }
  | l87 (hpc : w.pc = .l87) (hq : s._taskq._mtx = none) :
      WStep s i w { s with _taskq := { s._taskq with _mtx := some (.worker i) } }
        { w with pc := .l87_pop }
  | l87_pop (hpc : w.pc = .l87_pop) :
      WStep s i w
        { s with
          _taskq := { s._taskq.pop.2 with _mtx := none }
          popped := s.popped ++ s._taskq.front }
        { w with pc := .l88, f := s._taskq.pop.1 }
  | l88_claim (hpc : w.pc = .l88) (hf : w.f.isSome = true) :
      WStep s i w s
        { w with pc := .l89 }
  | l88_wait (hpc : w.pc = .l88) (hf : w.f.isSome = false) :
      WStep s i w { s with _mtx := none, _cv := s._cv ++ [i] }
        { w with pc := .wait }
  | wait (hpc : w.pc = .wait) (hcv : i ∉ s._cv) (hm : s._mtx = none) :
      WStep s i w { s with _mtx := some (.worker i) }
        { w with pc := .l86 }
  | l89_stop (hpc : w.pc = .l89) (hs : s._is_stop = true) :
      WStep s i w s
        { w with pc := .ret }
  | l89_go (hpc : w.pc = .l89) (hs : s._is_stop = false) :
      WStep s i w s
        { w with pc := .l90 }
  | l90 (hpc : w.pc = .l90) :
      WStep s i w { s with _mtx := none }
        { w with pc := .l77, is_pop := if w.f.isSome then true else w.is_pop }
  | ret (hpc : w.pc = .ret) :
      WStep s i w { s with _mtx := none }
        { w with pc := .terminated }

/-- The steps of caller `c`, one constructor per branch of `callerStep`. -/
inductive CStep (s : State) (c choice : Nat) : State → Prop where
  | l32 (f : TaskFunc) (hpc : s.callers c = .l32 f) (hq : s._taskq._mtx = none) :
      CStep s c choice
        ({ s with _taskq := { s._taskq with _mtx := some (.caller c) } }.setCaller c (.l33 f))
  | l33_push (f : TaskFunc) (q1 : TaskQueue) (cv1 : List Nat) (hpc : s.callers c = .l33 f)
      (hp : s._taskq.push f = some q1) (hn : notify_one q1._cv choice = some cv1) :
      CStep s c choice
        ({ s with
            _taskq := { q1 with _cv := cv1, _mtx := none }
            pushed := s.pushed ++ [f] }.setCaller c
          (.l109 f))
  | l33_wait (f : TaskFunc) (hpc : s.callers c = .l33 f) (hp : s._taskq.push f = none) :
      CStep s c choice
        ({ s with _taskq := { s._taskq with _cv := s._taskq._cv ++ [c], _mtx := none } }.setCaller c
          (.push_wait f))
  | push_wait (f : TaskFunc) (hpc : s.callers c = .push_wait f) (hcv : c ∉ s._taskq._cv)
      (hq : s._taskq._mtx = none) :
      CStep s c choice
        ({ s with _taskq := { s._taskq with _mtx := some (.caller c) } }.setCaller c (.l33 f))
  | l109 (f : TaskFunc) (hpc : s.callers c = .l109 f) (hm : s._mtx = none) :
      CStep s c choice ({ s with _mtx := some (.caller c) }.setCaller c (.l110 f))
  | l110 (f : TaskFunc) (cv1 : List Nat) (hpc : s.callers c = .l110 f)
      (hn : notify_one s._cv choice = some cv1) :
      CStep s c choice ({ s with _cv := cv1 }.setCaller c (.l111 f))
  | l111 (f : TaskFunc) (hpc : s.callers c = .l111 f) :
      CStep s c choice ({ s with _mtx := none, returned := s.returned ++ [f] }.setCaller c .idle)
  | l115 (hpc : s.callers c = .l115) :
      CStep s c choice ({ s with _is_stop := true }.setCaller c .l117)
  | l117 (hpc : s.callers c = .l117) (hm : s._mtx = none) :
      CStep s c choice ({ s with _mtx := some (.caller c) }.setCaller c .l118)
  | l118 (hpc : s.callers c = .l118) :
      CStep s c choice ({ s with _cv := [], broadcasts := s.broadcasts + 1 }.setCaller c .l119)
  | l119 (hpc : s.callers c = .l119) :
      CStep s c choice ({ s with _mtx := none }.setCaller c (.l121 0))
  | l121_loop (i : Nat) (hpc : s.callers c = .l121 i) (hi : (i : Int) < s._threads_num) :
      CStep s c choice (s.setCaller c (.l122 i))
  | l121_exit (i : Nat) (hpc : s.callers c = .l121 i) (hi : ¬ (i : Int) < s._threads_num) :
      CStep s c choice ({ s with stop_returns := s.stop_returns + 1 }.setCaller c .idle)
  | l122_joinable (i : Nat) (w : Worker) (hpc : s.callers c = .l122 i)
      (hw : s._threads[i]? = some w) (hj : w.joinable = true) :
      CStep s c choice (s.setCaller c (.l123 i))
  | l122_skip (i : Nat) (w : Worker) (hpc : s.callers c = .l122 i)
      (hw : s._threads[i]? = some w) (hj : w.joinable = false) :
      CStep s c choice (s.setCaller c (.l121 (i + 1)))
  | l123 (i : Nat) (w : Worker) (hpc : s.callers c = .l123 i) (hw : s._threads[i]? = some w)
      (ht : w.pc = .terminated) :
      CStep s c choice ((s.setWorker i { w with joinable := false }).setCaller c (.l121 (i + 1)))

/-- The transitions of `step`. -/
inductive Step (s : State) : Action → State → Prop where
  | worker (i : Nat) (w : Worker) (sh : State) (w1 : Worker) (hw : s._threads[i]? = some w)
      (h : WStep s i w sh w1) : Step s (.worker i) (sh.setWorker i w1)
  | caller (c choice : Nat) (s1 : State) (h : CStep s c choice s1) : Step s (.caller c choice) s1
  | submit (c : Nat) (f : TaskFunc) (hpc : s.callers c = .idle) :
      Step s (.submit c f) (s.setCaller c (.l32 f))
  | stop (c : Nat) (hpc : s.callers c = .idle) :
      Step s (.stop c)
        ({ s with
            before_stop := match s.before_stop with
              | some l => some l
              | none => some s.returned }.setCaller c .l115)
  | wake_worker (i : Nat) (hcv : i ∈ s._cv) :
      Step s (.wake_worker i) { s with _cv := s._cv.erase i }
  | wake_caller (c : Nat) (hcv : c ∈ s._taskq._cv) :
      Step s (.wake_caller c) { s with _taskq := { s._taskq with _cv := s._taskq._cv.erase c } }

/-! ## Limits of the machine types -/

/-- Largest value of `int` (32-bit). -/
def INT_MAX : Int := 2147483647

/-- Smallest value of `int` (32-bit). -/
def INT_MIN : Int := -2147483648

/-- The value of `max_size()` of `std::vector<std::unique_ptr<std::thread>>` in libstdc++ on
a 64-bit target: `PTRDIFF_MAX / sizeof(pointer)`. -/
def VECTOR_MAX_SIZE : Nat := 1152921504606846975

/-! ## Invariants of the reachable states -/

/-- What the locals of a worker satisfy at each place of `thread_do`: `is_pop` tells whether
`f` holds a target at the loop test, `f` holds one at the call, `f` is empty while the
worker is on its way to `wait`, `is_pop` is false from line 85 to line 90,
and no worker has invoked an empty function. -/
def Worker.ok (w : Worker) : Prop :=
  match w.pc with
  | .l77 => w.is_pop = w.f.isSome
  | .l78 => w.f.isSome = true
  | .l85 => w.f = none ∧ w.is_pop = false
  | .l86 => w.f = none ∧ w.is_pop = false
  | .l87 => w.f = none ∧ w.is_pop = false
  | .wait => w.f = none ∧ w.is_pop = false
  | .l87_pop => w.is_pop = false
  | .l88 => w.is_pop = false
  | .l89 => w.is_pop = false
  | .l90 => w.is_pop = false
  | .crashed => False
  | _ => True

/-- The tasks a worker has taken from the queue and not called yet. -/
def Worker.held (w : Worker) : List Nat :=
  match w.pc with
  | .l77 => w.f.toList
  | .l78 => w.f.toList
  | .l88 => w.f.toList
  | .l89 => w.f.toList
  | .l90 => w.f.toList
  | .ret => w.f.toList
  | .terminated => w.f.toList
  | .crashed => w.f.toList
  | _ => []

/-- How many times task `k` is in the hands of some worker, taken and not called yet. -/
def State.heldCount (s : State) (k : Nat) : Nat :=
  (s._threads.map (fun w => w.held.count k)).sum

/-- How many times task `k` has been called. -/
def State.execCount (s : State) (k : Nat) : Nat :=
  (s.executed.map Prod.snd).count k

/-- The caller is inside `stop`, past the store of line 115. -/
def CallerPc.past115 : CallerPc → Bool
  | .l117 => true
  | .l118 => true
  | .l119 => true
  | .l121 _ => true
  | .l122 _ => true
  | .l123 _ => true
  | _ => false

/-- The loop variable `i` of the join loop of `stop` (lines 121-125). -/
def CallerPc.joinIndex : CallerPc → Option Nat
  | .l121 i => some i
  | .l122 i => some i
  | .l123 i => some i
  | _ => none

/-- The join loop has dealt with all workers below its loop variable, and once a `stop` call
has returned it has dealt with all workers. -/
def State.joinInv (s : State) : Prop :=
  (∀ (c j : Nat), (s.callers c).joinIndex = some j →
    ∀ (i : Nat) (w : Worker), i < j → s._threads[i]? = some w → w.joinable = false) ∧
  (0 < s.stop_returns →
    ∀ (i : Nat) (w : Worker), s._threads[i]? = some w → w.joinable = false)

/-- The stop flag is set once a caller is past line 115, once `notify_all` has been issued and
once `stop` has returned. -/
def State.flagInv (s : State) : Prop :=
  (∀ c : Nat, (s.callers c).past115 = true → s._is_stop = true) ∧
  (0 < s.broadcasts → s._is_stop = true) ∧
  (0 < s.stop_returns → s._is_stop = true)

/-- The places of `thread_do` at which the worker holds the pool mutex. -/
def WorkerPc.holdsPool : WorkerPc → Bool
  | .l86 => true
  | .l87 => true
  | .l87_pop => true
  | .l88 => true
  | .l89 => true
  | .l90 => true
  | .ret => true
  | _ => false

/-- The places of `submit` and `stop` at which the caller holds the pool mutex. -/
def CallerPc.holdsPool : CallerPc → Bool
  | .l110 _ => true
  | .l111 _ => true
  | .l118 => true
  | .l119 => true
  | _ => false

/-- The places of `thread_do` at which the worker holds the queue mutex. -/
def WorkerPc.holdsQueue : WorkerPc → Bool
  | .l73_pop => true
  | .l79_pop => true
  | .l87_pop => true
  | _ => false

/-- The places of `push` at which the caller holds the queue mutex. -/
def CallerPc.holdsQueue : CallerPc → Bool
  | .l33 _ => true
  | _ => false

/-- A mutex `m` is held by exactly the thread that is inside one of its critical sections,
`holdsW` and `holdsC` telling where these are in the code of workers and callers. -/
def MutexInv (holdsW : WorkerPc → Bool) (holdsC : CallerPc → Bool) (m : Option Tid)
    (T : List Worker) (C : Nat → CallerPc) : Prop :=
  (∀ (i : Nat) (w : Worker), T[i]? = some w → holdsW w.pc = true → m = some (.worker i)) ∧
  (∀ c : Nat, holdsC (C c) = true → m = some (.caller c)) ∧
  (∀ i : Nat, m = some (.worker i) → ∃ w, T[i]? = some w ∧ holdsW w.pc = true) ∧
  (∀ c : Nat, m = some (.caller c) → holdsC (C c) = true)

/-- What a step of thread `t` does to a mutex: `t` acquires it (it was free and `t` enters a
critical section), `t` releases it (leaving the critical section), or the step leaves the
mutex alone and `t` stays inside or outside. -/
def LockMove (t : Tid) (m m1 : Option Tid) (h h1 : Bool) : Prop :=
  (m = none ∧ m1 = some t ∧ h = false ∧ h1 = true) ∨
  (m1 = none ∧ h = true ∧ h1 = false) ∨
  (m1 = m ∧ h1 = h)

/-- The pool mutex is held by exactly the thread that is inside a critical section of it. -/
def State.poolMutexInv (s : State) : Prop :=
  MutexInv WorkerPc.holdsPool CallerPc.holdsPool s._mtx s._threads s.callers

/-- The queue mutex is held by exactly the thread that is inside `push` or `pop`. -/
def State.queueMutexInv (s : State) : Prop :=
  MutexInv WorkerPc.holdsQueue CallerPc.holdsQueue s._taskq._mtx s._threads s.callers

/-- After the `notify_all` of `stop`: nobody is left in the wait set of the pool's condition
variable, and no worker is between a read of a false stop flag and the wait or line 90. -/
def State.broadcastInv (s : State) : Prop :=
  0 < s.broadcasts →
    s._cv = [] ∧
    ∀ (i : Nat) (w : Worker), s._threads[i]? = some w →
      w.pc ≠ .l87 ∧ w.pc ≠ .l87_pop ∧ w.pc ≠ .l88 ∧ w.pc ≠ .l90

/-- A task whose `submit` has returned, or is past `push`, has been enqueued, and the tasks
recorded at the first call of `stop` are tasks whose `submit` had returned. -/
def State.returnedInv (s : State) : Prop :=
  (∀ (c : Nat) (f : TaskFunc),
    (s.callers c = .l109 f ∨ s.callers c = .l110 f ∨ s.callers c = .l111 f) →
      f ∈ s.pushed) ∧
  (∀ f ∈ s.returned, f ∈ s.pushed) ∧
  (∀ l : List TaskFunc, s.before_stop = some l → ∀ f ∈ l, f ∈ s.returned)

/-! ## Schedules of the scenarios of the specification -/

/-- Worker `i` runs from the start of `thread_do` until it blocks in `wait`, the queue being
empty: lines 73, 77, 85 and the predicate of line 87 (8 steps). -/
def park (i : Nat) : List Action := List.replicate 8 (.worker i)

/-- Caller `c` calls `submit(f)` and runs it to its return, the queue having room; `choice`
is the worker that the `notify_one` of line 110 wakes. -/
def submitCall (c : Nat) (f : TaskFunc) (choice : Nat) : List Action :=
  [.submit c f, .caller c 0, .caller c 0, .caller c 0, .caller c choice, .caller c 0]

/-- Caller `c` calls `stop()` and runs it up to the join loop: lines 115 to 119. -/
def stopCall (c : Nat) : List Action :=
  [.stop c, .caller c 0, .caller c 0, .caller c 0, .caller c 0]

/-- Caller `c` joins worker `i`: lines 121 to 123. -/
def joinWorker (c : Nat) : List Action := [.caller c 0, .caller c 0, .caller c 0]

/-- Scenario A of the specification, pool(threads=1, capacity=1): the worker parks; `T1` is
submitted; the second `submit` finds the queue full and blocks; the woken worker dequeues
`T1`, runs it, finds the queue empty and parks again. -/
def scenarioA : List Action :=
  park 0 ++ submitCall 0 (some 1) 0 ++ [.submit 0 (some 2), .caller 0 0, .caller 0 0] ++
    List.replicate 17 (.worker 0)

/-- Scenario B of the specification, pool(threads=3, capacity=10): the three workers park,
nine tasks are submitted (the first three calls wake one worker each), then `stop` is called
before any woken worker has run; each worker re-locks the pool mutex, sees the stop flag and
returns; `stop` joins the three workers. -/
def scenarioB : List Action :=
  park 0 ++ park 1 ++ park 2 ++
    submitCall 0 (some 1) 0 ++ submitCall 0 (some 2) 1 ++ submitCall 0 (some 3) 2 ++
    submitCall 0 (some 4) 0 ++ submitCall 0 (some 5) 0 ++ submitCall 0 (some 6) 0 ++
    submitCall 0 (some 7) 0 ++ submitCall 0 (some 8) 0 ++ submitCall 0 (some 9) 0 ++
    stopCall 0 ++
    List.replicate 4 (.worker 0) ++ List.replicate 4 (.worker 1) ++ List.replicate 4 (.worker 2) ++
    joinWorker 0 ++ joinWorker 0 ++ joinWorker 0 ++ [.caller 0 0]

/-- Scenario C of the specification, pool(threads=1, capacity=5), first part: the worker parks
and `stop` is called, with no task ever submitted, and runs up to the join loop. -/
def scenarioC_stop : List Action := park 0 ++ stopCall 0

/-- Scenario C, second part: the worker re-locks the pool mutex, sees the stop flag and
returns; `stop` joins it and returns. -/
def scenarioC_rest : List Action :=
  List.replicate 4 (.worker 0) ++ joinWorker 0 ++ [.caller 0 0]

/-- Scenario C of the specification. -/
def scenarioC : List Action := scenarioC_stop ++ scenarioC_rest

/-- A claimed task at shutdown, pool(threads=1, capacity=1), first part: the worker parks,
`T1` is submitted, the woken worker dequeues `T1` inside the predicate of its wait, which
returns true. -/
def scenarioClaim_claimed : List Action :=
  park 0 ++ submitCall 0 (some 1) 0 ++ List.replicate 5 (.worker 0)

/-- A claimed task at shutdown, second part: `stop` sets the flag before the worker reaches
line 89; the worker returns and `stop` joins it. -/
def scenarioClaim_rest : List Action :=
  [.stop 0, .caller 0 0] ++ List.replicate 2 (.worker 0) ++
    [.caller 0 0, .caller 0 0, .caller 0 0] ++ joinWorker 0 ++ [.caller 0 0]

/-- A normal run, pool(threads=1, capacity=1): the worker parks, `T1` is submitted, the worker
dequeues and runs it and parks again; then `stop` is called and returns. -/
def scenarioRun : List Action :=
  park 0 ++ submitCall 0 (some 1) 0 ++ List.replicate 17 (.worker 0) ++
    stopCall 0 ++ List.replicate 4 (.worker 0) ++ joinWorker 0 ++ [.caller 0 0]

/-! ## Measures for the progress of the shutdown -/

/-- A bound on the number of steps a worker takes before it returns, once the stop flag is
set, not counting the loop iterations paid for by queue entries. -/
def Worker.rank (w : Worker) : Nat :=
  match w.pc with
  | .l73 => 7
  | .l73_pop => 6
  | .l77 => if w.is_pop then 9 else 5
  | .l78 => 8
  | .l79 => 7
  | .l79_pop => 6
  | .l85 => 4
  | .l86 => 3
  | .l87 => 7
  | .l87_pop => 6
  | .l88 => 5
  | .wait => 4
  | .l89 => 2
  | .l90 => 10
  | .ret => 1
  | .terminated => 0
  | .crashed => 0

/-- A bound on the number of steps `stop` takes from line 119 on, for a pool of `N` workers. -/
def CallerPc.rank (N : Nat) : CallerPc → Nat
  | .l119 => 3 * N + 2
  | .l121 j => 3 * (N - j) + 1
  | .l122 j => 3 * (N - j)
  | .l123 j => 3 * (N - j) - 1
  | _ => 0

/-- A bound on the number of steps the workers and the caller `c` of `stop` take together. -/
def State.rank (s : State) (c : Nat) : Nat :=
  (s._threads.map Worker.rank).sum + 4 * s._taskq._tasks.length +
    (s.callers c).rank s._threads.length

/-- The caller is inside `stop`, past the `notify_all` of line 118. -/
def CallerPc.afterBroadcast : CallerPc → Bool
  | .l119 => true
  | .l121 _ => true
  | .l122 _ => true
  | .l123 _ => true
  | _ => false

/-- The actions of the pool's workers and of caller `c` inside its call: no new call by any
thread, no spurious wakeup. -/
def Action.within (c : Nat) : Action → Bool
  | .worker _ => true
  | .caller c2 _ => decide (c2 = c)
  | _ => false

/-- Caller `c` has issued the broadcast of `stop` and is in the rest of `stop` or has returned
from it, while no other external thread is inside a call. -/
def State.shuttingDown (s : State) (c : Nat) : Prop :=
  0 < s.broadcasts ∧ (∀ c2 : Nat, c2 ≠ c → s.callers c2 = .idle) ∧
  ((s.callers c).afterBroadcast = true ∨ (s.callers c = .idle ∧ 0 < s.stop_returns))

/-- Whether worker `i`, in state `w`, can take a step: it is not waiting for a mutex that is
taken, not blocked in `wait` un-notified, and has not left `thread_do`. -/
def workerEnabled (s : State) (i : Nat) (w : Worker) : Prop :=
  match w.pc with
  | .l73 => s._taskq._mtx = none
  | .l79 => s._taskq._mtx = none
  | .l87 => s._taskq._mtx = none
  | .l85 => s._mtx = none
  | .wait => i ∉ s._cv ∧ s._mtx = none
  | .terminated => False
  | .crashed => False
  | _ => True

/-- The join loop of `stop` only looks at workers that exist. -/
def State.joinBound (s : State) : Prop :=
  ∀ (c j : Nat), (s.callers c = .l122 j ∨ s.callers c = .l123 j) → j < s._threads.length

/-- The external thread whose program counter an action changes, when there is one. -/
def Action.callerOf : Action → Option Nat
  | .caller c _ => some c
  | .submit c _ => some c
  | .stop c => some c
  | _ => none

/-! ## Places of the worker loop, construction with the default capacity -/

/-- The draining part of `thread_do`: lines 73-81. -/
def WorkerPc.draining : WorkerPc → Bool
  | .l73 => true
  | .l73_pop => true
  | .l77 => true
  | .l78 => true
  | .l79 => true
  | .l79_pop => true
  | _ => false

/-- The parking part of `thread_do`: lines 84-91, up to the check of the stop flag and the
hand-over of a claimed task. -/
def WorkerPc.parking : WorkerPc → Bool
  | .l85 => true
  | .l86 => true
  | .l87 => true
  | .l87_pop => true
  | .l88 => true
  | .wait => true
  | .l89 => true
  | .l90 => true
  | _ => false

/-- The worker is returning or has returned from `thread_do`. -/
def WorkerPc.exited : WorkerPc → Bool
  | .ret => true
  | .terminated => true
  | _ => false

/-- The constructor called with one argument, `ThreadPool(threads_num)`: `max_tasks_num`
takes its default value `MAX_TASKS_NUM` (line 95). -/
def State.newDefault (max_size : Nat) (threads_num : Int) : Except CtorError State :=
  State.new max_size threads_num MAX_TASKS_NUM

/-- An empty `std::function` in the queue, pool(threads=1, capacity=5): the worker parks, an
empty function is submitted, the woken worker dequeues it inside the predicate of its wait
and blocks again. -/
def scenarioEmpty : List Action :=
  park 0 ++ submitCall 0 none 0 ++ List.replicate 5 (.worker 0)

/-! ## The wait set of the pool's condition variable, a second call of `stop` -/

/-- The wait set of the pool's condition variable holds no worker twice, and each of its
members is a worker blocked in the `wait` of line 86. -/
def State.cvInv (s : State) : Prop :=
  s._cv.Nodup ∧ ∀ i ∈ s._cv, ∃ w, s._threads[i]? = some w ∧ w.pc = .wait

/-- Caller `c` calls `stop()` on a pool of `n` workers none of which is joinable, and runs it
to its return: lines 115 to 119, then for each worker the tests of lines 121 and 122, then
the last test of line 121. -/
def stopAgain (c n : Nat) : List Action :=
  stopCall c ++ List.replicate (2 * n + 1) (.caller c 0)

/-- Worker `i`, in state `w`, will look at the queue again, or call the task it has claimed,
before it blocks: it is not blocked in `wait` un-notified, not about to block (line 87 with
nothing claimed), and has not left `thread_do`. -/
def workerAwake (s : State) (i : Nat) (w : Worker) : Bool :=
  match w.pc with
  | .wait => decide (i ∉ s._cv)
  | .l88 => w.f.isSome
  | .ret => false
  | .terminated => false
  | .crashed => false
  | _ => true

/-- No missed wakeup: while the stop flag is false and the queue is not empty, a `submit`
call is between its `push` and its `notify_one` (lines 109-110), or some worker is awake. -/
def State.wakeupInv (s : State) : Prop :=
  s._is_stop = false → s._taskq._tasks ≠ [] →
    (∃ c f, s.callers c = .l109 f ∨ s.callers c = .l110 f) ∨
    (∃ i w, s._threads[i]? = some w ∧ workerAwake s i w = true)

/-- An empty `std::function` ahead of a task, pool(threads=1, capacity=5): the worker parks,
an empty function is submitted and the worker is notified, `T2` is submitted while nobody
waits, then the worker dequeues the empty function inside the predicate of its wait and
blocks again, with `T2` in the queue. -/
def scenarioMissed : List Action :=
  park 0 ++ submitCall 0 none 0 ++ submitCall 0 (some 2) 0 ++ List.replicate 5 (.worker 0)

/-- The worker has claimed a task and is on its way to the call of line 78. -/
def Worker.holdsTask (w : Worker) : Bool :=
  match w.pc with
  | .l77 => w.is_pop
  | .l78 => w.f.isSome
  | .l88 => w.f.isSome
  | .l89 => w.f.isSome
  | .l90 => w.f.isSome
  | _ => false

/-- Work is pending: a worker has claimed a task, or the queue is not empty and a worker is
awake. -/
def State.workPending (s : State) : Prop :=
  (∃ (i : Nat) (w : Worker), s._threads[i]? = some w ∧ w.holdsTask = true) ∨
  (s._taskq._tasks ≠ [] ∧ ∃ i w, s._threads[i]? = some w ∧ workerAwake s i w = true)

/-- A bound on the number of steps a worker takes before it calls a task or blocks in
`wait`, while the stop flag is false; a worker in `wait` counts for its steps after a
wakeup. -/
def Worker.idleRank (w : Worker) : Nat :=
  match w.pc with
  | .l73 => 12
  | .l73_pop => 11
  | .l77 => if w.is_pop then 2 else 10
  | .l78 => 1
  | .l79 => 12
  | .l79_pop => 11
  | .l85 => 9
  | .l86 => 8
  | .l87 => 7
  | .l87_pop => 6
  | .l88 => if w.f.isSome then 5 else 0
  | .wait => 9
  | .l89 => if w.f.isSome then 4 else 12
  | .l90 => if w.f.isSome then 3 else 11
  | .ret => 1
  | .terminated => 0
  | .crashed => 0

/-- A bound on the number of steps the workers take together before one of them calls a
task, while the stop flag is false and nobody notifies them: a worker that blocks in `wait`
joins the wait set and takes no further step. -/
def State.idleRank (s : State) : Nat :=
  (s._threads.map Worker.idleRank).sum + 10 * (s._threads.length - s._cv.length)

/-- The action is a step of a worker. -/
def Action.isWorker : Action → Bool
  | .worker _ => true
  | _ => false

/-- A task is submitted to a parked worker, pool(threads=1, capacity=5). -/
def scenarioWake : List Action := park 0 ++ submitCall 0 (some 1) 0

/-- The woken worker re-locks the pool mutex, dequeues the task inside the predicate of its
wait and calls it. -/
def scenarioWake_rest : List Action := List.replicate 9 (.worker 0)

/-! ## Tasks started after the stop flag, order of the calls -/

/-- The places of `thread_do` from which a worker reaches the `return` of line 89 without
going through the call of line 78, once the stop flag is set: from the lock of line 85 to
the check of line 89, and the return. -/
def WorkerPc.onWaitPath : WorkerPc → Bool
  | .l85 => true
  | .l86 => true
  | .l87 => true
  | .l87_pop => true
  | .l88 => true
  | .wait => true
  | .l89 => true
  | .ret => true
  | .terminated => true
  | _ => false

/-- The tasks worker `i` has called, in order. -/
def State.startedBy (s : State) (i : Nat) : List Nat :=
  (s.executed.filter (fun e => e.1 = i)).map Prod.snd

/-- A busy worker at shutdown, pool(threads=1, capacity=5), first part: `T1` and `T2` are
submitted, the worker dequeues `T1` at line 73 and calls it, then `stop` sets the flag. -/
def scenarioDrain_stop : List Action :=
  submitCall 0 (some 1) 0 ++ submitCall 0 (some 2) 0 ++ List.replicate 4 (.worker 0) ++
    [.stop 0, .caller 0 0]

/-- A busy worker at shutdown, second part: the worker dequeues `T2` at line 79 and calls
it. -/
def scenarioDrain_rest : List Action := List.replicate 4 (.worker 0)

/-- A parked worker at shutdown, pool(threads=1, capacity=5), first part: the worker parks,
`T1` is submitted and the worker is notified, then `stop` sets the flag before the worker
has run. -/
def scenarioParked_stop : List Action :=
  park 0 ++ submitCall 0 (some 1) 0 ++ [.stop 0, .caller 0 0]

/-- A parked worker at shutdown, second part: the worker re-locks the pool mutex, sees the
flag and returns. -/
def scenarioParked_rest : List Action := List.replicate 4 (.worker 0)

/-- The tasks passed to `submit` by the calls made in a schedule, in order. -/
def submitted : List Action → List TaskFunc
  | [] => []
  | .submit _ f :: l => f :: submitted l
  | _ :: l => submitted l

/-- The external thread that makes a call of `submit`, for the action that starts one. -/
def Action.submitter : Action → Option Nat
  | .submit c _ => some c
  | _ => none

/-- The task of a `submit` call that has not enqueued it yet. -/
def CallerPc.inflight : CallerPc → List TaskFunc
  | .l32 f => [f]
  | .l33 f => [f]
  | .push_wait f => [f]
  | _ => []

/-- Two workers, pool(threads=2, capacity=5): one producer submits `T1` then `T2`; worker 0
dequeues `T1` and is about to call it, worker 1 dequeues `T2` and calls it, then worker 0
calls `T1`. -/
def scenarioRace : List Action :=
  submitCall 0 (some 1) 0 ++ submitCall 0 (some 2) 0 ++ List.replicate 3 (.worker 0) ++
    List.replicate 4 (.worker 1) ++ [.worker 0]

/-! # Theorems -/

/-! ## The queue used by one thread at a time -/

theorem toSizeT_of_nonneg (x : Int) (h0 : 0 ≤ x) (h1 : x < (SIZE_MOD : Int)) :
    (toSizeT x : Int) = x := by
  unfold toSizeT
  rw [Int.emod_eq_of_lt h0 h1]
  exact Int.toNat_of_nonneg h0

theorem TaskQueue.push_eq_some (q : TaskQueue) (f : TaskFunc) (q1 : TaskQueue)
    (h : q.push f = some q1) :
    q._tasks.length < toSizeT q._max_tasks_num ∧ q1 = { q with _tasks := q._tasks ++ [f] } := by
  unfold TaskQueue.push TaskQueue.has_room at h
  split at h
  · rename_i hr
    simp at h
    exact ⟨by simpa using hr, h.symm⟩
  · simp at h

theorem TaskQueue.pop_tasks (q : TaskQueue) : q.front ++ q.pop.2._tasks = q._tasks := by
  unfold TaskQueue.front TaskQueue.pop
  cases h : q._tasks <;> simp [h]

theorem TaskQueue.pop_fields (q : TaskQueue) :
    q.pop.2._max_tasks_num = q._max_tasks_num ∧ q.pop.2._mtx = q._mtx ∧
      q.pop.2._cv = q._cv := by
  unfold TaskQueue.pop
  cases h : q._tasks <;> simp

theorem TaskQueue.pop_length_le (q : TaskQueue) : q.pop.2._tasks.length ≤ q._tasks.length := by
  have h := congrArg List.length (TaskQueue.pop_tasks q)
  simp at h
  omega

theorem QueueRun.op_inv (r : QueueRun) (o : QueueOp)
    (h : r.q._tasks.length ≤ toSizeT r.q._max_tasks_num) :
    (r.op o).q._max_tasks_num = r.q._max_tasks_num ∧
      (r.op o).q._tasks.length ≤ toSizeT r.q._max_tasks_num := by
  cases o with
  | push f =>
    cases hp : r.q.push f with
    | none => simpa [QueueRun.op, hp] using h
    | some q1 =>
      obtain ⟨h1, h2⟩ := TaskQueue.push_eq_some _ _ _ hp
      subst h2
      simp [QueueRun.op, hp]
      omega
  | pop =>
    unfold QueueRun.op
    have := TaskQueue.pop_length_le r.q
    have := TaskQueue.pop_fields r.q
    simp
    constructor
    · tauto
    · omega

theorem QueueRun.ops_inv (l : List QueueOp) (r : QueueRun)
    (h : r.q._tasks.length ≤ toSizeT r.q._max_tasks_num) :
    (r.ops l).q._max_tasks_num = r.q._max_tasks_num ∧
      (r.ops l).q._tasks.length ≤ toSizeT r.q._max_tasks_num := by
  induction l generalizing r with
  | nil => exact ⟨rfl, h⟩
  | cons o l ih =>
    obtain ⟨h1, h2⟩ := QueueRun.op_inv r o h
    have := ih (r.op o) (by rw [h1]; exact h2)
    rw [h1] at this
    exact this

theorem QueueRun.op_fifo (r : QueueRun) (o : QueueOp)
    (h : r.pushed = r.popped ++ r.q._tasks) :
    (r.op o).pushed = (r.op o).popped ++ (r.op o).q._tasks := by
  cases o with
  | push f =>
    cases hp : r.q.push f with
    | none => simpa [QueueRun.op, hp] using h
    | some q1 =>
      obtain ⟨_, h2⟩ := TaskQueue.push_eq_some _ _ _ hp
      subst h2
      simp [QueueRun.op, hp, h]
  | pop =>
    unfold QueueRun.op
    simp [TaskQueue.pop_tasks, h]

theorem QueueRun.ops_fifo (l : List QueueOp) (r : QueueRun)
    (h : r.pushed = r.popped ++ r.q._tasks) :
    (r.ops l).pushed = (r.ops l).popped ++ (r.ops l).q._tasks := by
  induction l generalizing r with
  | nil => exact h
  | cons o l ih => exact ih (r.op o) (QueueRun.op_fifo r o h)

/-! ## Inversion of the transition function -/

theorem step_sound (s : State) (a : Action) (s1 : State) (h : step s a = some s1) :
    Step s a s1 := by
  cases a with
  | worker i =>
    simp only [step] at h
    split at h
    · rename_i w hw
      unfold workerStep at h
      split at h <;> (try split at h) <;> simp at h <;> subst h
      · exact .worker i w _ _ hw (.l73 ‹_› ‹_›)
      · exact .worker i w _ _ hw (.l73_pop ‹_›)
      · exact .worker i w _ _ hw (.l77_true ‹_› ‹_›)
      · exact .worker i w _ _ hw (.l77_false ‹_› (by simpa using ‹¬ w.is_pop = true›))
      · exact .worker i w _ _ hw (.l78_call _ ‹_› ‹_›)
      · exact .worker i w _ _ hw (.l78_empty ‹_› ‹_›)
      · exact .worker i w _ _ hw (.l79 ‹_› ‹_›)
      · exact .worker i w _ _ hw (.l79_pop ‹_›)
      · exact .worker i w _ _ hw (.l85 ‹_› ‹_›)
      · exact .worker i w _ _ hw (.l86_stop ‹_› ‹_›)
      · exact .worker i w _ _ hw (.l86_go ‹_› (by simpa using ‹¬ s._is_stop = true›))
      · exact .worker i w _ _ hw (.l87 ‹_› ‹_›)
      · exact .worker i w _ _ hw (.l87_pop ‹_›)
      · exact .worker i w _ _ hw (.l88_claim ‹_› ‹_›)
      · exact .worker i w _ _ hw (.l88_wait ‹_› (by simpa using ‹¬ w.f.isSome = true›))
      · exact .worker i w _ _ hw (.wait ‹_› (‹_ ∧ _›).1 (‹_ ∧ _›).2)
      · exact .worker i w _ _ hw (.l89_stop ‹_› ‹_›)
      · exact .worker i w _ _ hw (.l89_go ‹_› (by simpa using ‹¬ s._is_stop = true›))
      · have h90 := Step.worker i w _ _ hw (WStep.l90 ‹_›)
        rw [if_pos ‹_›] at h90
        exact h90
      · have h90 := Step.worker i w _ _ hw (WStep.l90 ‹_›)
        rw [if_neg ‹_›] at h90
        exact h90
      · exact .worker i w _ _ hw (.ret ‹_›)
    · simp at h
  | caller c choice =>
    simp only [step] at h
    unfold callerStep at h
    split at h <;> (try split at h) <;> (try split at h) <;> simp at h <;> subst h
    · exact .caller c choice _ (.l32 _ ‹_› ‹_›)
    · exact .caller c choice _ (.l33_push _ _ _ ‹_› ‹_› ‹_›)
    · exact .caller c choice _ (.l33_wait _ ‹_› ‹_›)
    · exact .caller c choice _ (.push_wait _ ‹_› (‹_ ∧ _›).1 (‹_ ∧ _›).2)
    · exact .caller c choice _ (.l109 _ ‹_› ‹_›)
    · exact .caller c choice _ (.l110 _ _ ‹_› ‹_›)
    · exact .caller c choice _ (.l111 _ ‹_›)
    · exact .caller c choice _ (.l115 ‹_›)
    · exact .caller c choice _ (.l117 ‹_› ‹_›)
    · exact .caller c choice _ (.l118 ‹_›)
    · exact .caller c choice _ (.l119 ‹_›)
    · exact .caller c choice _ (.l121_loop _ ‹_› ‹_›)
    · exact .caller c choice _ (.l121_exit _ ‹_› ‹_›)
    · exact .caller c choice _ (.l122_joinable _ _ ‹_› ‹_› ‹_›)
    · exact .caller c choice _ (.l122_skip _ _ ‹_› ‹_› (by simpa using ‹¬ _ = true›))
    · exact .caller c choice _ (.l123 _ _ ‹_› ‹_› ‹_›)
  | submit c f =>
    simp only [step] at h
    split at h <;> simp at h
    subst h
    exact .submit c f ‹_›
  | stop c =>
    simp only [step] at h
    split at h <;> simp at h
    subst h
    exact .stop c ‹_›
  | wake_worker i =>
    simp only [step] at h
    split at h <;> simp at h
    subst h
    exact .wake_worker i ‹_›
  | wake_caller c =>
    simp only [step] at h
    split at h <;> simp at h
    subst h
    exact .wake_caller c ‹_›

/-! ## Reachable states and inductive invariants -/

theorem run_invariant (P : State → Prop)
    (hstep : ∀ s a s1, P s → Step s a s1 → P s1) :
    ∀ (l : List Action) (s s1 : State), P s → run s l = some s1 → P s1 := by
  intro l
  induction l with
  | nil =>
    intro s s1 hP h
    simp [run] at h
    exact h ▸ hP
  | cons a l ih =>
    intro s s1 hP h
    simp only [run] at h
    cases hs : step s a with
    | none => simp [hs] at h
    | some s2 =>
      simp only [hs] at h
      exact ih s2 s1 (hstep s a s2 hP (step_sound s a s2 hs)) h

theorem reachable_invariant {n : Nat} {cap : Int} (P : State → Prop)
    (h0 : P (State.init n cap))
    (hstep : ∀ s a s1, P s → Step s a s1 → P s1) :
    ∀ s, Reachable n cap s → P s := by
  intro s hr
  obtain ⟨l, hl⟩ := hr
  exact run_invariant P hstep l _ s h0 hl

theorem reachable_init (n : Nat) (cap : Int) : Reachable n cap (State.init n cap) :=
  ⟨[], rfl⟩

theorem run_append (l1 l2 : List Action) (s s1 s2 : State) (h1 : run s l1 = some s1)
    (h2 : run s1 l2 = some s2) : run s (l1 ++ l2) = some s2 := by
  induction l1 generalizing s with
  | nil =>
    simp [run] at h1
    subst h1
    simpa using h2
  | cons a l ih =>
    simp only [run, List.cons_append] at h1 ⊢
    cases hs : step s a with
    | none => simp [hs] at h1
    | some s3 =>
      simp only [hs] at h1 ⊢
      exact ih s3 h1

theorem reachable_step {n : Nat} {cap : Int} {s s1 : State} (a : Action)
    (hr : Reachable n cap s) (hs : step s a = some s1) : Reachable n cap s1 := by
  obtain ⟨l, hl⟩ := hr
  exact ⟨l ++ [a], run_append l [a] _ s s1 hl (by simp [run, hs])⟩

/-- Dequeued entries followed by the queue content are the enqueued entries. -/
theorem step_fifo {s s1 : State} {a : Action} (h : Step s a s1)
    (hi : s.pushed = s.popped ++ s._taskq._tasks) :
    s1.pushed = s1.popped ++ s1._taskq._tasks := by
  cases h with
  | worker i w sh w1 hw hws =>
    cases hws <;> simpa [State.setWorker, TaskQueue.pop_tasks] using hi
  | caller c choice s1 hcs =>
    cases hcs <;> try (simpa [State.setWorker, State.setCaller] using hi)
    case l33_push f q1 cv1 hpc hp hn =>
      obtain ⟨_, hq⟩ := TaskQueue.push_eq_some _ _ _ hp
      subst hq
      simp [State.setCaller, hi]
  | _ => simpa [State.setCaller] using hi

theorem reachable_fifo {n : Nat} {cap : Int} {s : State} (hr : Reachable n cap s) :
    s.pushed = s.popped ++ s._taskq._tasks :=
  reachable_invariant (fun s => s.pushed = s.popped ++ s._taskq._tasks) rfl
    (fun _ _ _ hi h => step_fifo h hi) s hr

/-- The capacity field never changes and the queue never holds more than it allows. -/
theorem step_capacity {s s1 : State} {a : Action} {cap : Int} (h : Step s a s1)
    (hi : s._taskq._max_tasks_num = cap ∧ s._taskq._tasks.length ≤ toSizeT cap) :
    s1._taskq._max_tasks_num = cap ∧ s1._taskq._tasks.length ≤ toSizeT cap := by
  have hpop := TaskQueue.pop_fields s._taskq
  have hlen := TaskQueue.pop_length_le s._taskq
  cases h with
  | worker i w sh w1 hw hws =>
    cases hws <;> try (simpa [State.setWorker] using hi)
    all_goals
      simp [State.setWorker, hpop.1, hi.1]
      omega
  | caller c choice s1 hcs =>
    cases hcs <;> try (simpa [State.setWorker, State.setCaller] using hi)
    case l33_push f q1 cv1 hpc hp hn =>
      obtain ⟨hlt, hq⟩ := TaskQueue.push_eq_some _ _ _ hp
      subst hq
      simp [State.setCaller, hi.1]
      rw [hi.1] at hlt
      omega
  | _ => simpa [State.setCaller] using hi

theorem reachable_capacity {n : Nat} {cap : Int} {s : State} (hr : Reachable n cap s) :
    s._taskq._max_tasks_num = cap ∧ s._taskq._tasks.length ≤ toSizeT cap :=
  reachable_invariant
    (fun s => s._taskq._max_tasks_num = cap ∧ s._taskq._tasks.length ≤ toSizeT cap)
    ⟨rfl, Nat.zero_le _⟩ (fun _ _ _ hi h => step_capacity h hi) s hr

/-! ## C1 - C3: the bounded queue -/

theorem toSizeT_int (x : Int) (h0 : 0 ≤ x) (h1 : x ≤ INT_MAX) : (toSizeT x : Int) = x :=
  toSizeT_of_nonneg x h0 (by unfold INT_MAX at h1; unfold SIZE_MOD; omega)

theorem TaskQueue.push_of_room (q : TaskQueue) (f : TaskFunc)
    (h : q._tasks.length < toSizeT q._max_tasks_num) :
    q.push f = some { q with _tasks := q._tasks ++ [f] } := by
  simp [TaskQueue.push, TaskQueue.has_room, h]

theorem TaskQueue.push_of_full (q : TaskQueue) (f : TaskFunc)
    (h : ¬ q._tasks.length < toSizeT q._max_tasks_num) : q.push f = none := by
  simp [TaskQueue.push, TaskQueue.has_room, h]

/-- C1. Capacity invariant of `TaskQueue`: for a capacity `cap ≥ 1`, after any sequence of
`push` and `pop` operations on the initially empty queue, and in every state the pool can
reach, the queue holds at most `cap` tasks; `push` enqueues exactly when the length is below
`cap`, at the tail; at length `cap` it enqueues nothing: the queue is unchanged and the caller
is left blocked in the wait set of the queue's condition variable. -/
theorem capacity_invariant (cap : Int) (hcap : 1 ≤ cap) (hint : cap ≤ INT_MAX)
    (ops : List QueueOp) (n : Nat) (s : State) (hs : Reachable n cap s) :
    (((QueueRun.start cap).ops ops).q._tasks.length : Int) ≤ cap ∧
    (∀ f : TaskFunc,
      ((((QueueRun.start cap).ops ops).q._tasks.length : Int) < cap →
        ((QueueRun.start cap).ops ops).q.push f =
          some { ((QueueRun.start cap).ops ops).q with
            _tasks := ((QueueRun.start cap).ops ops).q._tasks ++ [f] }) ∧
      ((((QueueRun.start cap).ops ops).q._tasks.length : Int) = cap →
        ((QueueRun.start cap).ops ops).q.push f = none ∧
        (((QueueRun.start cap).ops ops).op (.push f)).q = ((QueueRun.start cap).ops ops).q)) ∧
    (s._taskq._tasks.length : Int) ≤ cap ∧
    (∀ (c choice : Nat) (f : TaskFunc) (s1 : State),
      s.callers c = .l33 f → step s (.caller c choice) = some s1 →
        ((s._taskq._tasks.length : Int) < cap ∧ s1._taskq._tasks = s._taskq._tasks ++ [f]) ∨
        ((s._taskq._tasks.length : Int) = cap ∧ s1._taskq._tasks = s._taskq._tasks ∧
          s1.callers c = .push_wait f ∧ c ∈ s1._taskq._cv)) := by
  have hsz : (toSizeT cap : Int) = cap := toSizeT_int cap (by omega) hint
  obtain ⟨hm, hl⟩ := QueueRun.ops_inv ops (QueueRun.start cap) (Nat.zero_le _)
  have hm2 : ((QueueRun.start cap).ops ops).q._max_tasks_num = cap := hm
  have hl2 : ((QueueRun.start cap).ops ops).q._tasks.length ≤ toSizeT cap := hl
  obtain ⟨hc1, hc2⟩ := reachable_capacity hs
  refine ⟨by omega, fun f => ⟨fun hlt => ?_, fun heq => ?_⟩, by omega, ?_⟩
  · exact TaskQueue.push_of_room _ f (by rw [hm2]; omega)
  · have hp : ((QueueRun.start cap).ops ops).q.push f = none :=
      TaskQueue.push_of_full _ f (by rw [hm2]; omega)
    exact ⟨hp, by simp [QueueRun.op, hp]⟩
  · intro c choice f s1 hpc hstep
    simp only [step, callerStep, hpc] at hstep
    cases hp : s._taskq.push f with
    | some q1 =>
      obtain ⟨hlt, hq⟩ := TaskQueue.push_eq_some _ _ _ hp
      subst hq
      simp only [hp] at hstep
      split at hstep
      · simp at hstep
        subst hstep
        left
        simp [State.setCaller]
        rw [hc1] at hlt
        omega
      · simp at hstep
    | none =>
      simp only [hp] at hstep
      simp at hstep
      subst hstep
      have hfull : ¬ s._taskq._tasks.length < toSizeT s._taskq._max_tasks_num := by
        intro hlt
        rw [TaskQueue.push_of_room _ f hlt] at hp
        simp at hp
      rw [hc1] at hfull
      right
      simp [State.setCaller]
      omega

/-- The capacity invariant at capacity 3, after two pushes and a pop, in the initial state of
a pool with two workers. -/
theorem capacity_invariant_witness :
    ((((QueueRun.start 3).ops [.push (some 1), .push (some 2), .pop]).q._tasks.length : Int)
      ≤ 3) ∧ ((State.init 2 3)._taskq._tasks.length : Int) ≤ 3 :=
  have h := capacity_invariant 3 (by decide) (by decide) [.push (some 1), .push (some 2), .pop]
    2 (State.init 2 3) (reachable_init 2 3)
  ⟨h.1, h.2.2.1⟩

/-- C2. FIFO order of `TaskQueue`: `push` appends at the tail, `pop` on a non-empty queue
returns the head and removes exactly it; hence, after any sequence of operations and in every
reachable state of the pool, the dequeued tasks followed by the queue content are the enqueued
tasks, so the k-th dequeued task is the k-th enqueued one. -/
theorem fifo_order (ops : List QueueOp) (n : Nat) (cap : Int) (s : State)
    (hs : Reachable n cap s) :
    (∀ (q q1 : TaskQueue) (f : TaskFunc), q.push f = some q1 → q1._tasks = q._tasks ++ [f]) ∧
    (∀ (q : TaskQueue) (f : TaskFunc) (rest : List TaskFunc), q._tasks = f :: rest →
      q.pop.1 = f ∧ q.pop.2._tasks = rest ∧ q.front = [f]) ∧
    ((QueueRun.start cap).ops ops).pushed =
      ((QueueRun.start cap).ops ops).popped ++ ((QueueRun.start cap).ops ops).q._tasks ∧
    (∀ k, k < ((QueueRun.start cap).ops ops).popped.length →
      ((QueueRun.start cap).ops ops).popped[k]? = ((QueueRun.start cap).ops ops).pushed[k]?) ∧
    s.pushed = s.popped ++ s._taskq._tasks ∧
    (∀ k, k < s.popped.length → s.popped[k]? = s.pushed[k]?) := by
  have h1 := QueueRun.ops_fifo ops (QueueRun.start cap) rfl
  have h2 := reachable_fifo hs
  refine ⟨?_, ?_, h1, ?_, h2, ?_⟩
  · intro q q1 f hp
    obtain ⟨_, hq⟩ := TaskQueue.push_eq_some _ _ _ hp
    subst hq
    rfl
  · intro q f rest hq
    simp [TaskQueue.pop, TaskQueue.front, hq]
  · intro k hk
    rw [h1, List.getElem?_append_left hk]
  · intro k hk
    rw [h2, List.getElem?_append_left hk]

/-- The FIFO property on the run push 1, push 2, pop, at the initial state of a pool. -/
theorem fifo_order_witness :
    ((QueueRun.start 3).ops [.push (some 1), .push (some 2), .pop]).pushed =
      ((QueueRun.start 3).ops [.push (some 1), .push (some 2), .pop]).popped ++
        ((QueueRun.start 3).ops [.push (some 1), .push (some 2), .pop]).q._tasks :=
  (fifo_order [.push (some 1), .push (some 2), .pop] 2 3 (State.init 2 3)
    (reachable_init 2 3)).2.2.1

/-- C3. `pop` never blocks: on an empty queue it returns the empty function and leaves the
queue empty; a worker inside `pop` (at line 73, 79 or 87) always completes it in one step,
whatever the queue holds, entering no wait set; and the only thing `pop` waits for before
that is the queue mutex. -/
theorem pop_never_blocks (q : TaskQueue) (s : State) (i : Nat) (w : Worker)
    (hw : s._threads[i]? = some w) :
    (q._tasks = [] → q.pop = (none, q)) ∧
    ((w.pc = .l73_pop ∨ w.pc = .l79_pop ∨ w.pc = .l87_pop) →
      ∃ s1 w1, step s (.worker i) = some s1 ∧ s1._threads[i]? = some w1 ∧
        (w1.pc = .l77 ∨ w1.pc = .l88) ∧ w1.f = s._taskq.pop.1 ∧
        s1._taskq._tasks = s._taskq.pop.2._tasks ∧ s1._taskq._mtx = none ∧
        s1._taskq._cv = s._taskq._cv ∧ s1._cv = s._cv ∧
        (s._taskq._tasks = [] → w1.f = none ∧ s1._taskq._tasks = [])) ∧
    ((w.pc = .l73 ∨ w.pc = .l79 ∨ w.pc = .l87) → s._taskq._mtx = none →
      ∃ s1 w1, step s (.worker i) = some s1 ∧ s1._threads[i]? = some w1 ∧
        (w1.pc = .l73_pop ∨ w1.pc = .l79_pop ∨ w1.pc = .l87_pop)) := by
  have hlt : i < s._threads.length := by
    rcases Nat.lt_or_ge i s._threads.length with h | h
    · exact h
    · rw [List.getElem?_eq_none h] at hw
      simp at hw
  have hpf := TaskQueue.pop_fields s._taskq
  have hemp : s._taskq._tasks = [] → s._taskq.pop = (none, s._taskq) := by
    intro h
    simp [TaskQueue.pop, h]
  refine ⟨fun h => by simp [TaskQueue.pop, h], ?_, ?_⟩
  · intro hpc
    rcases hpc with hpc | hpc | hpc
    all_goals
      have hs1 : ∃ s1, step s (.worker i) = some s1 := by
        simp only [step, hw, workerStep, hpc]
        exact ⟨_, rfl⟩
      obtain ⟨s1, hs1⟩ := hs1
      refine ⟨s1, ?_⟩
      simp only [hs1, true_and]
      simp only [step, hw, workerStep, hpc, Option.some.injEq] at hs1
      subst hs1
      simp [State.setWorker, hlt, hpf]
      intro h
      simp [hemp h, h]
  · intro hpc hq
    rcases hpc with hpc | hpc | hpc
    all_goals
      have hs1 : ∃ s1, step s (.worker i) = some s1 := by
        simp only [step, hw, workerStep, hpc, hq, if_true]
        exact ⟨_, rfl⟩
      obtain ⟨s1, hs1⟩ := hs1
      refine ⟨s1, ?_⟩
      simp only [hs1, true_and]
      simp only [step, hw, workerStep, hpc, hq, if_true, Option.some.injEq] at hs1
      subst hs1
      simp [State.setWorker, hlt]

/-- Worker 0 of a fresh pool, after locking the queue at line 73, completes `pop` on the
empty queue. -/
theorem pop_never_blocks_witness :
    ∃ s1 w1,
      step ((State.init 1 5).setWorker 0
        { pc := .l73_pop, f := none, is_pop := false, joinable := true }) (.worker 0) =
          some s1 ∧
      s1._threads[0]? = some w1 ∧ w1.f = none ∧ s1._taskq._tasks = [] :=
  have h := (pop_never_blocks (TaskQueue.new 5)
    ((State.init 1 5).setWorker 0 { pc := .l73_pop, f := none, is_pop := false, joinable := true })
    0 { pc := .l73_pop, f := none, is_pop := false, joinable := true } rfl).2.1 (Or.inl rfl)
  match h with
  | ⟨s1, w1, h1, h2, _, _, _, _, _, _, h9⟩ => ⟨s1, w1, h1, h2, h9 rfl⟩

/-! ## Invariants of the worker loop -/

theorem getElem?_lt {α : Type} {l : List α} {i : Nat} {a : α} (h : l[i]? = some a) :
    i < l.length := by
  rcases Nat.lt_or_ge i l.length with h1 | h1
  · exact h1
  · rw [List.getElem?_eq_none h1] at h
    simp at h

theorem getElem?_setWorker {s : State} {i j : Nat} {w1 wj : Worker}
    (h : (s.setWorker i w1)._threads[j]? = some wj) :
    (j = i ∧ wj = w1) ∨ (j ≠ i ∧ s._threads[j]? = some wj) := by
  simp only [State.setWorker, List.getElem?_set] at h
  split at h
  · rename_i hij
    split at h
    · simp at h
      exact Or.inl ⟨hij.symm, h.symm⟩
    · simp at h
  · rename_i hij
    exact Or.inr ⟨fun e => hij e.symm, h⟩

theorem setWorker_getElem?_self {s : State} {i : Nat} {w w1 : Worker}
    (hw : s._threads[i]? = some w) : (s.setWorker i w1)._threads[i]? = some w1 := by
  simp [State.setWorker, List.getElem?_set, getElem?_lt hw]

theorem setWorker_getElem?_ne {s : State} {i j : Nat} {w1 : Worker} (h : j ≠ i) :
    (s.setWorker i w1)._threads[j]? = s._threads[j]? := by
  have h1 : ¬ i = j := fun e => h e.symm
  simp [State.setWorker, List.getElem?_set, h1]

/-- A worker step changes no entry of `_threads` but the worker's own. -/
theorem WStep.threads_eq {s sh : State} {i : Nat} {w w1 : Worker} (h : WStep s i w sh w1) :
    sh._threads = s._threads := by
  cases h <;> rfl

theorem sum_map_set {α : Type} (g : α → Nat) (l : List α) (i : Nat) (a b : α)
    (h : l[i]? = some a) : ((l.set i b).map g).sum + g a = (l.map g).sum + g b := by
  induction l generalizing i with
  | nil => simp at h
  | cons x l ih =>
    cases i with
    | zero =>
      simp at h
      subst h
      simp
      omega
    | succ i =>
      simp only [List.getElem?_cons_succ] at h
      have := ih i h
      simp only [List.set_cons_succ, List.map_cons, List.sum_cons]
      omega

/-- The locals of every worker are as `Worker.ok` says. -/
theorem step_worker_ok {s s1 : State} {a : Action} (h : Step s a s1)
    (hi : ∀ (i : Nat) (w : Worker), s._threads[i]? = some w → w.ok) :
    ∀ (i : Nat) (w : Worker), s1._threads[i]? = some w → w.ok := by
  intro j wj hj
  cases h with
  | worker i w sh w1 hw hws =>
    have hth := hws.threads_eq
    rcases getElem?_setWorker hj with ⟨_, rfl⟩ | ⟨_, h2⟩
    · have hok := hi i w hw
      cases hws <;> simp_all [Worker.ok]
    · rw [hth] at h2
      exact hi j wj h2
  | caller c choice s1 hcs =>
    cases hcs <;> try (exact hi j wj hj)
    case l123 i w hpc hw ht =>
      have hj2 : (s.setWorker i { w with joinable := false })._threads[j]? = some wj := hj
      rcases getElem?_setWorker hj2 with ⟨_, rfl⟩ | ⟨_, h2⟩
      · have hok := hi i w hw
        simp_all [Worker.ok]
      · exact hi j wj h2
  | _ => exact hi j wj hj

theorem reachable_worker_ok {n : Nat} {cap : Int} {s : State} (hr : Reachable n cap s) :
    ∀ (i : Nat) (w : Worker), s._threads[i]? = some w → w.ok := by
  refine reachable_invariant
    (fun s => ∀ (i : Nat) (w : Worker), s._threads[i]? = some w → w.ok) ?_
    (fun _ _ _ hi h => step_worker_ok h hi) s hr
  intro i w hw
  simp only [State.init, List.getElem?_replicate] at hw
  split at hw
  · simp at hw
    subst hw
    simp [Worker.ok]
  · simp at hw

theorem TaskQueue.front_count (q : TaskQueue) (k : Nat) :
    q.front.count (some k) = q.pop.1.toList.count k := by
  unfold TaskQueue.front TaskQueue.pop
  cases h : q._tasks with
  | nil => simp
  | cons f rest =>
    cases f with
    | none => simp
    | some j =>
      simp [List.count_singleton]

theorem heldCount_setWorker (s : State) (i k : Nat) (w w1 : Worker)
    (hw : s._threads[i]? = some w) :
    (s.setWorker i w1).heldCount k + w.held.count k = s.heldCount k + w1.held.count k := by
  unfold State.heldCount State.setWorker
  exact sum_map_set (fun w => w.held.count k) s._threads i w w1 hw

/-- Every dequeued task has been called or is held by a worker, and conversely. -/
theorem step_conservation {s s1 : State} {a : Action} (k : Nat) (h : Step s a s1)
    (hok : ∀ (i : Nat) (w : Worker), s._threads[i]? = some w → w.ok)
    (hi : s.popped.count (some k) = s.execCount k + s.heldCount k) :
    s1.popped.count (some k) = s1.execCount k + s1.heldCount k := by
  cases h with
  | worker i w sh w1 hw hws =>
    have hth := hws.threads_eq
    have hsum := heldCount_setWorker sh i k w w1 (by rw [hth]; exact hw)
    have hh : sh.heldCount k = s.heldCount k := by
      unfold State.heldCount
      rw [hth]
    have hok1 := hok i w hw
    have hfc := TaskQueue.front_count s._taskq k
    rw [hh] at hsum
    generalize (sh.setWorker i w1).heldCount k = H1 at hsum ⊢
    show sh.popped.count (some k) = (sh.executed.map Prod.snd).count k + H1
    unfold State.execCount at hi
    clear hok hh
    cases hws
    all_goals clear hth
    all_goals simp only [Worker.held, Worker.ok, *] at hsum hok1
    all_goals try simp only [List.count_append, List.map_append, List.map_cons, List.map_nil, hfc]
    all_goals try simp only [List.count_nil] at hsum
    all_goals try omega
    case l77_false hpc hp =>
      cases hf : w.f <;> simp [hf] at hsum hok1
      omega
    case l78_call j hpc hf =>
      simp only [Option.toList_some] at hsum
      omega
    case l86_stop hpc hs =>
      simp [hok1.1] at hsum
      omega
    case l88_wait hpc hf =>
      cases hf2 : w.f <;> simp [hf2] at hsum hf
      omega
  | caller c choice s1 hcs =>
    cases hcs <;> try (exact hi)
    case l123 i w hpc hw ht =>
      have hsum := heldCount_setWorker s i k w { w with joinable := false } hw
      have he : ({ w with joinable := false } : Worker).held = w.held := by
        simp [Worker.held]
      rw [he] at hsum
      show s.popped.count (some k) = s.execCount k +
        (s.setWorker i { w with joinable := false }).heldCount k
      omega
  | _ => exact hi

/-! ## Invariants of `stop` -/

theorem WStep.joinable_eq {s sh : State} {i : Nat} {w w1 : Worker} (h : WStep s i w sh w1) :
    w1.joinable = w.joinable := by
  cases h <;> rfl

theorem WStep.not_terminated {s sh : State} {i : Nat} {w w1 : Worker} (h : WStep s i w sh w1) :
    w.pc ≠ .terminated := by
  cases h <;> simp [*]

theorem WStep.frame {s sh : State} {i : Nat} {w w1 : Worker} (h : WStep s i w sh w1) :
    sh._is_stop = s._is_stop ∧ sh.callers = s.callers ∧ sh.stop_returns = s.stop_returns ∧
      sh.broadcasts = s.broadcasts ∧ sh._threads_num = s._threads_num ∧
      sh.pushed = s.pushed ∧ sh.returned = s.returned ∧ sh.before_stop = s.before_stop := by
  cases h <;> simp

theorem setCaller_callers (s : State) (c : Nat) (pc : CallerPc) (c2 : Nat) :
    (s.setCaller c pc).callers c2 = if c2 = c then pc else s.callers c2 := rfl

/-- The field `_threads_num` is the number of entries of `_threads`. -/
theorem step_threads_num {s s1 : State} {a : Action} (h : Step s a s1)
    (hi : s._threads_num = s._threads.length) : s1._threads_num = s1._threads.length := by
  cases h with
  | worker i w sh w1 hw hws =>
    cases hws <;> simpa [State.setWorker] using hi
  | caller c choice s1 hcs =>
    cases hcs <;> simpa [State.setWorker, State.setCaller] using hi
  | _ => simpa [State.setCaller] using hi

theorem reachable_threads_num {n : Nat} {cap : Int} {s : State} (hr : Reachable n cap s) :
    s._threads_num = s._threads.length ∧ s._threads.length = n := by
  refine reachable_invariant
    (fun s => s._threads_num = s._threads.length ∧ s._threads.length = n) ?_ ?_ s hr
  · simp [State.init]
  · intro s a s1 hi h
    have h1 := step_threads_num h hi.1
    refine ⟨h1, ?_⟩
    have h2 : s1._threads_num = s._threads_num := by
      cases h with
      | worker i w sh w1 hw hws => cases hws <;> rfl
      | caller c choice s1 hcs => cases hcs <;> rfl
      | _ => rfl
    have := hi.1
    have := hi.2
    omega

theorem step_flagInv {s s1 : State} {a : Action} (h : Step s a s1) (hi : s.flagInv) :
    s1.flagInv := by
  obtain ⟨hA, hB, hC⟩ := hi
  cases h with
  | worker i w sh w1 hw hws =>
    obtain ⟨h1, h2, h3, h4, _⟩ := hws.frame
    refine ⟨fun c hc => ?_, fun hb => ?_, fun hr => ?_⟩
    · show sh._is_stop = true
      rw [h1]
      exact hA c (by rw [← h2]; exact hc)
    · show sh._is_stop = true
      rw [h1]
      exact hB (by rw [← h4]; exact hb)
    · show sh._is_stop = true
      rw [h1]
      exact hC (by rw [← h3]; exact hr)
  | caller c choice s1 hcs =>
    cases hcs
    all_goals
      have hpc := ‹s.callers c = _›
      have hAc := hA c
      simp only [hpc, CallerPc.past115] at hAc
      refine ⟨fun c2 hc => ?_, fun hb => ?_, fun hr => ?_⟩
    all_goals simp only [setCaller_callers] at *
    all_goals try (first | rfl | exact hB hb | exact hC hr | exact hAc trivial)
    all_goals
      by_cases hc2 : c2 = c
      · simp [hc2, CallerPc.past115] at hc
      · simp only [if_neg hc2] at hc
        exact hA c2 hc
  | submit c f hpc =>
    refine ⟨fun c2 hc => ?_, hB, hC⟩
    simp only [setCaller_callers] at hc
    by_cases hc2 : c2 = c
    · simp [hc2, CallerPc.past115] at hc
    · simp only [if_neg hc2] at hc
      exact hA c2 hc
  | stop c hpc =>
    refine ⟨fun c2 hc => ?_, hB, hC⟩
    simp only [setCaller_callers] at hc
    by_cases hc2 : c2 = c
    · simp [hc2, CallerPc.past115] at hc
    · simp only [if_neg hc2] at hc
      exact hA c2 hc
  | wake_worker i hcv => exact ⟨hA, hB, hC⟩
  | wake_caller c hcv => exact ⟨hA, hB, hC⟩

theorem reachable_flagInv {n : Nat} {cap : Int} {s : State} (hr : Reachable n cap s) :
    s.flagInv := by
  refine reachable_invariant State.flagInv ?_ (fun _ _ _ hi h => step_flagInv h hi) s hr
  simp [State.flagInv, State.init, CallerPc.past115]

/-- No step makes a joined handle joinable again, and no step adds or removes a worker. -/
theorem step_joinable_mono {s s1 : State} {a : Action} (h : Step s a s1) (i : Nat)
    (w1 : Worker) (h1 : s1._threads[i]? = some w1) :
    ∃ w, s._threads[i]? = some w ∧ (w.joinable = false → w1.joinable = false) := by
  cases h with
  | worker i0 w sh w2 hw hws =>
    have hth := hws.threads_eq
    rcases getElem?_setWorker h1 with ⟨rfl, rfl⟩ | ⟨_, h2⟩
    · exact ⟨w, hw, fun hj => by rw [hws.joinable_eq]; exact hj⟩
    · rw [hth] at h2
      exact ⟨w1, h2, id⟩
  | caller c choice s1 hcs =>
    cases hcs
    case l123 i0 w hpc hw ht =>
      have h2 : (s.setWorker i0 { w with joinable := false })._threads[i]? = some w1 := h1
      rcases getElem?_setWorker h2 with ⟨rfl, rfl⟩ | ⟨_, h3⟩
      · exact ⟨w, hw, fun _ => rfl⟩
      · exact ⟨w1, h3, id⟩
    all_goals exact ⟨w1, h1, id⟩
  | _ => exact ⟨w1, h1, id⟩

/-- A handle that is no longer joinable belongs to a worker that has returned. -/
theorem step_joined_terminated {s s1 : State} {a : Action} (h : Step s a s1)
    (hi : ∀ (i : Nat) (w : Worker), s._threads[i]? = some w → w.joinable = false →
      w.pc = .terminated) :
    ∀ (i : Nat) (w : Worker), s1._threads[i]? = some w → w.joinable = false →
      w.pc = .terminated := by
  intro j wj hj hjn
  cases h with
  | worker i w sh w1 hw hws =>
    have hth := hws.threads_eq
    rcases getElem?_setWorker hj with ⟨rfl, rfl⟩ | ⟨_, h2⟩
    · rw [hws.joinable_eq] at hjn
      exact absurd (hi _ w hw hjn) hws.not_terminated
    · rw [hth] at h2
      exact hi j wj h2 hjn
  | caller c choice s1 hcs =>
    cases hcs
    case l123 i0 w hpc hw ht =>
      have h2 : (s.setWorker i0 { w with joinable := false })._threads[j]? = some wj := hj
      rcases getElem?_setWorker h2 with ⟨rfl, rfl⟩ | ⟨_, h3⟩
      · exact ht
      · exact hi j wj h3 hjn
    all_goals exact hi j wj hj hjn
  | _ => exact hi j wj hj hjn

theorem reachable_joined_terminated {n : Nat} {cap : Int} {s : State}
    (hr : Reachable n cap s) :
    ∀ (i : Nat) (w : Worker), s._threads[i]? = some w → w.joinable = false →
      w.pc = .terminated := by
  refine reachable_invariant
    (fun s => ∀ (i : Nat) (w : Worker), s._threads[i]? = some w → w.joinable = false →
      w.pc = .terminated) ?_ (fun _ _ _ hi h => step_joined_terminated h hi) s hr
  intro i w hw hj
  simp only [State.init, List.getElem?_replicate] at hw
  split at hw
  · simp at hw
    subst hw
    simp at hj
  · simp at hw

theorem step_joinInv {s s1 : State} {a : Action} (h : Step s a s1)
    (hD : s._threads_num = s._threads.length) (hi : s.joinInv) : s1.joinInv := by
  obtain ⟨hC, hE⟩ := hi
  have hmono := step_joinable_mono h
  -- the property of the join loop carries over to the next state
  have hC1 : ∀ (c j : Nat), (s.callers c).joinIndex = some j →
      ∀ (i : Nat) (w : Worker), i < j → s1._threads[i]? = some w → w.joinable = false := by
    intro c j hj i w1 hlt h1
    obtain ⟨w, hw, hm⟩ := hmono i w1 h1
    exact hm (hC c j hj i w hlt hw)
  have hE1 : 0 < s.stop_returns →
      ∀ (i : Nat) (w : Worker), s1._threads[i]? = some w → w.joinable = false := by
    intro hr i w1 h1
    obtain ⟨w, hw, hm⟩ := hmono i w1 h1
    exact hm (hE hr i w hw)
  cases h with
  | worker i w sh w1 hw hws =>
    obtain ⟨_, h2, h3, _⟩ := hws.frame
    refine ⟨fun c j hj => ?_, fun hr => ?_⟩
    · exact hC1 c j (by rw [← h2]; exact hj)
    · exact hE1 (by rw [← h3]; exact hr)
  | caller c choice s1 hcs =>
    cases hcs
    case l119 hpc =>
      refine ⟨fun c2 j hj => ?_, hE1⟩
      simp only [setCaller_callers] at hj
      by_cases hc2 : c2 = c
      · simp [hc2, CallerPc.joinIndex] at hj
        subst hj
        intro i w hlt
        omega
      · simp only [if_neg hc2] at hj
        exact hC1 c2 j hj
    case l121_exit j0 hpc hlt =>
      refine ⟨fun c2 j hj => ?_, fun _ i w hw => ?_⟩
      · simp only [setCaller_callers] at hj
        by_cases hc2 : c2 = c
        · simp [hc2, CallerPc.joinIndex] at hj
        · simp only [if_neg hc2] at hj
          exact hC1 c2 j hj
      · have hw2 : s._threads[i]? = some w := hw
        have hlen := getElem?_lt hw2
        refine hC1 c j0 (by rw [hpc]; rfl) i w ?_ hw
        omega
    case l122_skip j0 w0 hpc hw hj0 =>
      refine ⟨fun c2 j hj => ?_, hE1⟩
      simp only [setCaller_callers] at hj
      by_cases hc2 : c2 = c
      · simp [hc2, CallerPc.joinIndex] at hj
        subst hj
        intro i w hlt h1
        rcases Nat.lt_or_ge i j0 with h2 | h2
        · exact hC1 c j0 (by rw [hpc]; rfl) i w h2 h1
        · have hij : i = j0 := by omega
          subst hij
          have h3 : s._threads[i]? = some w := h1
          rw [hw] at h3
          simp at h3
          subst h3
          exact hj0
      · simp only [if_neg hc2] at hj
        exact hC1 c2 j hj
    case l123 j0 w0 hpc hw ht =>
      refine ⟨fun c2 j hj => ?_, hE1⟩
      simp only [setCaller_callers] at hj
      by_cases hc2 : c2 = c
      · simp [hc2, CallerPc.joinIndex] at hj
        subst hj
        intro i w hlt h1
        rcases Nat.lt_or_ge i j0 with h2 | h2
        · exact hC1 c j0 (by rw [hpc]; rfl) i w h2 h1
        · have hij : i = j0 := by omega
          subst hij
          have h3 : (s.setWorker i { w0 with joinable := false })._threads[i]? = some w := h1
          rw [setWorker_getElem?_self hw] at h3
          simp at h3
          subst h3
          rfl
      · simp only [if_neg hc2] at hj
        exact hC1 c2 j hj
    all_goals
      have hpc := ‹s.callers c = _›
      have hCc := hC1 c
      simp only [hpc, CallerPc.joinIndex] at hCc
      refine ⟨fun c2 j hj => ?_, hE1⟩
      simp only [setCaller_callers] at hj
      by_cases hc2 : c2 = c
      · simp [hc2, CallerPc.joinIndex] at hj
        try (subst hj)
        try (exact hCc _ rfl)
      · simp only [if_neg hc2] at hj
        exact hC1 c2 j hj
  | submit c f hpc =>
    refine ⟨fun c2 j hj => ?_, hE1⟩
    simp only [setCaller_callers] at hj
    by_cases hc2 : c2 = c
    · simp [hc2, CallerPc.joinIndex] at hj
    · simp only [if_neg hc2] at hj
      exact hC1 c2 j hj
  | stop c hpc =>
    refine ⟨fun c2 j hj => ?_, hE1⟩
    simp only [setCaller_callers] at hj
    by_cases hc2 : c2 = c
    · simp [hc2, CallerPc.joinIndex] at hj
    · simp only [if_neg hc2] at hj
      exact hC1 c2 j hj
  | wake_worker i hcv => exact ⟨hC1, hE1⟩
  | wake_caller c hcv => exact ⟨hC1, hE1⟩

theorem reachable_joinInv {n : Nat} {cap : Int} {s : State} (hr : Reachable n cap s) :
    s.joinInv := by
  have h := @reachable_invariant n cap
    (fun s => s._threads_num = s._threads.length ∧ s.joinInv) ?_ ?_ s hr
  · exact h.2
  · simp [State.joinInv, State.init, CallerPc.joinIndex]
  · intro s a s1 hi h
    exact ⟨step_threads_num h hi.1, step_joinInv h hi.1 hi.2⟩

/-! ## C7, C8: no double execution, graceful termination -/

theorem reachable_conservation {n : Nat} {cap : Int} {s : State} (hr : Reachable n cap s)
    (k : Nat) : s.popped.count (some k) = s.execCount k + s.heldCount k := by
  have h := @reachable_invariant n cap
    (fun s => (∀ (i : Nat) (w : Worker), s._threads[i]? = some w → w.ok) ∧
      s.popped.count (some k) = s.execCount k + s.heldCount k) ?_ ?_ s hr
  · exact h.2
  · refine ⟨reachable_worker_ok (reachable_init n cap), ?_⟩
    have hz : ∀ m : Nat, (List.map (fun w : Worker => w.held.count k)
        (List.replicate m { pc := .l73, f := none, is_pop := false, joinable := true })).sum
        = 0 := by
      intro m
      induction m with
      | zero => rfl
      | succ m ih =>
        simp only [List.replicate_succ, List.map_cons, List.sum_cons, ih]
        rfl
    show ([] : List TaskFunc).count (some k) = ([] : List Nat).count k +
      (List.map (fun w : Worker => w.held.count k)
        (List.replicate n { pc := .l73, f := none, is_pop := false, joinable := true })).sum
    rw [hz]
    rfl
  · intro s a s1 hi h
    exact ⟨step_worker_ok h hi.1, step_conservation k h hi.1 hi.2⟩

theorem count_le_one_unique (l : List (Nat × Nat)) (k i j : Nat)
    (h : (l.map Prod.snd).count k ≤ 1) (hi : (i, k) ∈ l) (hj : (j, k) ∈ l) : i = j := by
  induction l with
  | nil => simp at hi
  | cons x l ih =>
    have hpos : ∀ m : Nat, (m, k) ∈ l → 0 < (l.map Prod.snd).count k := by
      intro m hm
      exact List.count_pos_iff.mpr (List.mem_map.mpr ⟨(m, k), hm, rfl⟩)
    simp only [List.map_cons, List.count_cons] at h
    rcases List.mem_cons.mp hi with hi1 | hi1 <;> rcases List.mem_cons.mp hj with hj1 | hj1
    · rw [← hi1] at hj1
      exact (Prod.mk.inj hj1).1.symm
    · have := hpos j hj1
      rw [← hi1] at h
      simp at h
      omega
    · have := hpos i hi1
      rw [← hj1] at h
      simp at h
      omega
    · refine ih ?_ hi1 hj1
      omega

/-- C7. No double execution: in every reachable state, for every task `k`, the number of
calls of `k` plus the number of workers holding `k` uncalled is the number of times `k` was
dequeued, which is at most the number of times it was enqueued.  So a task enqueued once is
returned by at most one `pop` and called at most once, and all its calls are by one worker. -/
theorem no_double_execution (n : Nat) (cap : Int) (s : State) (hs : Reachable n cap s)
    (k : Nat) :
    s.execCount k + s.heldCount k = s.popped.count (some k) ∧
    s.popped.count (some k) ≤ s.pushed.count (some k) ∧
    (s.pushed.count (some k) = 1 →
      s.popped.count (some k) ≤ 1 ∧ s.execCount k ≤ 1 ∧
      ∀ i j : Nat, (i, k) ∈ s.executed → (j, k) ∈ s.executed → i = j) := by
  have h1 := reachable_conservation hs k
  have h2 := reachable_fifo hs
  have h3 : s.popped.count (some k) ≤ s.pushed.count (some k) := by
    rw [h2, List.count_append]
    omega
  refine ⟨h1.symm, h3, fun hp => ⟨by omega, by omega, fun i j hi hj => ?_⟩⟩
  exact count_le_one_unique s.executed k i j (by unfold State.execCount at h1; omega) hi hj

set_option maxRecDepth 100000 in
/-- In the normal run of a pool with one worker, task 1 is enqueued once and called once. -/
theorem no_double_execution_witness :
    ∃ s, run (State.init 1 1) scenarioRun = some s ∧ s.pushed.count (some 1) = 1 ∧
      s.executed = [(0, 1)] ∧ s.execCount 1 ≤ 1 :=
  ⟨_, rfl, rfl, rfl,
    ((no_double_execution 1 1 _ ⟨scenarioRun, rfl⟩ 1).2.2 rfl).2.1⟩

/-- C8. Graceful termination: in every reachable state in which a call to `stop` has
returned, the stop flag is true and every worker of the pool has returned from `thread_do`
and has been joined. -/
theorem graceful_termination (n : Nat) (cap : Int) (s : State) (hs : Reachable n cap s)
    (hret : 0 < s.stop_returns) :
    s._is_stop = true ∧ s._threads.length = n ∧
    ∀ (i : Nat) (w : Worker), s._threads[i]? = some w →
      w.pc = .terminated ∧ w.joinable = false := by
  have hf := reachable_flagInv hs
  have hj := reachable_joinInv hs
  have ht := reachable_joined_terminated hs
  have hn := reachable_threads_num hs
  refine ⟨hf.2.2 hret, hn.2, fun i w hw => ?_⟩
  have h1 := hj.2 hret i w hw
  exact ⟨ht i w hw h1, h1⟩

set_option maxRecDepth 100000 in
/-- Scenario C: `stop` on an idle pool of one worker returns, with the worker joined. -/
theorem graceful_termination_witness :
    ∃ s, run (State.init 1 5) scenarioC = some s ∧ 0 < s.stop_returns ∧ s._is_stop = true ∧
      s._threads.length = 1 :=
  ⟨_, rfl, by decide,
    (graceful_termination 1 5 _ ⟨scenarioC, rfl⟩ (by decide)).1,
    (graceful_termination 1 5 _ ⟨scenarioC, rfl⟩ (by decide)).2.1⟩

/-! ## Mutual exclusion -/

theorem MutexInv.worker_move {holdsW : WorkerPc → Bool} {holdsC : CallerPc → Bool}
    {m m1 : Option Tid} {T : List Worker} {C : Nat → CallerPc} {i : Nat} {w w1 : Worker}
    (hi : MutexInv holdsW holdsC m T C) (hw : T[i]? = some w)
    (hmv : LockMove (.worker i) m m1 (holdsW w.pc) (holdsW w1.pc)) :
    MutexInv holdsW holdsC m1 (T.set i w1) C := by
  obtain ⟨h1, h2, h3, h4⟩ := hi
  have hlt := getElem?_lt hw
  have hself : (T.set i w1)[i]? = some w1 := by simp [List.getElem?_set, hlt]
  have hoth : ∀ j : Nat, j ≠ i → (T.set i w1)[j]? = T[j]? := by
    intro j hne
    have hne2 : ¬ i = j := fun e => hne e.symm
    simp [List.getElem?_set, hne2]
  have hwi := h1 i w hw
  refine ⟨fun j wj hj hh => ?_, fun c hh => ?_, fun j hm => ?_, fun c hm => ?_⟩
  · by_cases hji : j = i
    · subst hji
      rw [hself] at hj
      simp at hj
      subst hj
      rcases hmv with ⟨_, ha, _, _⟩ | ⟨_, _, hb⟩ | ⟨ha, hb⟩
      · exact ha
      · rw [hh] at hb
        simp at hb
      · rw [ha]
        exact hwi (by rw [← hb]; exact hh)
    · rw [hoth j hji] at hj
      have hmj := h1 j wj hj hh
      rcases hmv with ⟨ha, _, _, _⟩ | ⟨_, hb, _⟩ | ⟨ha, _⟩
      · rw [ha] at hmj
        simp at hmj
      · have := hwi hb
        rw [this] at hmj
        simp at hmj
        exact absurd hmj.symm hji
      · rw [ha]
        exact hmj
  · have hmc := h2 c hh
    rcases hmv with ⟨ha, _, _, _⟩ | ⟨_, hb, _⟩ | ⟨ha, _⟩
    · rw [ha] at hmc
      simp at hmc
    · have := hwi hb
      rw [this] at hmc
      simp at hmc
    · rw [ha]
      exact hmc
  · rcases hmv with ⟨_, ha, _, hb⟩ | ⟨ha, _, _⟩ | ⟨ha, hb⟩
    · rw [ha] at hm
      simp at hm
      subst hm
      exact ⟨w1, hself, hb⟩
    · rw [ha] at hm
      simp at hm
    · rw [ha] at hm
      obtain ⟨wj, hj, hh⟩ := h3 j hm
      by_cases hji : j = i
      · subst hji
        rw [hw] at hj
        simp at hj
        subst hj
        exact ⟨w1, hself, by rw [hb]; exact hh⟩
      · exact ⟨wj, by rw [hoth j hji]; exact hj, hh⟩
  · rcases hmv with ⟨_, ha, _, _⟩ | ⟨ha, _, _⟩ | ⟨ha, _⟩
    · rw [ha] at hm
      simp at hm
    · rw [ha] at hm
      simp at hm
    · rw [ha] at hm
      exact h4 c hm

theorem MutexInv.caller_move {holdsW : WorkerPc → Bool} {holdsC : CallerPc → Bool}
    {m m1 : Option Tid} {T : List Worker} {C : Nat → CallerPc} {c : Nat} {pc1 : CallerPc}
    (hi : MutexInv holdsW holdsC m T C)
    (hmv : LockMove (.caller c) m m1 (holdsC (C c)) (holdsC pc1)) :
    MutexInv holdsW holdsC m1 T (fun j => if j = c then pc1 else C j) := by
  obtain ⟨h1, h2, h3, h4⟩ := hi
  have hci := h2 c
  refine ⟨fun j wj hj hh => ?_, fun c2 hh => ?_, fun j hm => ?_, fun c2 hm => ?_⟩
  · have hmj := h1 j wj hj hh
    rcases hmv with ⟨ha, _, _, _⟩ | ⟨_, hb, _⟩ | ⟨ha, _⟩
    · rw [ha] at hmj
      simp at hmj
    · have := hci hb
      rw [this] at hmj
      simp at hmj
    · rw [ha]
      exact hmj
  · by_cases hcc : c2 = c
    · subst hcc
      simp only [if_true] at hh
      rcases hmv with ⟨_, ha, _, _⟩ | ⟨_, _, hb⟩ | ⟨ha, hb⟩
      · exact ha
      · rw [hh] at hb
        simp at hb
      · rw [ha]
        exact hci (by rw [← hb]; exact hh)
    · simp only [if_neg hcc] at hh
      have hmc := h2 c2 hh
      rcases hmv with ⟨ha, _, _, _⟩ | ⟨_, hb, _⟩ | ⟨ha, _⟩
      · rw [ha] at hmc
        simp at hmc
      · have := hci hb
        rw [this] at hmc
        simp at hmc
        exact absurd hmc.symm hcc
      · rw [ha]
        exact hmc
  · rcases hmv with ⟨_, ha, _, _⟩ | ⟨ha, _, _⟩ | ⟨ha, _⟩
    · rw [ha] at hm
      simp at hm
    · rw [ha] at hm
      simp at hm
    · rw [ha] at hm
      exact h3 j hm
  · rcases hmv with ⟨_, ha, _, hb⟩ | ⟨ha, _, _⟩ | ⟨ha, hb⟩
    · rw [ha] at hm
      simp at hm
      subst hm
      simpa using hb
    · rw [ha] at hm
      simp at hm
    · rw [ha] at hm
      have hh := h4 c2 hm
      by_cases hcc : c2 = c
      · subst hcc
        simp only [if_true]
        rw [hb]
        exact hh
      · simp only [if_neg hcc]
        exact hh

theorem LockMove.keep (t : Tid) (m : Option Tid) (h : Bool) : LockMove t m m h h :=
  Or.inr (Or.inr ⟨rfl, rfl⟩)

theorem step_poolMutexInv {s s1 : State} {a : Action} (h : Step s a s1)
    (hi : s.poolMutexInv) : s1.poolMutexInv := by
  cases h with
  | worker i w sh w1 hw hws =>
    cases hws
    all_goals
      exact MutexInv.worker_move hi hw
        (by simp [LockMove, WorkerPc.holdsPool, State.setWorker, State.setCaller, *])
  | caller c choice s1 hcs =>
    cases hcs
    case l123 i w hpc hw ht =>
      have h1 : MutexInv WorkerPc.holdsPool CallerPc.holdsPool s._mtx
          (s._threads.set i { w with joinable := false }) s.callers :=
        MutexInv.worker_move hi hw (LockMove.keep _ _ _)
      exact MutexInv.caller_move h1
        (by simp [LockMove, CallerPc.holdsPool, State.setWorker, State.setCaller, *])
    all_goals
      exact MutexInv.caller_move hi
        (by simp [LockMove, CallerPc.holdsPool, State.setWorker, State.setCaller, *])
  | submit c f hpc =>
    exact MutexInv.caller_move hi
      (by simp [LockMove, CallerPc.holdsPool, State.setWorker, State.setCaller, *])
  | stop c hpc =>
    exact MutexInv.caller_move hi
      (by simp [LockMove, CallerPc.holdsPool, State.setWorker, State.setCaller, *])
  | wake_worker i hcv => exact hi
  | wake_caller c hcv => exact hi

theorem step_queueMutexInv {s s1 : State} {a : Action} (h : Step s a s1)
    (hi : s.queueMutexInv) : s1.queueMutexInv := by
  have hpf := TaskQueue.pop_fields s._taskq
  cases h with
  | worker i w sh w1 hw hws =>
    cases hws
    all_goals
      exact MutexInv.worker_move hi hw
        (by simp [LockMove, WorkerPc.holdsQueue, State.setWorker, State.setCaller, *])
  | caller c choice s1 hcs =>
    cases hcs
    case l123 i w hpc hw ht =>
      have h1 : MutexInv WorkerPc.holdsQueue CallerPc.holdsQueue s._taskq._mtx
          (s._threads.set i { w with joinable := false }) s.callers :=
        MutexInv.worker_move hi hw (LockMove.keep _ _ _)
      exact MutexInv.caller_move h1
        (by simp [LockMove, CallerPc.holdsQueue, State.setWorker, State.setCaller, *])
    all_goals
      exact MutexInv.caller_move hi
        (by simp [LockMove, CallerPc.holdsQueue, State.setWorker, State.setCaller, *])
  | submit c f hpc =>
    exact MutexInv.caller_move hi
      (by simp [LockMove, CallerPc.holdsQueue, State.setWorker, State.setCaller, *])
  | stop c hpc =>
    exact MutexInv.caller_move hi
      (by simp [LockMove, CallerPc.holdsQueue, State.setWorker, State.setCaller, *])
  | wake_worker i hcv => exact hi
  | wake_caller c hcv => exact hi

theorem init_mutexInv (holdsW : WorkerPc → Bool) (holdsC : CallerPc → Bool)
    (h1 : holdsW .l73 = false) (h2 : holdsC .idle = false) (n : Nat) :
    MutexInv holdsW holdsC none
      (List.replicate n { pc := .l73, f := none, is_pop := false, joinable := true })
      (fun _ => .idle) := by
  refine ⟨fun i w hw hh => ?_, fun c hh => ?_, fun i hm => ?_, fun c hm => ?_⟩
  · simp only [List.getElem?_replicate] at hw
    split at hw
    · simp at hw
      subst hw
      simp [h1] at hh
    · simp at hw
  · simp [h2] at hh
  · simp at hm
  · simp at hm

theorem reachable_poolMutexInv {n : Nat} {cap : Int} {s : State} (hr : Reachable n cap s) :
    s.poolMutexInv :=
  reachable_invariant State.poolMutexInv (init_mutexInv _ _ rfl rfl n)
    (fun _ _ _ hi h => step_poolMutexInv h hi) s hr

theorem reachable_queueMutexInv {n : Nat} {cap : Int} {s : State} (hr : Reachable n cap s) :
    s.queueMutexInv :=
  reachable_invariant State.queueMutexInv (init_mutexInv _ _ rfl rfl n)
    (fun _ _ _ hi h => step_queueMutexInv h hi) s hr

/-! ## After the broadcast of `stop` -/

theorem WStep.broadcast_safe {s sh : State} {i : Nat} {w w1 : Worker} (h : WStep s i w sh w1)
    (hstop : s._is_stop = true)
    (hw : w.pc ≠ .l87 ∧ w.pc ≠ .l87_pop ∧ w.pc ≠ .l88 ∧ w.pc ≠ .l90) :
    sh._cv = s._cv ∧
      w1.pc ≠ .l87 ∧ w1.pc ≠ .l87_pop ∧ w1.pc ≠ .l88 ∧ w1.pc ≠ .l90 := by
  cases h <;> simp_all

theorem step_broadcastInv {s s1 : State} {a : Action} (h : Step s a s1) (hf : s.flagInv)
    (hm : s.poolMutexInv) (hi : s.broadcastInv) : s1.broadcastInv := by
  intro hb
  cases h with
  | worker i w sh w1 hw hws =>
    have hb2 : 0 < s.broadcasts := by
      rw [← hws.frame.2.2.2.1]
      exact hb
    obtain ⟨hcv, hall⟩ := hi hb2
    obtain ⟨h1, h2⟩ := hws.broadcast_safe (hf.2.1 hb2) (hall i w hw)
    refine ⟨by show sh._cv = []; rw [h1]; exact hcv, fun j wj hj => ?_⟩
    rcases getElem?_setWorker hj with ⟨_, rfl⟩ | ⟨_, h3⟩
    · exact h2
    · rw [hws.threads_eq] at h3
      exact hall j wj h3
  | caller c choice s1 hcs =>
    cases hcs
    case l118 hpc =>
      refine ⟨rfl, fun j wj hj => ?_⟩
      have hj2 : s._threads[j]? = some wj := hj
      have hlock := hm.2.1 c (by rw [hpc]; rfl)
      have hnot : wj.pc.holdsPool ≠ true := by
        intro hh
        have := hm.1 j wj hj2 hh
        rw [hlock] at this
        simp at this
      refine ⟨?_, ?_, ?_, ?_⟩ <;> intro hpc2 <;> exact hnot (by rw [hpc2]; rfl)
    case l110 f cv1 hpc hn =>
      obtain ⟨hcv, hall⟩ := hi hb
      refine ⟨?_, hall⟩
      show cv1 = []
      rw [hcv] at hn
      simp [notify_one] at hn
      exact hn
    case l123 i w hpc hw ht =>
      obtain ⟨hcv, hall⟩ := hi hb
      refine ⟨hcv, fun j wj hj => ?_⟩
      have hj2 : (s.setWorker i { w with joinable := false })._threads[j]? = some wj := hj
      rcases getElem?_setWorker hj2 with ⟨_, rfl⟩ | ⟨_, h3⟩
      · exact hall i w hw
      · exact hall j wj h3
    all_goals exact hi hb
  | submit c f hpc => exact hi hb
  | stop c hpc => exact hi hb
  | wake_worker i hcv =>
    obtain ⟨hcv2, hall⟩ := hi hb
    refine ⟨?_, hall⟩
    show s._cv.erase i = []
    rw [hcv2]
    rfl
  | wake_caller c hcv => exact hi hb

theorem reachable_broadcastInv {n : Nat} {cap : Int} {s : State} (hr : Reachable n cap s) :
    s.broadcastInv := by
  have h := @reachable_invariant n cap
    (fun s => s.flagInv ∧ s.poolMutexInv ∧ s.broadcastInv) ?_ ?_ s hr
  · exact h.2.2
  · refine ⟨reachable_flagInv (reachable_init n cap),
      reachable_poolMutexInv (reachable_init n cap), ?_⟩
    intro hb
    simp [State.init] at hb
  · intro s a s1 hi h
    exact ⟨step_flagInv h hi.1, step_poolMutexInv h hi.2.1,
      step_broadcastInv h hi.1 hi.2.1 hi.2.2⟩

/-! ## Progress of the shutdown -/

theorem step_worker_isSome (s : State) (i : Nat) (w : Worker) (hw : s._threads[i]? = some w)
    (h : workerEnabled s i w) : (step s (.worker i)).isSome = true := by
  unfold workerEnabled at h
  simp only [step, hw, workerStep]
  split <;> simp_all
  all_goals split <;> simp

theorem step_joinBound {s s1 : State} {a : Action} (h : Step s a s1)
    (hD : s._threads_num = s._threads.length) (hi : s.joinBound) : s1.joinBound := by
  intro c2 j hj
  cases h with
  | worker i w sh w1 hw hws =>
    have h2 := hws.frame.2.1
    have hlen : (sh.setWorker i w1)._threads.length = s._threads.length := by
      simp [State.setWorker, hws.threads_eq]
    rw [hlen]
    exact hi c2 j (by rw [← h2]; exact hj)
  | caller c choice s1 hcs =>
    cases hcs
    all_goals simp only [setCaller_callers] at hj
    all_goals
      have hpc := ‹s.callers c = _›
      have hic := hi c
      by_cases hc2 : c2 = c
      · simp only [hc2, if_true] at hj
        simp [State.setWorker, State.setCaller] at hj ⊢
        try (first | omega | (obtain ⟨rfl⟩ := hj; exact hic _ (by simp [hpc])))
      · simp only [if_neg hc2] at hj
        have := hi c2 j hj
        simpa [State.setWorker, State.setCaller] using this
  | submit c f hpc =>
    simp only [setCaller_callers] at hj
    by_cases hc2 : c2 = c
    · simp [hc2] at hj
    · simp only [if_neg hc2] at hj
      exact hi c2 j hj
  | stop c hpc =>
    simp only [setCaller_callers] at hj
    by_cases hc2 : c2 = c
    · simp [hc2] at hj
    · simp only [if_neg hc2] at hj
      exact hi c2 j hj
  | wake_worker i hcv => exact hi c2 j hj
  | wake_caller c hcv => exact hi c2 j hj

theorem reachable_joinBound {n : Nat} {cap : Int} {s : State} (hr : Reachable n cap s) :
    s.joinBound := by
  have h := @reachable_invariant n cap
    (fun s => s._threads_num = s._threads.length ∧ s.joinBound) ?_ ?_ s hr
  · exact h.2
  · refine ⟨by simp [State.init], ?_⟩
    intro c j hj
    simp [State.init] at hj
  · intro s a s1 hi h
    exact ⟨step_threads_num h hi.1, step_joinBound h hi.1 hi.2⟩

theorem TaskQueue.pop_rank (q : TaskQueue) :
    (if q.pop.1.isSome then 9 else 5) + 4 * q.pop.2._tasks.length < 6 + 4 * q._tasks.length ∧
      q.pop.2._tasks.length ≤ q._tasks.length := by
  unfold TaskQueue.pop
  cases h : q._tasks with
  | nil => simp [h]
  | cons f rest =>
    simp [h]
    split <;> omega

/-- With the stop flag set, every step of a worker decreases its rank, a queue entry counting
for 4. -/
theorem WStep.rank_decrease {s sh : State} {i : Nat} {w w1 : Worker} (h : WStep s i w sh w1)
    (hstop : s._is_stop = true) :
    w1.rank + 4 * sh._taskq._tasks.length < w.rank + 4 * s._taskq._tasks.length := by
  have hp := TaskQueue.pop_rank s._taskq
  cases h
  all_goals simp only [Worker.rank, *]
  all_goals try omega
  all_goals simp_all
  all_goals try split
  all_goals omega

theorem rank_setWorker (s : State) (i : Nat) (w w1 : Worker) (hw : s._threads[i]? = some w) :
    ((s.setWorker i w1)._threads.map Worker.rank).sum + w.rank =
      (s._threads.map Worker.rank).sum + w1.rank := by
  unfold State.setWorker
  exact sum_map_set Worker.rank s._threads i w w1 hw

theorem step_rank_decrease {s s1 : State} {a : Action} (c : Nat) (h : Step s a s1)
    (ha : a.within c = true) (hstop : s._is_stop = true)
    (hpc : (s.callers c).afterBroadcast = true) : s1.rank c < s.rank c := by
  cases h with
  | worker i w sh w1 hw hws =>
    have hth := hws.threads_eq
    have h1 := rank_setWorker sh i w w1 (by rw [hth]; exact hw)
    have h2 := hws.rank_decrease hstop
    have h3 := hws.frame.2.1
    rw [hth] at h1
    have hlen : (sh.setWorker i w1)._threads.length = s._threads.length := by
      simp [State.setWorker, hth]
    unfold State.rank
    rw [hlen]
    show ((sh.setWorker i w1)._threads.map Worker.rank).sum + 4 * sh._taskq._tasks.length +
      (sh.callers c).rank s._threads.length < _
    rw [h3]
    omega
  | caller c2 choice s1 hcs =>
    simp only [Action.within, decide_eq_true_eq] at ha
    subst ha
    unfold State.rank
    cases hcs
    case l123 i w hpc2 hw ht =>
      have h1 := rank_setWorker s i w { w with joinable := false } hw
      have h2 : ({ w with joinable := false } : Worker).rank = w.rank := rfl
      have hlt := getElem?_lt hw
      simp only [hpc2, setCaller_callers, if_true, CallerPc.rank]
      simp only [State.setCaller, State.setWorker, List.length_set] at h1 ⊢
      omega
    all_goals
      have hpc2 := ‹s.callers c2 = _›
      simp only [hpc2, CallerPc.afterBroadcast] at hpc
    all_goals try (cases hpc)
    all_goals simp only [hpc2, setCaller_callers, if_true, CallerPc.rank, State.setCaller]
    all_goals try (have hlt := getElem?_lt ‹s._threads[_]? = some _›)
    all_goals omega
  | submit c2 f hpc2 => simp [Action.within] at ha
  | stop c2 hpc2 => simp [Action.within] at ha
  | wake_worker i hcv => simp [Action.within] at ha
  | wake_caller c2 hcv => simp [Action.within] at ha

/-- After the broadcast, while no caller holds a mutex, a worker that has not returned or
another worker can take a step. -/
theorem worker_progress {n : Nat} {cap : Int} {s : State} (hr : Reachable n cap s)
    (hb : 0 < s.broadcasts)
    (hnc : ∀ c : Nat, (s.callers c).holdsPool = false ∧ (s.callers c).holdsQueue = false)
    (j : Nat) (wj : Worker) (hj : s._threads[j]? = some wj) (hnt : wj.pc ≠ .terminated) :
    ∃ i, (step s (.worker i)).isSome = true := by
  have hok := reachable_worker_ok hr
  have hM := reachable_poolMutexInv hr
  have hQ := reachable_queueMutexInv hr
  have hB := (reachable_broadcastInv hr) hb
  -- the queue mutex is free, or its holder is inside `pop` and can step
  have hqfree : s._taskq._mtx = none ∨ ∃ i, (step s (.worker i)).isSome = true := by
    cases hm : s._taskq._mtx with
    | none => exact Or.inl rfl
    | some t =>
      right
      cases t with
      | worker i =>
        obtain ⟨w, hw, hh⟩ := hQ.2.2.1 i hm
        refine ⟨i, step_worker_isSome s i w hw ?_⟩
        unfold workerEnabled
        cases hpc : w.pc <;> simp [hpc, WorkerPc.holdsQueue] at hh ⊢
      | caller c =>
        have := hQ.2.2.2 c hm
        rw [(hnc c).2] at this
        simp at this
  rcases hqfree with hq | hq
  · -- the pool mutex is free, or its holder is a worker that can step
    have hpfree : s._mtx = none ∨ ∃ i, (step s (.worker i)).isSome = true := by
      cases hm : s._mtx with
      | none => exact Or.inl rfl
      | some t =>
        right
        cases t with
        | worker i =>
          obtain ⟨w, hw, hh⟩ := hM.2.2.1 i hm
          refine ⟨i, step_worker_isSome s i w hw ?_⟩
          unfold workerEnabled
          cases hpc : w.pc <;> simp [hpc, WorkerPc.holdsPool, hq] at hh ⊢
        | caller c =>
          have := hM.2.2.2 c hm
          rw [(hnc c).1] at this
          simp at this
    rcases hpfree with hp | hp
    · refine ⟨j, step_worker_isSome s j wj hj ?_⟩
      have hokj := hok j wj hj
      unfold workerEnabled
      unfold Worker.ok at hokj
      cases hpc : wj.pc <;> simp [hpc, hq, hp, hB.1] at hokj hnt ⊢
    · exact hp
  · exact hq

/-- While caller `c` is in the rest of `stop` after its broadcast, a worker or `c` can take a
step. -/
theorem shutdown_progress {n : Nat} {cap : Int} {s : State} (hr : Reachable n cap s)
    (c : Nat) (hsd : s.shuttingDown c) (hpc : (s.callers c).afterBroadcast = true) :
    ∃ a, Action.within c a = true ∧ (step s a).isSome = true := by
  obtain ⟨hb, hidle, _⟩ := hsd
  have hJ := reachable_joinBound hr
  cases hc : s.callers c <;> simp [hc, CallerPc.afterBroadcast] at hpc
  case l119 =>
    exact ⟨.caller c 0, by simp [Action.within], by simp [step, callerStep, hc]⟩
  case l121 j =>
    refine ⟨.caller c 0, by simp [Action.within], ?_⟩
    simp only [step, callerStep, hc]
    split <;> rfl
  case l122 j =>
    have hlt := hJ c j (Or.inl hc)
    refine ⟨.caller c 0, by simp [Action.within], ?_⟩
    simp only [step, callerStep, hc, List.getElem?_eq_getElem hlt]
    split <;> rfl
  case l123 j =>
    have hlt := hJ c j (Or.inr hc)
    have hw : s._threads[j]? = some s._threads[j] := List.getElem?_eq_getElem hlt
    by_cases ht : s._threads[j].pc = .terminated
    · refine ⟨.caller c 0, by simp [Action.within], ?_⟩
      simp only [step, callerStep, hc, hw, ht, if_true]
      rfl
    · have hnc : ∀ c2 : Nat,
          (s.callers c2).holdsPool = false ∧ (s.callers c2).holdsQueue = false := by
        intro c2
        by_cases hc2 : c2 = c
        · rw [hc2, hc]
          exact ⟨rfl, rfl⟩
        · rw [hidle c2 hc2]
          exact ⟨rfl, rfl⟩
      obtain ⟨i, hi⟩ := worker_progress hr hb hnc j _ hw ht
      exact ⟨.worker i, rfl, hi⟩

/-- A step of a worker or of the caller of `stop` during the shutdown keeps the shutdown
going and decreases the rank. -/
theorem shutdown_step {n : Nat} {cap : Int} {s s1 : State} {a : Action}
    (hr : Reachable n cap s) (c : Nat) (hsd : s.shuttingDown c) (ha : Action.within c a = true)
    (hstep : step s a = some s1) : s1.shuttingDown c ∧ s1.rank c < s.rank c := by
  have hS := step_sound s a s1 hstep
  obtain ⟨hb, hidle, hpc⟩ := hsd
  have hafter : (s.callers c).afterBroadcast = true := by
    rcases hpc with h | ⟨hci, hret⟩
    · exact h
    · exfalso
      cases hS with
      | worker i w sh w1 hw hws =>
        have hj := (reachable_joinInv hr).2 hret i w hw
        exact hws.not_terminated (reachable_joined_terminated hr i w hw hj)
      | caller c2 choice s1 hcs =>
        simp only [Action.within, decide_eq_true_eq] at ha
        subst ha
        cases hcs
        all_goals
          have hpc2 := ‹s.callers c2 = _›
          rw [hci] at hpc2
          cases hpc2
      | submit c2 f hpc2 => simp [Action.within] at ha
      | stop c2 hpc2 => simp [Action.within] at ha
      | wake_worker i hcv => simp [Action.within] at ha
      | wake_caller c2 hcv => simp [Action.within] at ha
  refine ⟨?_, step_rank_decrease c hS ha ((reachable_flagInv hr).2.1 hb) hafter⟩
  cases hS with
  | worker i w sh w1 hw hws =>
    obtain ⟨_, h2, h3, h4, _⟩ := hws.frame
    refine ⟨?_, ?_, ?_⟩
    · show 0 < sh.broadcasts
      rw [h4]
      exact hb
    · intro c2 hc2
      show sh.callers c2 = .idle
      rw [h2]
      exact hidle c2 hc2
    · left
      show (sh.callers c).afterBroadcast = true
      rw [h2]
      exact hafter
  | caller c2 choice s1 hcs =>
    simp only [Action.within, decide_eq_true_eq] at ha
    subst ha
    cases hcs
    all_goals
      have hpc2 := ‹s.callers c2 = _›
      simp only [hpc2, CallerPc.afterBroadcast] at hafter
    all_goals try (cases hafter)
    all_goals
      refine ⟨by simpa [State.setCaller, State.setWorker] using hb, fun c3 hc3 => ?_, ?_⟩
      · simp only [setCaller_callers, if_neg hc3]
        exact hidle c3 hc3
      · simp [setCaller_callers, CallerPc.afterBroadcast, State.setCaller]
  | submit c2 f hpc2 => simp [Action.within] at ha
  | stop c2 hpc2 => simp [Action.within] at ha
  | wake_worker i hcv => simp [Action.within] at ha
  | wake_caller c2 hcv => simp [Action.within] at ha

/-- Every schedule of the workers and the caller of `stop`, started during the shutdown, is
shorter than the rank, and keeps the shutdown going. -/
theorem shutdown_bounded {n : Nat} {cap : Int} (c : Nat) (l : List Action) :
    ∀ (s s1 : State), Reachable n cap s → s.shuttingDown c →
      (∀ a ∈ l, Action.within c a = true) → run s l = some s1 →
      l.length + s1.rank c ≤ s.rank c ∧ s1.shuttingDown c ∧ Reachable n cap s1 := by
  induction l with
  | nil =>
    intro s s1 hr hsd _ hrun
    simp [run] at hrun
    subst hrun
    exact ⟨by simp, hsd, hr⟩
  | cons a l ih =>
    intro s s1 hr hsd hl hrun
    simp only [run] at hrun
    cases hs : step s a with
    | none => simp [hs] at hrun
    | some s2 =>
      simp only [hs] at hrun
      obtain ⟨h1, h2⟩ := shutdown_step hr c hsd (hl a (List.mem_cons_self a l)) hs
      obtain ⟨h3, h4, h5⟩ := ih s2 s1 (reachable_step a hr hs) h1
        (fun b hb => hl b (List.mem_cons_of_mem a hb)) hrun
      refine ⟨?_, h4, h5⟩
      simp only [List.length_cons]
      omega

/-- From every state of the shutdown, some schedule of the workers and the caller of `stop`
leads to the return of `stop`. -/
theorem shutdown_completes {n : Nat} {cap : Int} (c : Nat) (r : Nat) :
    ∀ s : State, Reachable n cap s → s.shuttingDown c → s.rank c ≤ r →
      ∃ (l : List Action) (s1 : State), (∀ a ∈ l, Action.within c a = true) ∧
        run s l = some s1 ∧ s1.callers c = .idle ∧ 0 < s1.stop_returns := by
  induction r with
  | zero =>
    intro s hr hsd hrank
    rcases hsd.2.2 with hafter | hdone
    · obtain ⟨a, ha, hen⟩ := shutdown_progress hr c hsd hafter
      obtain ⟨s2, hs2⟩ := Option.isSome_iff_exists.mp hen
      have := (shutdown_step hr c hsd ha hs2).2
      omega
    · exact ⟨[], s, by simp, rfl, hdone.1, hdone.2⟩
  | succ r ih =>
    intro s hr hsd hrank
    rcases hsd.2.2 with hafter | hdone
    · obtain ⟨a, ha, hen⟩ := shutdown_progress hr c hsd hafter
      obtain ⟨s2, hs2⟩ := Option.isSome_iff_exists.mp hen
      obtain ⟨h1, h2⟩ := shutdown_step hr c hsd ha hs2
      obtain ⟨l, s1, hl, hrun, hdone⟩ := ih s2 (reachable_step a hr hs2) h1 (by omega)
      refine ⟨a :: l, s1, ?_, ?_, hdone⟩
      · intro b hb
        rcases List.mem_cons.mp hb with h | h
        · rw [h]
          exact ha
        · exact hl b h
      · simp only [run, hs2]
        exact hrun
    · exact ⟨[], s, by simp, rfl, hdone.1, hdone.2⟩

/-! ## C9: shutdown never strands a parked worker -/

theorem step_callers_frame {s s1 : State} {a : Action} (c : Nat) (h : Step s a s1)
    (ha : a.callerOf ≠ some c) : s1.callers c = s.callers c := by
  cases h with
  | worker i w sh w1 hw hws => exact congrFun hws.frame.2.1 c
  | caller c2 choice s1 hcs =>
    have hne : c ≠ c2 := by
      intro e
      subst e
      exact ha rfl
    cases hcs <;> simp [State.setCaller, State.setWorker, hne]
  | submit c2 f hpc =>
    have hne : c ≠ c2 := by
      intro e
      subst e
      exact ha rfl
    simp [State.setCaller, hne]
  | stop c2 hpc =>
    have hne : c ≠ c2 := by
      intro e
      subst e
      exact ha rfl
    simp [State.setCaller, hne]
  | wake_worker i hcv => rfl
  | wake_caller c2 hcv => rfl

theorem run_callers_frame (c : Nat) (l : List Action) :
    ∀ (s s1 : State), run s l = some s1 → (∀ a ∈ l, a.callerOf ≠ some c) →
      s1.callers c = s.callers c := by
  induction l with
  | nil =>
    intro s s1 hrun _
    simp [run] at hrun
    rw [hrun]
  | cons a l ih =>
    intro s s1 hrun hl
    simp only [run] at hrun
    cases hs : step s a with
    | none => simp [hs] at hrun
    | some s2 =>
      simp only [hs] at hrun
      rw [ih s2 s1 hrun (fun b hb => hl b (List.mem_cons_of_mem a hb))]
      exact step_callers_frame c (step_sound s a s2 hs) (hl a (List.mem_cons_self a l))

/-- C9. Shutdown never strands a parked worker: in every reachable state in which `stop` has
issued its `notify_all`, the stop flag is true and no worker blocked in `wait` is still in
the wait set of the pool's condition variable.  Hence, while the caller `c` of `stop` is in
the rest of `stop` and no other thread is inside a call, every schedule of the workers and
of `c` has at most `rank` steps, when none of them can take a step any more `stop` has
returned and every worker has returned from `thread_do`, and such a schedule exists. -/
theorem shutdown_strands_no_worker (n : Nat) (cap : Int) (s : State)
    (hs : Reachable n cap s) (hb : 0 < s.broadcasts) :
    s._is_stop = true ∧
    (∀ (i : Nat) (w : Worker), s._threads[i]? = some w → w.pc = .wait → i ∉ s._cv) ∧
    (∀ c : Nat, s.shuttingDown c → ∀ (l : List Action) (s1 : State),
      (∀ a ∈ l, Action.within c a = true) → run s l = some s1 →
        l.length ≤ s.rank c ∧
        ((∀ a : Action, Action.within c a = true → step s1 a = none) →
          s1.callers c = .idle ∧ 0 < s1.stop_returns ∧
          ∀ (i : Nat) (w : Worker), s1._threads[i]? = some w → w.pc = .terminated)) ∧
    (∀ c : Nat, s.shuttingDown c →
      ∃ (l : List Action) (s1 : State), (∀ a ∈ l, Action.within c a = true) ∧
        run s l = some s1 ∧ s1.callers c = .idle ∧ 0 < s1.stop_returns) := by
  have hB := (reachable_broadcastInv hs) hb
  refine ⟨(reachable_flagInv hs).2.1 hb, fun i w _ _ => ?_, fun c hsd l s1 hl hrun => ?_,
    fun c hsd => shutdown_completes c (s.rank c) s hs hsd (Nat.le_refl _)⟩
  · rw [hB.1]
    simp
  · obtain ⟨h1, h2, h3⟩ := shutdown_bounded c l s s1 hs hsd hl hrun
    refine ⟨by omega, fun hstuck => ?_⟩
    have hdone : s1.callers c = .idle ∧ 0 < s1.stop_returns := by
      rcases h2.2.2 with hafter | hdone
      · obtain ⟨a, ha, hen⟩ := shutdown_progress h3 c h2 hafter
        rw [hstuck a ha] at hen
        simp at hen
      · exact hdone
    refine ⟨hdone.1, hdone.2, fun i w hw => ?_⟩
    exact reachable_joined_terminated h3 i w hw ((reachable_joinInv h3).2 hdone.2 i w hw)

set_option maxRecDepth 100000 in
/-- Scenario C, pool(threads=1, capacity=5): after the worker has parked and `stop` has
issued its broadcast, with no task ever submitted, the flag is set, and the rest of the
scenario, in which the worker returns and `stop` joins it, is within the bound. -/
theorem shutdown_strands_no_worker_witness :
    ∃ s s1, run (State.init 1 5) scenarioC_stop = some s ∧ 0 < s.broadcasts ∧
      s._is_stop = true ∧ run s scenarioC_rest = some s1 ∧
      scenarioC_rest.length ≤ s.rank 0 ∧ s1.callers 0 = .idle ∧ s1.stop_returns = 1 :=
  have hsd : ∀ s, run (State.init 1 5) scenarioC_stop = some s →
      (s.callers 0).afterBroadcast = true → 0 < s.broadcasts → s.shuttingDown 0 :=
    fun s hrun hpc hb => ⟨hb, fun c2 hc2 => by
      rw [run_callers_frame c2 scenarioC_stop _ s hrun (by
        have hall : ∀ a ∈ scenarioC_stop, a.callerOf = none ∨ a.callerOf = some 0 := by decide
        intro a ha hca
        rcases hall a ha with h | h
        · rw [h] at hca
          simp at hca
        · rw [h] at hca
          simp at hca
          exact hc2 hca.symm)]
      rfl, Or.inl hpc⟩
  ⟨_, _, rfl, by decide,
    (shutdown_strands_no_worker 1 5 _ ⟨scenarioC_stop, rfl⟩ (by decide)).1, rfl,
    ((shutdown_strands_no_worker 1 5 _ ⟨scenarioC_stop, rfl⟩ (by decide)).2.2.1 0
      (hsd _ rfl rfl (by decide)) scenarioC_rest _ (by decide) rfl).1, rfl, rfl⟩

/-! ## C4, C6: what the code does at the failing schedules -/

set_option maxRecDepth 100000 in
/-- C4. Scenario A, pool(threads=1, capacity=1): after `T1` has been dequeued and run, the
second `submit` is still blocked inside `push`, in the wait set of the queue's condition
variable, although the queue is empty and the predicate of its wait is true; the worker is
parked; neither the worker nor any caller can take a step: `pop` has notified nobody. -/
theorem backpressure_not_released :
    ∃ s, run (State.init 1 1) scenarioA = some s ∧
      s.callers 0 = .push_wait (some 2) ∧ s._taskq._cv = [0] ∧
      s._taskq._tasks = [] ∧ s._taskq.has_room = true ∧
      s.popped = [some 1] ∧ s.executed = [(0, 1)] ∧ s._is_stop = false ∧
      (∀ i : Nat, step s (.worker i) = none) ∧
      (∀ c choice : Nat, step s (.caller c choice) = none) := by
  have hsome : (run (State.init 1 1) scenarioA).isSome = true := rfl
  obtain ⟨s, hs⟩ := Option.isSome_iff_exists.mp hsome
  have hthreads : s._threads = [{ pc := .wait, f := none, is_pop := false, joinable := true }] := by
    have h : (run (State.init 1 1) scenarioA).map (fun s => s._threads) =
        some [{ pc := .wait, f := none, is_pop := false, joinable := true }] := rfl
    rw [hs] at h
    simpa using h
  have hcv : s._cv = [0] := by
    have h : (run (State.init 1 1) scenarioA).map (fun s => s._cv) = some [0] := rfl
    rw [hs] at h
    simpa using h
  have hq : s._taskq._cv = [0] ∧ s._taskq._tasks = [] ∧ s._taskq.has_room = true := by
    have h : (run (State.init 1 1) scenarioA).map
        (fun s => (s._taskq._cv, s._taskq._tasks, s._taskq.has_room)) = some ([0], [], true) := rfl
    rw [hs] at h
    simpa using h
  have hc0 : s.callers 0 = .push_wait (some 2) := by
    have h : (run (State.init 1 1) scenarioA).map (fun s => s.callers 0) =
        some (.push_wait (some 2)) := rfl
    rw [hs] at h
    simpa using h
  have hhist : s.popped = [some 1] ∧ s.executed = [(0, 1)] ∧ s._is_stop = false := by
    have h : (run (State.init 1 1) scenarioA).map
        (fun s => (s.popped, s.executed, s._is_stop)) = some ([some 1], [(0, 1)], false) := rfl
    rw [hs] at h
    simpa using h
  have hidle : ∀ c : Nat, c ≠ 0 → s.callers c = .idle := by
    intro c hc
    rw [run_callers_frame c scenarioA _ s hs (by
      have hall : ∀ a ∈ scenarioA, a.callerOf = none ∨ a.callerOf = some 0 := by decide
      intro a ha hca
      rcases hall a ha with h | h
      · rw [h] at hca
        simp at hca
      · rw [h] at hca
        simp at hca
        exact hc hca.symm)]
    rfl
  refine ⟨s, hs, hc0, hq.1, hq.2.1, hq.2.2, hhist.1, hhist.2.1, hhist.2.2, ?_, ?_⟩
  · intro i
    cases i with
    | zero => simp [step, hthreads, workerStep, hcv]
    | succ i => simp [step, hthreads]
  · intro c choice
    by_cases hc : c = 0
    · subst hc
      simp [step, callerStep, hc0, hq.1]
    · simp [step, callerStep, hidle c hc]

set_option maxRecDepth 100000 in
/-- C6. A claimed task at shutdown, pool(threads=1, capacity=1): the worker has dequeued `T1`
inside the predicate of its wait while the stop flag was false, and stands before the check
of line 89; `stop` then sets the flag, and the worker returns with `T1` in `f`: `T1` has left
the queue, has not been called, and `stop` has returned. -/
theorem claimed_task_dropped :
    ∃ s0 s, run (State.init 1 1) scenarioClaim_claimed = some s0 ∧
      s0._threads = [{ pc := .l89, f := some 1, is_pop := false, joinable := true }] ∧
      s0._is_stop = false ∧ s0.popped = [some 1] ∧
      run s0 scenarioClaim_rest = some s ∧
      s.returned = [some 1] ∧ s.pushed = [some 1] ∧ s.popped = [some 1] ∧
      s._taskq._tasks = [] ∧ s.executed = [] ∧
      s._threads = [{ pc := .terminated, f := some 1, is_pop := false, joinable := false }] ∧
      s.stop_returns = 1 ∧ s.callers 0 = .idle :=
  ⟨_, _, rfl, rfl, rfl, rfl, rfl, rfl, rfl, rfl, rfl, rfl, rfl, rfl, rfl⟩

/-! ## C5: tasks at shutdown -/

theorem step_returnedInv {s s1 : State} {a : Action} (h : Step s a s1) (hi : s.returnedInv) :
    s1.returnedInv := by
  obtain ⟨h1, h2, h3⟩ := hi
  cases h with
  | worker i w sh w1 hw hws =>
    obtain ⟨_, hc, _, _, _, hp, hr, hb⟩ := hws.frame
    refine ⟨fun c f hcf => ?_, fun f hf => ?_, fun l hl f hf => ?_⟩
    · show f ∈ sh.pushed
      rw [hp]
      exact h1 c f (by rw [← hc]; exact hcf)
    · show f ∈ sh.pushed
      rw [hp]
      exact h2 f (by rw [← hr]; exact hf)
    · show f ∈ sh.returned
      rw [hr]
      exact h3 l (by rw [← hb]; exact hl) f hf
  | caller c choice s1 hcs =>
    cases hcs
    case l33_push f q1 cv1 hpc hp hn =>
      refine ⟨fun c2 f2 hcf => ?_, fun f2 hf => ?_, h3⟩
      · show f2 ∈ s.pushed ++ [f]
        simp only [setCaller_callers] at hcf
        by_cases hc2 : c2 = c
        · simp [hc2] at hcf
          simp [hcf]
        · simp only [if_neg hc2] at hcf
          exact List.mem_append_left _ (h1 c2 f2 hcf)
      · show f2 ∈ s.pushed ++ [f]
        exact List.mem_append_left _ (h2 f2 hf)
    case l109 f hpc hm =>
      refine ⟨fun c2 f2 hcf => ?_, h2, h3⟩
      simp only [setCaller_callers] at hcf
      by_cases hc2 : c2 = c
      · simp [hc2] at hcf
        subst hcf
        exact h1 c f (Or.inl hpc)
      · simp only [if_neg hc2] at hcf
        exact h1 c2 f2 hcf
    case l110 f cv1 hpc hn =>
      refine ⟨fun c2 f2 hcf => ?_, h2, h3⟩
      simp only [setCaller_callers] at hcf
      by_cases hc2 : c2 = c
      · simp [hc2] at hcf
        subst hcf
        exact h1 c f (Or.inr (Or.inl hpc))
      · simp only [if_neg hc2] at hcf
        exact h1 c2 f2 hcf
    case l111 f hpc =>
      refine ⟨fun c2 f2 hcf => ?_, fun f2 hf => ?_, fun l hl f2 hf => ?_⟩
      · simp only [setCaller_callers] at hcf
        by_cases hc2 : c2 = c
        · simp [hc2] at hcf
        · simp only [if_neg hc2] at hcf
          exact h1 c2 f2 hcf
      · have hf2 : f2 ∈ s.returned ++ [f] := hf
        rcases List.mem_append.mp hf2 with h | h
        · exact h2 f2 h
        · simp at h
          subst h
          exact h1 c f2 (Or.inr (Or.inr hpc))
      · show f2 ∈ s.returned ++ [f]
        exact List.mem_append_left _ (h3 l hl f2 hf)
    all_goals
      refine ⟨fun c2 f2 hcf => ?_, h2, h3⟩
      simp only [setCaller_callers] at hcf
      by_cases hc2 : c2 = c
      · simp [hc2] at hcf
      · simp only [if_neg hc2] at hcf
        exact h1 c2 f2 hcf
  | submit c f hpc =>
    refine ⟨fun c2 f2 hcf => ?_, h2, h3⟩
    simp only [setCaller_callers] at hcf
    by_cases hc2 : c2 = c
    · simp [hc2] at hcf
    · simp only [if_neg hc2] at hcf
      exact h1 c2 f2 hcf
  | stop c hpc =>
    refine ⟨fun c2 f2 hcf => ?_, h2, fun l hl f2 hf => ?_⟩
    · simp only [setCaller_callers] at hcf
      by_cases hc2 : c2 = c
      · simp [hc2] at hcf
      · simp only [if_neg hc2] at hcf
        exact h1 c2 f2 hcf
    · show f2 ∈ s.returned
      have hl2 : (match s.before_stop with
          | some l => some l
          | none => some s.returned) = some l := hl
      cases hb : s.before_stop with
      | none =>
        rw [hb] at hl2
        simp at hl2
        rw [hl2]
        exact hf
      | some l0 =>
        rw [hb] at hl2
        simp at hl2
        subst hl2
        exact h3 l0 hb f2 hf
  | wake_worker i hcv => exact ⟨h1, h2, h3⟩
  | wake_caller c hcv => exact ⟨h1, h2, h3⟩

theorem reachable_returnedInv {n : Nat} {cap : Int} {s : State} (hr : Reachable n cap s) :
    s.returnedInv := by
  refine reachable_invariant State.returnedInv ?_ (fun _ _ _ hi h => step_returnedInv h hi) s hr
  simp [State.returnedInv, State.init]

theorem heldCount_eq_zero (s : State) (k : Nat)
    (h : ∀ (i : Nat) (w : Worker), s._threads[i]? = some w → w.f ≠ some k) :
    s.heldCount k = 0 := by
  unfold State.heldCount
  apply List.sum_eq_zero
  intro x hx
  obtain ⟨w, hw, rfl⟩ := List.mem_map.mp hx
  obtain ⟨i, hi⟩ := List.mem_iff_getElem?.mp hw
  have hne := h i w hi
  have hsub : ∀ j ∈ w.held, w.f = some j := by
    intro j hj
    unfold Worker.held at hj
    split at hj <;> simp at hj <;> exact hj
  rcases Nat.eq_zero_or_pos (w.held.count k) with h0 | h0
  · exact h0
  · exact absurd (hsub k (List.count_pos_iff.mp h0)) hne

set_option maxRecDepth 100000 in
/-- C5, as stated, fails in Scenario B, pool(threads=3, capacity=10): the nine `submit`
calls have returned before `stop` is called, `stop` has returned and the three workers have
returned, and no task was called: all nine are still in the queue. -/
theorem submitted_tasks_not_run :
    ∃ s, run (State.init 3 10) scenarioB = some s ∧
      s.before_stop = some [some 1, some 2, some 3, some 4, some 5, some 6, some 7, some 8,
        some 9] ∧
      s.stop_returns = 1 ∧ s.callers 0 = .idle ∧ s.executed = [] ∧
      s._taskq._tasks = [some 1, some 2, some 3, some 4, some 5, some 6, some 7, some 8,
        some 9] ∧
      s._threads = List.replicate 3
        { pc := .terminated, f := none, is_pop := false, joinable := false } :=
  ⟨_, rfl, rfl, rfl, rfl, rfl, rfl, rfl⟩

/-- C5, amended. When `stop` has returned, every worker has returned, and every task whose
`submit` returned before `stop` was called has been enqueued; the number of its calls, plus
the number of its entries still in the queue, plus the number of workers that hold it
uncalled, is the number of times it was enqueued.  So a task enqueued once has been called at
most once, and exactly once when it is no longer in the queue and no worker holds it. -/
theorem stop_accounts_for_tasks (n : Nat) (cap : Int) (s : State) (hs : Reachable n cap s)
    (hret : 0 < s.stop_returns) (l : List TaskFunc) (hl : s.before_stop = some l) (k : Nat)
    (hk : some k ∈ l) :
    (∀ (i : Nat) (w : Worker), s._threads[i]? = some w → w.pc = .terminated) ∧
    0 < s.pushed.count (some k) ∧
    s.execCount k + s._taskq._tasks.count (some k) + s.heldCount k = s.pushed.count (some k) ∧
    (s.pushed.count (some k) = 1 →
      s.execCount k ≤ 1 ∧
      (some k ∉ s._taskq._tasks →
        (∀ (i : Nat) (w : Worker), s._threads[i]? = some w → w.f ≠ some k) →
        s.execCount k = 1)) := by
  have hR := reachable_returnedInv hs
  have hcons := reachable_conservation hs k
  have hfifo := reachable_fifo hs
  have hpushed : some k ∈ s.pushed := hR.2.1 _ (hR.2.2 l hl _ hk)
  have hpos : 0 < s.pushed.count (some k) := List.count_pos_iff.mpr hpushed
  have hsum : s.execCount k + s._taskq._tasks.count (some k) + s.heldCount k =
      s.pushed.count (some k) := by
    rw [hfifo, List.count_append]
    omega
  refine ⟨fun i w hw => ?_, hpos, hsum, fun h1 => ⟨by omega, fun hq hh => ?_⟩⟩
  · exact reachable_joined_terminated hs i w hw ((reachable_joinInv hs).2 hret i w hw)
  · have h0 := heldCount_eq_zero s k hh
    have hq0 : s._taskq._tasks.count (some k) = 0 := List.count_eq_zero.mpr hq
    omega

set_option maxRecDepth 100000 in
/-- In the normal run of a pool with one worker, task 1, submitted before `stop`, has been
called exactly once when `stop` has returned. -/
theorem stop_accounts_for_tasks_witness :
    ∃ s, run (State.init 1 1) scenarioRun = some s ∧ 0 < s.stop_returns ∧
      s.before_stop = some [some 1] ∧ s.execCount 1 = 1 := by
  have hsome : (run (State.init 1 1) scenarioRun).isSome = true := rfl
  obtain ⟨s, hs⟩ := Option.isSome_iff_exists.mp hsome
  have hfacts :
      s._threads = [{ pc := .terminated, f := none, is_pop := false, joinable := false }] ∧
      s._taskq._tasks = [] ∧ s.pushed = [some 1] ∧
      s.before_stop = some [some 1] ∧ s.stop_returns = 1 := by
    have h : (run (State.init 1 1) scenarioRun).map
        (fun s => (s._threads, s._taskq._tasks, s.pushed, s.before_stop, s.stop_returns)) =
        some ([{ pc := .terminated, f := none, is_pop := false, joinable := false }], [],
          [some 1], some [some 1], 1) := rfl
    rw [hs] at h
    simpa using h
  obtain ⟨hth, hq, hp, hb, hr⟩ := hfacts
  have hret : 0 < s.stop_returns := by omega
  refine ⟨s, hs, hret, hb, ?_⟩
  refine ((stop_accounts_for_tasks 1 1 s ⟨scenarioRun, hs⟩ hret [some 1] hb 1
    (by simp)).2.2.2 (by simp [hp])).2 (by simp [hq]) ?_
  intro i w hw
  rw [hth] at hw
  cases i with
  | zero =>
    simp at hw
    subst hw
    simp
  | succ i => simp at hw

/-! ## C10: construction -/

/-- C10, as stated, fails: with the `max_size` of libstdc++, the constructor accepts
`threads_num = 0` and `max_tasks_num <= 0` and yields a pool. -/
theorem construction_accepts_nonpositive :
    State.new VECTOR_MAX_SIZE 0 0 = .ok (State.init 0 0) ∧
    State.new VECTOR_MAX_SIZE 0 5 = .ok (State.init 0 5) ∧
    State.new VECTOR_MAX_SIZE 1 0 = .ok (State.init 1 0) ∧
    State.new VECTOR_MAX_SIZE 2 (-1) = .ok (State.init 2 (-1)) :=
  ⟨rfl, rfl, rfl, rfl⟩

theorem toSizeT_neg (x : Int) (h0 : INT_MIN ≤ x) (h1 : x < 0) :
    (toSizeT x : Int) = x + (SIZE_MOD : Int) := by
  unfold toSizeT
  unfold INT_MIN at h0
  have h2 : x % (SIZE_MOD : Int) = x + (SIZE_MOD : Int) := by
    unfold SIZE_MOD
    omega
  rw [h2]
  apply Int.toNat_of_nonneg
  unfold SIZE_MOD
  omega

/-- C10, amended. The constructor inspects neither argument.  It fails exactly through
`_threads.resize`: with `threads_num < 0` the size converted to `size_t` exceeds `max_size()`
and `std::length_error` is thrown; with `threads_num >= 0` (within `max_size()`) it yields a
pool of `threads_num` workers for every `max_tasks_num`, also `max_tasks_num <= 0`.  With
`max_tasks_num = 0` the queue of that pool stays empty: every `push` blocks. -/
theorem construction_checks_nothing (max_size : Nat)
    (hmax : (max_size : Int) + 2147483648 < (SIZE_MOD : Int)) (threads_num max_tasks_num : Int)
    (h1 : INT_MIN ≤ threads_num) (h2 : threads_num ≤ INT_MAX) :
    (threads_num < 0 →
      State.new max_size threads_num max_tasks_num = .error .length_error) ∧
    (0 ≤ threads_num → threads_num.toNat ≤ max_size →
      State.new max_size threads_num max_tasks_num =
        .ok (State.init threads_num.toNat max_tasks_num) ∧
      (State.init threads_num.toNat max_tasks_num)._threads.length = threads_num.toNat ∧
      (State.init threads_num.toNat max_tasks_num)._taskq._max_tasks_num = max_tasks_num ∧
      (max_tasks_num = 0 → ∀ s : State, Reachable threads_num.toNat max_tasks_num s →
        s._taskq._tasks = [] ∧ ∀ f : TaskFunc, s._taskq.push f = none)) := by
  constructor
  · intro hneg
    have hs := toSizeT_neg threads_num h1 hneg
    unfold INT_MIN at h1
    have hlt : max_size < toSizeT threads_num := by omega
    simp [State.new, hlt]
  · intro hpos hfit
    have hs := toSizeT_int threads_num hpos h2
    have hnlt : ¬ max_size < toSizeT threads_num := by omega
    refine ⟨?_, by simp [State.init], rfl, ?_⟩
    · simp [State.new, hnlt, State.init, Int.toNat_of_nonneg hpos]
    · intro hz s hr
      subst hz
      obtain ⟨hc1, hc2⟩ := reachable_capacity hr
      have hz : toSizeT 0 = 0 := rfl
      rw [hz] at hc2
      have hlen : s._taskq._tasks.length = 0 := by omega
      refine ⟨List.length_eq_zero.mp hlen, fun f => ?_⟩
      apply TaskQueue.push_of_full
      rw [hc1, hz]
      omega

/-- Construction with `threads_num = -1` fails in `resize`; with `threads_num = 2` and
`max_tasks_num = 0` it yields a pool of two workers. -/
theorem construction_checks_nothing_witness :
    State.new VECTOR_MAX_SIZE (-1) 20 = .error .length_error ∧
    State.new VECTOR_MAX_SIZE 2 0 = .ok (State.init 2 0) :=
  ⟨(construction_checks_nothing VECTOR_MAX_SIZE (by decide) (-1) 20 (by decide)
      (by decide)).1 (by decide),
    ((construction_checks_nothing VECTOR_MAX_SIZE (by decide) 2 0 (by decide)
      (by decide)).2 (by decide) (by decide)).1⟩

/-! ## C15, C16, C19: exits of the worker loop, the stop flag, empty functions -/

theorem step_stop_mono {s s1 : State} {a : Action} (h : Step s a s1)
    (hi : s._is_stop = true) : s1._is_stop = true := by
  cases h with
  | worker i w sh w1 hw hws =>
    show sh._is_stop = true
    rw [hws.frame.1]
    exact hi
  | caller c choice s1 hcs => cases hcs <;> first | rfl | exact hi
  | _ => exact hi

theorem run_append_inv (l1 l2 : List Action) :
    ∀ s s2 : State, run s (l1 ++ l2) = some s2 →
      ∃ s1, run s l1 = some s1 ∧ run s1 l2 = some s2 := by
  induction l1 with
  | nil =>
    intro s s2 h
    exact ⟨s, rfl, h⟩
  | cons a l ih =>
    intro s s2 h
    simp only [run, List.cons_append] at h ⊢
    cases hs : step s a with
    | none => simp [hs] at h
    | some s3 =>
      simp only [hs] at h ⊢
      exact ih s3 s2 h

theorem run_stop_mono (l : List Action) :
    ∀ s s1 : State, run s l = some s1 → s._is_stop = true → s1._is_stop = true :=
  fun s s1 hrun hi =>
    run_invariant (fun s => s._is_stop = true) (fun _ _ _ hi h => step_stop_mono h hi)
      l s s1 hi hrun

/-- A worker that is returning or has returned has seen the stop flag set. -/
theorem step_exit_flag {s s1 : State} {a : Action} (h : Step s a s1)
    (hi : ∀ (i : Nat) (w : Worker), s._threads[i]? = some w → w.pc.exited = true →
      s._is_stop = true) :
    ∀ (i : Nat) (w : Worker), s1._threads[i]? = some w → w.pc.exited = true →
      s1._is_stop = true := by
  intro j wj hj he
  have hmono := step_stop_mono h
  cases h with
  | worker i w sh w1 hw hws =>
    have hth := hws.threads_eq
    rcases getElem?_setWorker hj with ⟨_, rfl⟩ | ⟨_, h2⟩
    · have hiw := hi i w hw
      cases hws <;> simp_all [WorkerPc.exited, State.setWorker]
    · rw [hth] at h2
      exact hmono (hi j wj h2 he)
  | caller c choice s1 hcs =>
    cases hcs
    case l123 i0 w hpc hw ht =>
      have h2 : (s.setWorker i0 { w with joinable := false })._threads[j]? = some wj := hj
      rcases getElem?_setWorker h2 with ⟨_, rfl⟩ | ⟨_, h3⟩
      · exact hmono (hi i0 w hw he)
      · exact hmono (hi j wj h3 he)
    all_goals exact hmono (hi j wj hj he)
  | _ => exact hi j wj hj he

theorem reachable_exit_flag {n : Nat} {cap : Int} {s : State} (hr : Reachable n cap s) :
    ∀ (i : Nat) (w : Worker), s._threads[i]? = some w → w.pc.exited = true →
      s._is_stop = true := by
  refine reachable_invariant
    (fun s => ∀ (i : Nat) (w : Worker), s._threads[i]? = some w → w.pc.exited = true →
      s._is_stop = true) ?_ (fun _ _ _ hi h => step_exit_flag h hi) s hr
  intro i w hw he
  simp only [State.init, List.getElem?_replicate] at hw
  split at hw
  · simp at hw
    subst hw
    simp [WorkerPc.exited] at he
  · simp at hw

/-- C15. A worker terminates only via the stop flag: in every reachable state a worker that
is returning from `thread_do` (line 89) or has returned finds the stop flag true, no worker
has left the loop in another way, and while the stop flag is false every worker is in the
draining part or in the parking part of the loop. -/
theorem worker_exits_on_flag (n : Nat) (cap : Int) (s : State) (hs : Reachable n cap s)
    (i : Nat) (w : Worker) (hw : s._threads[i]? = some w) :
    (w.pc = .ret ∨ w.pc = .terminated → s._is_stop = true) ∧
    w.pc ≠ .crashed ∧
    (s._is_stop = false → w.pc.draining = true ∨ w.pc.parking = true) ∧
    (∀ s1 w1, step s (.worker i) = some s1 → s1._threads[i]? = some w1 →
      w1.pc = .ret ∨ w1.pc = .terminated → s._is_stop = true ∧ s1._is_stop = true) := by
  have hE := reachable_exit_flag hs i w hw
  have hok := reachable_worker_ok hs i w hw
  have hnc : w.pc ≠ .crashed := by
    intro hc
    simp [Worker.ok, hc] at hok
  refine ⟨fun h => hE (by rcases h with h | h <;> simp [h, WorkerPc.exited]), hnc,
    fun hf => ?_, fun s1 w1 hstep hw1 h1 => ?_⟩
  · cases hpc : w.pc <;> simp [WorkerPc.draining, WorkerPc.parking]
    · exact absurd (hE (by simp [hpc, WorkerPc.exited])) (by simp [hf])
    · exact absurd (hE (by simp [hpc, WorkerPc.exited])) (by simp [hf])
    · exact hnc hpc
  · have h2 := reachable_exit_flag (reachable_step _ hs hstep) i w1 hw1
      (by rcases h1 with h | h <;> simp [h, WorkerPc.exited])
    refine ⟨?_, h2⟩
    have hS := step_sound s _ s1 hstep
    cases hS with
    | worker i0 w0 sh w2 hw0 hws =>
      rw [hw] at hw0
      simp at hw0
      subst hw0
      rw [setWorker_getElem?_self (by rw [hws.threads_eq]; exact hw)] at hw1
      simp at hw1
      subst hw1
      cases hws <;> simp_all [WorkerPc.exited]

set_option maxRecDepth 100000 in
/-- Scenario C: the worker of a pool of one has returned, and the stop flag is true. -/
theorem worker_exits_on_flag_witness :
    ∃ s, run (State.init 1 5) scenarioC = some s ∧
      s._threads[0]? = some { pc := .terminated, f := none, is_pop := false, joinable := false } ∧
      s._is_stop = true :=
  ⟨_, rfl, rfl,
    (worker_exits_on_flag 1 5 _ ⟨scenarioC, rfl⟩ 0
      { pc := .terminated, f := none, is_pop := false, joinable := false } rfl).1
      (Or.inr rfl)⟩

/-- C16. The stop flag is monotonic: it is false after construction, no step of any thread
(worker step, step of `submit` or `stop`, new call, wakeup) changes it from true to false,
and it is true in every state that follows a state in which it is true. -/
theorem stop_flag_monotonic (n : Nat) (cap : Int) (s s1 : State) (l : List Action)
    (hstop : s._is_stop = true) (hrun : run s l = some s1) :
    (State.init n cap)._is_stop = false ∧
    (∀ (a : Action) (s2 : State), step s a = some s2 → s2._is_stop = true) ∧
    s1._is_stop = true :=
  ⟨rfl, fun a s2 h => step_stop_mono (step_sound s a s2 h) hstop, run_stop_mono l s s1 hrun hstop⟩

set_option maxRecDepth 100000 in
/-- Scenario C: the flag, set by `stop` at line 115, is still true when `stop` has returned. -/
theorem stop_flag_monotonic_witness :
    ∃ s s1, run (State.init 1 5) scenarioC_stop = some s ∧ s._is_stop = true ∧
      run s scenarioC_rest = some s1 ∧ s1._is_stop = true := by
  have h0 : (run (State.init 1 5) (scenarioC_stop ++ scenarioC_rest)).isSome = true := rfl
  obtain ⟨s1, hs1⟩ := Option.isSome_iff_exists.mp h0
  obtain ⟨s, hs, hrest⟩ := run_append_inv scenarioC_stop scenarioC_rest _ _ hs1
  have hflag : s._is_stop = true := by
    have h : (run (State.init 1 5) scenarioC_stop).map (fun s => s._is_stop) = some true := rfl
    rw [hs] at h
    simpa using h
  exact ⟨s, s1, hs, hflag, hrest,
    (stop_flag_monotonic 1 5 s s1 scenarioC_rest hflag hrest).2.2⟩

/-- C19. The worker loop never invokes an empty callable: in every reachable state no worker
has invoked an empty function; at the loop test of line 77 `is_pop` is true exactly when `f`
holds a target; at the call of line 78 `f` holds a target, and the step is the call of that
target; a worker whose `pop` returned an empty function, from an empty queue or as an empty
task, goes from line 77 to line 85 without a call. -/
theorem never_calls_empty (n : Nat) (cap : Int) (s : State) (hs : Reachable n cap s)
    (i : Nat) (w : Worker) (hw : s._threads[i]? = some w) :
    w.pc ≠ .crashed ∧
    (w.pc = .l77 → w.is_pop = w.f.isSome) ∧
    (w.pc = .l78 → ∃ k, w.f = some k ∧
      step s (.worker i) =
        some ({ s with executed := s.executed ++ [(i, k)] }.setWorker i { w with pc := .l79 })) ∧
    (w.pc = .l77 → w.f = none →
      step s (.worker i) = some (s.setWorker i { w with pc := .l85 })) := by
  have hok := reachable_worker_ok hs i w hw
  refine ⟨fun hc => ?_, fun hpc => ?_, fun hpc => ?_, fun hpc hf => ?_⟩
  · simp [Worker.ok, hc] at hok
  · simpa [Worker.ok, hpc] using hok
  · simp only [Worker.ok, hpc] at hok
    obtain ⟨k, hk⟩ := Option.isSome_iff_exists.mp hok
    exact ⟨k, hk, by simp only [step, hw, workerStep, hpc, hk]⟩
  · simp only [Worker.ok, hpc, hf] at hok
    simp only [step, hw, workerStep, hpc]
    simp [hok]

set_option maxRecDepth 100000 in
/-- An empty function submitted to a pool of one worker is dequeued and never called: the
worker is back in `wait`, it has not invoked the empty function. -/
theorem never_calls_empty_witness :
    ∃ s, run (State.init 1 5) scenarioEmpty = some s ∧ s.pushed = [none] ∧
      s.popped = [none] ∧ s.executed = [] ∧
      s._threads[0]? = some { pc := .wait, f := none, is_pop := false, joinable := true } ∧
      WorkerPc.wait ≠ WorkerPc.crashed :=
  ⟨_, rfl, rfl, rfl, rfl, rfl,
    (never_calls_empty 1 5 _ ⟨scenarioEmpty, rfl⟩ 0
      { pc := .wait, f := none, is_pop := false, joinable := true } rfl).1⟩

/-! ## C17, C18: construction, lock ordering -/

theorem State.new_of_fit (max_size : Nat) (threads_num max_tasks_num : Int)
    (h0 : 0 ≤ threads_num) (h1 : threads_num ≤ INT_MAX) (hfit : threads_num.toNat ≤ max_size) :
    State.new max_size threads_num max_tasks_num =
      .ok (State.init threads_num.toNat max_tasks_num) := by
  have hs := toSizeT_int threads_num h0 h1
  have hnlt : ¬ max_size < toSizeT threads_num := by omega
  simp [State.new, hnlt, State.init, Int.toNat_of_nonneg h0]

/-- C17. Construction postcondition: for every `threads_num >= 1` and `max_tasks_num >= 1`
(the vector being able to hold `INT_MAX` entries, as in libstdc++) the constructor yields a
pool whose stop flag is false, whose queue is empty with capacity `max_tasks_num`, both
mutexes free and both wait sets empty, and with exactly `threads_num` workers, each at the
start of `thread_do` with a joinable handle; with `max_tasks_num` omitted the capacity is
20.  Exhaustion of memory or of threads is outside the model. -/
theorem construction_postcondition (max_size : Nat) (threads_num max_tasks_num : Int)
    (hmax : INT_MAX ≤ (max_size : Int)) (ht : 1 ≤ threads_num) (ht2 : threads_num ≤ INT_MAX)
    (hc : 1 ≤ max_tasks_num) (hc2 : max_tasks_num ≤ INT_MAX) :
    (∃ p, State.new max_size threads_num max_tasks_num = .ok p ∧
      p = State.init threads_num.toNat max_tasks_num ∧
      p._is_stop = false ∧ p._taskq._tasks = [] ∧
      p._taskq._max_tasks_num = max_tasks_num ∧
      (toSizeT p._taskq._max_tasks_num : Int) = max_tasks_num ∧
      p._taskq._mtx = none ∧ p._taskq._cv = [] ∧ p._mtx = none ∧ p._cv = [] ∧
      p._threads_num = threads_num ∧ (p._threads.length : Int) = threads_num ∧
      ∀ w ∈ p._threads, w.pc = .l73 ∧ w.joinable = true) ∧
    (∃ q, State.newDefault max_size threads_num = .ok q ∧
      q._taskq._max_tasks_num = 20 ∧ toSizeT q._taskq._max_tasks_num = 20 ∧
      q._taskq._tasks = [] ∧ q._is_stop = false ∧ (q._threads.length : Int) = threads_num) := by
  have h0 : 0 ≤ threads_num := by omega
  have hfit : threads_num.toNat ≤ max_size := by omega
  have hlen : ((State.init threads_num.toNat max_tasks_num)._threads.length : Int) =
      threads_num := by
    simp [State.init, Int.toNat_of_nonneg h0]
  have hlen2 : ((State.init threads_num.toNat MAX_TASKS_NUM)._threads.length : Int) =
      threads_num := by
    simp [State.init, Int.toNat_of_nonneg h0]
  constructor
  · refine ⟨_, State.new_of_fit max_size threads_num max_tasks_num h0 ht2 hfit, rfl, rfl, rfl,
      rfl, toSizeT_int max_tasks_num (by omega) hc2, rfl, rfl, rfl, rfl, ?_, hlen, ?_⟩
    · simp [State.init, Int.toNat_of_nonneg h0]
    · intro w hw
      simp only [State.init] at hw
      rw [List.eq_of_mem_replicate hw]
      exact ⟨rfl, rfl⟩
  · exact ⟨_, State.new_of_fit max_size threads_num MAX_TASKS_NUM h0 ht2 hfit, rfl, rfl, rfl,
      rfl, hlen2⟩

/-- The pool of the demonstration driver, `ThreadPool pool(2)`: two workers, capacity 20. -/
theorem construction_postcondition_witness :
    (∃ p, State.new VECTOR_MAX_SIZE 2 3 = .ok p ∧ p._taskq._max_tasks_num = 3 ∧
      p._threads.length = 2) ∧
    (∃ q, State.newDefault VECTOR_MAX_SIZE 2 = .ok q ∧ q._taskq._max_tasks_num = 20) :=
  have h := construction_postcondition VECTOR_MAX_SIZE 2 3 (by decide) (by decide) (by decide)
    (by decide) (by decide)
  ⟨match h.1 with
    | ⟨p, hp, he, _, _, hcap, _⟩ => ⟨p, hp, hcap, by rw [he]; rfl⟩,
   match h.2 with
    | ⟨q, hq, hcap, _⟩ => ⟨q, hq, hcap⟩⟩
theorem step_pool_acquire {s s1 : State} {a : Action} (h : Step s a s1)
    (hq : s.queueMutexInv) (t : Tid) (h0 : s._mtx ≠ some t) (h1 : s1._mtx = some t) :
    s._taskq._mtx ≠ some t ∧ s1._taskq._mtx = s._taskq._mtx := by
  obtain ⟨_, _, q3, q4⟩ := hq
  cases h with
  | worker i w sh w1 hw hws =>
    cases hws
    case l85 hpc hm =>
      simp only [State.setWorker] at h1 ⊢
      simp at h1
      subst h1
      refine ⟨fun hc => ?_, trivial⟩
      obtain ⟨w2, hw2, hh⟩ := q3 i hc
      rw [hw] at hw2
      simp at hw2
      subst hw2
      simp [hpc, WorkerPc.holdsQueue] at hh
    case wait hpc hcv hm =>
      simp only [State.setWorker] at h1 ⊢
      simp at h1
      subst h1
      refine ⟨fun hc => ?_, trivial⟩
      obtain ⟨w2, hw2, hh⟩ := q3 i hc
      rw [hw] at hw2
      simp at hw2
      subst hw2
      simp [hpc, WorkerPc.holdsQueue] at hh
    all_goals
      simp only [State.setWorker] at h1
      first
        | exact absurd h1 h0
        | simp at h1
  | caller c choice s1 hcs =>
    cases hcs
    case l109 f hpc hm =>
      simp only [State.setCaller] at h1 ⊢
      simp at h1
      subst h1
      refine ⟨fun hc => ?_, trivial⟩
      have hh := q4 c hc
      simp [hpc, CallerPc.holdsQueue] at hh
    case l117 hpc hm =>
      simp only [State.setCaller] at h1 ⊢
      simp at h1
      subst h1
      refine ⟨fun hc => ?_, trivial⟩
      have hh := q4 c hc
      simp [hpc, CallerPc.holdsQueue] at hh
    all_goals
      simp only [State.setCaller, State.setWorker] at h1
      first
        | exact absurd h1 h0
        | simp at h1
  | submit c f hpc => exact absurd h1 h0
  | stop c hpc => exact absurd h1 h0
  | wake_worker i hcv => exact absurd h1 h0
  | wake_caller c hcv => exact absurd h1 h0

theorem notify_one_enabled (cv : List Nat) : ∃ choice cv1, notify_one cv choice = some cv1 := by
  cases cv with
  | nil => exact ⟨0, [], by simp [notify_one]⟩
  | cons x l => exact ⟨x, l, by simp [notify_one]⟩

/-- C18. Lock ordering: in every reachable state a thread that holds both mutexes is a worker
inside the `pop` of the wait predicate (line 87), which took the pool mutex at line 85 before
the queue mutex; a step by which a thread takes the pool mutex is taken by a thread that does
not hold the queue mutex, so a state where a thread holds both is entered only by a thread
that held the pool mutex already; and the holder of the queue mutex, worker or caller, can
always take its next step, which releases the queue mutex: it never waits for the pool
mutex. -/
theorem lock_ordering (n : Nat) (cap : Int) (s : State) (hs : Reachable n cap s) :
    (∀ t : Tid, s._mtx = some t → s._taskq._mtx = some t →
      ∃ i w, t = .worker i ∧ s._threads[i]? = some w ∧ w.pc = .l87_pop) ∧
    (∀ (a : Action) (s1 : State) (t : Tid), step s a = some s1 →
      s._mtx ≠ some t → s1._mtx = some t →
        s._taskq._mtx ≠ some t ∧ s1._taskq._mtx ≠ some t) ∧
    (∀ (a : Action) (s1 : State) (t : Tid), step s a = some s1 →
      s1._mtx = some t → s1._taskq._mtx = some t → s._mtx = some t) ∧
    (∀ i : Nat, s._taskq._mtx = some (.worker i) →
      ∃ s1, step s (.worker i) = some s1 ∧ s1._taskq._mtx = none) ∧
    (∀ c : Nat, s._taskq._mtx = some (.caller c) →
      ∃ choice s1, step s (.caller c choice) = some s1 ∧ s1._taskq._mtx = none) := by
  have hp := reachable_poolMutexInv hs
  have hq := reachable_queueMutexInv hs
  have hacq : ∀ (a : Action) (s1 : State) (t : Tid), step s a = some s1 →
      s._mtx ≠ some t → s1._mtx = some t →
        s._taskq._mtx ≠ some t ∧ s1._taskq._mtx ≠ some t := by
    intro a s1 t hst h0 h1
    have h := step_pool_acquire (step_sound _ _ _ hst) hq t h0 h1
    exact ⟨h.1, by rw [h.2]; exact h.1⟩
  refine ⟨?_, hacq, ?_, ?_, ?_⟩
  · intro t hm hqm
    cases t with
    | worker i =>
      obtain ⟨w, hw, hh⟩ := hp.2.2.1 i hm
      obtain ⟨w2, hw2, hh2⟩ := hq.2.2.1 i hqm
      rw [hw] at hw2
      simp at hw2
      subst hw2
      refine ⟨i, w, rfl, hw, ?_⟩
      cases hpc : w.pc <;> simp [hpc, WorkerPc.holdsPool, WorkerPc.holdsQueue] at hh hh2 ⊢
    | caller c =>
      have hh := hp.2.2.2 c hm
      have hh2 := hq.2.2.2 c hqm
      cases hpc : s.callers c <;> simp [hpc, CallerPc.holdsPool, CallerPc.holdsQueue] at hh hh2
  · intro a s1 t hst h1 h2
    by_contra h0
    exact (hacq a s1 t hst h0 h1).2 h2
  · intro i hqm
    obtain ⟨w, hw, hh⟩ := hq.2.2.1 i hqm
    cases hpc : w.pc <;> simp [hpc, WorkerPc.holdsQueue] at hh
    all_goals
      simp [step, hw, workerStep, hpc, State.setWorker]
  · intro c hqm
    have hh := hq.2.2.2 c hqm
    cases hpc : s.callers c <;> simp [hpc, CallerPc.holdsQueue] at hh
    rename_i f
    cases hpush : s._taskq.push f with
    | none =>
      exact ⟨0, _, by simp [step, callerStep, hpc, hpush]; rfl, by simp [State.setCaller]⟩
    | some q1 =>
      obtain ⟨choice, cv1, hn⟩ := notify_one_enabled q1._cv
      exact ⟨choice, _, by simp [step, callerStep, hpc, hpush, hn]; rfl,
        by simp [State.setCaller]⟩

/-- A worker inside the `pop` of the wait predicate holds both mutexes. -/
theorem lock_ordering_witness :
    ∃ s, run (State.init 1 5) (List.replicate 6 (.worker 0)) = some s ∧
      s._mtx = some (.worker 0) ∧ s._taskq._mtx = some (.worker 0) ∧
      ∃ i w, Tid.worker 0 = .worker i ∧ s._threads[i]? = some w ∧ w.pc = .l87_pop :=
  ⟨_, rfl, rfl, rfl,
    (lock_ordering 1 5 _ ⟨List.replicate 6 (.worker 0), rfl⟩).1 (.worker 0) rfl rfl⟩

/-! ## The wait set of the pool condition variable -/

theorem WStep.cv_eq {s sh : State} {i : Nat} {w w1 : Worker} (h : WStep s i w sh w1) :
    sh._threads = s._threads ∧
    ((sh._cv = s._cv ∧ (w.pc = .wait → i ∉ s._cv)) ∨
      (sh._cv = s._cv ++ [i] ∧ w.pc = .l88 ∧ w1.pc = .wait)) := by
  cases h <;> simp_all

theorem step_cvInv {s s1 : State} {a : Action} (h : Step s a s1) (hi : s.cvInv) :
    s1.cvInv := by
  obtain ⟨hnd, hmem⟩ := hi
  cases h with
  | worker i w sh w1 hw hws =>
    obtain ⟨hth, hcv⟩ := hws.cv_eq
    have hni : w.pc ≠ .wait → i ∉ s._cv := by
      intro hne hin
      obtain ⟨w2, hw2, hpc⟩ := hmem i hin
      rw [hw] at hw2
      simp at hw2
      subst hw2
      exact hne hpc
    have hlt := getElem?_lt hw
    rcases hcv with ⟨hcv, hwait⟩ | ⟨hcv, hpc, hpc1⟩
    · have hnot : i ∉ s._cv := by
        by_cases hp : w.pc = .wait
        · exact hwait hp
        · exact hni hp
      refine ⟨by simpa [State.setWorker, hcv] using hnd, fun j hj => ?_⟩
      simp only [State.setWorker, hcv] at hj ⊢
      obtain ⟨wj, hwj, hpj⟩ := hmem j hj
      have hne : ¬ i = j := fun e => hnot (e ▸ hj)
      exact ⟨wj, by simp [hth, List.getElem?_set, hne, hwj], hpj⟩
    · have hnot : i ∉ s._cv := hni (by simp [hpc])
      refine ⟨?_, fun j hj => ?_⟩
      · simp only [State.setWorker, hcv]
        exact List.Nodup.append hnd (by simp) (by simpa using hnot)
      · simp only [State.setWorker, hcv, List.mem_append, List.mem_singleton] at hj ⊢
        rcases hj with hj | hj
        · obtain ⟨wj, hwj, hpj⟩ := hmem j hj
          have hne : ¬ i = j := fun e => hnot (e ▸ hj)
          exact ⟨wj, by simp [hth, List.getElem?_set, hne, hwj], hpj⟩
        · subst hj
          exact ⟨w1, by simp [hth, List.getElem?_set, hlt], hpc1⟩
  | caller c choice s1 hcs =>
    cases hcs
    case l110 f cv1 hpc hn =>
      have hsub : cv1.Nodup ∧ ∀ j ∈ cv1, j ∈ s._cv := by
        unfold notify_one at hn
        split at hn
        · simp at hn
          subst hn
          simp
        · split at hn
          · simp at hn
            subst hn
            exact ⟨hnd.erase _, fun j hj => List.mem_of_mem_erase hj⟩
          · simp at hn
      exact ⟨hsub.1, fun j hj => hmem j (hsub.2 j hj)⟩
    case l118 hpc => exact ⟨List.nodup_nil, fun j hj => by simp [State.setCaller] at hj⟩
    case l123 i w hpc hw ht =>
      refine ⟨hnd, fun j hj => ?_⟩
      obtain ⟨wj, hwj, hpj⟩ := hmem j hj
      simp only [State.setCaller, State.setWorker]
      by_cases hji : i = j
      · subst hji
        rw [hw] at hwj
        simp at hwj
        subst hwj
        exact ⟨{ w with joinable := false }, by simp [List.getElem?_set, getElem?_lt hw], hpj⟩
      · exact ⟨wj, by simp [List.getElem?_set, hji, hwj], hpj⟩
    all_goals exact ⟨hnd, hmem⟩
  | submit c f hpc => exact ⟨hnd, hmem⟩
  | stop c hpc => exact ⟨hnd, hmem⟩
  | wake_worker i hcv =>
    exact ⟨hnd.erase _, fun j hj => hmem j (List.mem_of_mem_erase hj)⟩
  | wake_caller c hcv => exact ⟨hnd, hmem⟩

theorem reachable_cvInv {n : Nat} {cap : Int} {s : State} (hr : Reachable n cap s) :
    s.cvInv :=
  reachable_invariant State.cvInv ⟨List.nodup_nil, fun i hi => by simp [State.init] at hi⟩
    (fun _ _ _ hi h => step_cvInv h hi) s hr

/-! ## C13: a second call of `stop` -/

theorem setCaller_setCaller (s : State) (c : Nat) (p q : CallerPc) :
    (s.setCaller c p).setCaller c q = s.setCaller c q := by
  simp only [State.setCaller]
  congr 1
  funext j
  by_cases h : j = c <;> simp [h]

theorem join_loop_skips (t0 : State) (c : Nat) (hN : t0._threads_num = t0._threads.length)
    (hj : ∀ (i : Nat) (w : Worker), t0._threads[i]? = some w → w.joinable = false) :
    ∀ k j : Nat, j + k = t0._threads.length →
      run (t0.setCaller c (.l121 j)) (List.replicate (2 * k + 1) (.caller c 0)) =
        some ({ t0 with stop_returns := t0.stop_returns + 1 }.setCaller c .idle) := by
  intro k
  induction k with
  | zero =>
    intro j hjk
    have hlt : ¬ (j : Int) < t0._threads_num := by
      rw [hN]
      omega
    have h1 : (t0.setCaller c (.l121 j))._threads_num = t0._threads_num := rfl
    simp only [Nat.mul_zero, Nat.zero_add, List.replicate_one, run, step, callerStep,
      setCaller_callers, if_true, h1, hlt, if_false]
    congr 1
    simp only [State.setCaller]
    congr 1
    funext i
    by_cases h : i = c <;> simp [h]
  | succ k ih =>
    intro j hjk
    have hlt : (j : Int) < t0._threads_num := by
      rw [hN]
      omega
    have hjl : j < t0._threads.length := by omega
    have hwj : t0._threads[j]? = some (t0._threads.get ⟨j, hjl⟩) := by
      simp [List.getElem?_eq_getElem hjl]
    have hjn := hj j _ hwj
    have h1 : (t0.setCaller c (.l121 j))._threads_num = t0._threads_num := rfl
    have h2 : (t0.setCaller c (.l122 j))._threads = t0._threads := rfl
    have hrep : List.replicate (2 * (k + 1) + 1) (Action.caller c 0) =
        .caller c 0 :: .caller c 0 :: List.replicate (2 * k + 1) (.caller c 0) := by
      have : 2 * (k + 1) + 1 = (2 * k + 1) + 1 + 1 := by omega
      rw [this, List.replicate_succ, List.replicate_succ]
    rw [hrep]
    simp only [run, step, callerStep, setCaller_callers, if_true, h1, hlt, setCaller_setCaller,
      h2, hwj, hjn]
    simpa using ih (j + 1) (by omega)

theorem stop_head (s : State) (c : Nat) (hidle : s.callers c = .idle) (hm : s._mtx = none) :
    run s (stopCall c) =
      some ({ s with
          before_stop := match s.before_stop with
            | some l => some l
            | none => some s.returned
          _is_stop := true
          _cv := []
          broadcasts := s.broadcasts + 1 }.setCaller c (.l121 0)) := by
  simp only [stopCall, run, step, callerStep, hidle, setCaller_callers, if_true]
  simp only [State.setCaller, hm, if_true]
  congr 1
  simp only [State.mk.injEq, true_and, and_true]
  funext j
  by_cases h : j = c <;> simp [h]

theorem stop_again_runs (s : State) (c : Nat) (hidle : s.callers c = .idle)
    (hm : s._mtx = none) (hN : s._threads_num = s._threads.length)
    (hj : ∀ (i : Nat) (w : Worker), s._threads[i]? = some w → w.joinable = false) :
    run s (stopAgain c s._threads.length) =
      some ({ s with
          before_stop := match s.before_stop with
            | some l => some l
            | none => some s.returned
          _is_stop := true
          _cv := []
          broadcasts := s.broadcasts + 1
          stop_returns := s.stop_returns + 1 }.setCaller c .idle) :=
  run_append _ _ _ _ _ (stop_head s c hidle hm)
    (join_loop_skips { s with
        before_stop := match s.before_stop with
          | some l => some l
          | none => some s.returned
        _is_stop := true
        _cv := []
        broadcasts := s.broadcasts + 1 } c hN hj s._threads.length 0 (by simp))

/-- C13. Idempotent stop: in a reachable state in which a call of `stop` has returned, the
`joinable` test of line 122 fails for every worker, so `join` is never called again; and a
second call of `stop`, made by an idle thread while no thread is inside a critical section
of the pool mutex, runs to its return by steps of the caller alone (it never waits), leaving
the stop flag (true), the queue, both mutexes, the wait set and every worker as they were;
it only counts one more return of `stop`. -/
theorem stop_idempotent (n : Nat) (cap : Int) (s : State) (hs : Reachable n cap s)
    (hret : 0 < s.stop_returns) :
    (∀ (c i choice : Nat) (s2 : State), s.callers c = .l122 i →
      step s (.caller c choice) = some s2 → s2.callers c = .l121 (i + 1)) ∧
    (∀ c : Nat, s.callers c = .idle → (∀ c2 : Nat, (s.callers c2).holdsPool = false) →
      ∃ s1, run s (stopAgain c n) = some s1 ∧
        s1.callers c = .idle ∧ s1.stop_returns = s.stop_returns + 1 ∧
        s1._is_stop = true ∧ s1._is_stop = s._is_stop ∧
        s1._taskq = s._taskq ∧ s1._threads = s._threads ∧
        s1._mtx = s._mtx ∧ s1._cv = s._cv ∧ s1.callers = s.callers ∧
        s1.pushed = s.pushed ∧ s1.popped = s.popped ∧ s1.executed = s.executed ∧
        s1.returned = s.returned ∧
        ∀ (i : Nat) (w : Worker), s1._threads[i]? = some w →
          w.pc = .terminated ∧ w.joinable = false) := by
  have hjoin := (reachable_joinInv hs).2 hret
  have hterm := reachable_joined_terminated hs
  have hflag := (reachable_flagInv hs).2.2 hret
  have hnum := reachable_threads_num hs
  have hp := reachable_poolMutexInv hs
  have hcv := reachable_cvInv hs
  constructor
  · intro c i choice s2 hpc hst
    simp only [step, callerStep, hpc] at hst
    cases hw : s._threads[i]? with
    | none => simp [hw] at hst
    | some w =>
      simp only [hw, hjoin i w hw] at hst
      simp at hst
      subst hst
      simp [setCaller_callers]
  · intro c hidle hquiet
    have hm : s._mtx = none := by
      cases hmx : s._mtx with
      | none => rfl
      | some t =>
        cases t with
        | worker i =>
          obtain ⟨w, hw, hh⟩ := hp.2.2.1 i hmx
          have := hterm i w hw (hjoin i w hw)
          simp [this, WorkerPc.holdsPool] at hh
        | caller c2 =>
          have hh := hp.2.2.2 c2 hmx
          rw [hquiet c2] at hh
          simp at hh
    have hcv0 : s._cv = [] := by
      cases hc : s._cv with
      | nil => rfl
      | cons i l =>
        obtain ⟨w, hw, hpc⟩ := hcv.2 i (by simp [hc])
        have := hterm i w hw (hjoin i w hw)
        simp [this] at hpc
    have hrun := stop_again_runs s c hidle hm hnum.1 hjoin
    rw [hnum.2] at hrun
    refine ⟨_, hrun, by simp [setCaller_callers], rfl, rfl, hflag.symm, rfl, rfl, rfl,
      hcv0.symm, ?_, rfl, rfl, rfl, rfl, ?_⟩
    · funext j
      by_cases h : j = c
      · simp [setCaller_callers, h, hidle]
      · simp [setCaller_callers, h]
    · intro i w hw
      exact ⟨hterm i w hw (hjoin i w hw), hjoin i w hw⟩

set_option maxRecDepth 100000 in
/-- Scenario C, then `stop` a second time: the second call returns, and the pool is as the
first call left it. -/
theorem stop_idempotent_witness :
    ∃ s s1, run (State.init 1 5) scenarioC = some s ∧ 0 < s.stop_returns ∧
      run s (stopAgain 0 1) = some s1 ∧ s1.stop_returns = s.stop_returns + 1 ∧
      s1._is_stop = s._is_stop ∧ s1._taskq = s._taskq ∧ s1._threads = s._threads := by
  have h0 : (run (State.init 1 5) scenarioC).isSome = true := rfl
  obtain ⟨s, hs⟩ := Option.isSome_iff_exists.mp h0
  have hret : s.stop_returns = 1 := by
    have h : (run (State.init 1 5) scenarioC).map (fun s => s.stop_returns) = some 1 := rfl
    rw [hs] at h
    simpa using h
  have hcall : ∀ c2 : Nat, s.callers c2 = .idle := by
    have h : (run (State.init 1 5) scenarioC).map (fun s => s.callers) =
        some (fun _ => .idle) := by
      simp only [scenarioC, scenarioC_stop, scenarioC_rest, park, stopCall, joinWorker]
      simp [run, step, workerStep, callerStep, State.init, State.setWorker, State.setCaller,
        TaskQueue.new, TaskQueue.pop, TaskQueue.front]
      funext j
      by_cases h : j = 0 <;> simp [h]
    rw [hs] at h
    intro c2
    simp at h
    rw [h]
  obtain ⟨s1, h1, _, h3, _, h5, h6, h7, _⟩ :=
    (stop_idempotent 1 5 s ⟨scenarioC, hs⟩ (by omega)).2 0 (hcall 0)
      (fun c2 => by rw [hcall c2]; rfl)
  exact ⟨s, s1, hs, by omega, h1, h3, h5, h6, h7⟩

/-! ## C11: tasks started after the stop flag is set -/

set_option maxRecDepth 100000 in
/-- C11, counterexample. In a pool with one worker, `T1` and `T2` are submitted and the
worker calls `T1`; `stop` sets the flag while the worker is in its draining loop with `T2`
still queued; the worker then dequeues `T2` and calls it: a task is started after the flag
has become true. -/
theorem draining_worker_starts_task :
    ∃ s s1, run (State.init 1 5) scenarioDrain_stop = some s ∧ s._is_stop = true ∧
      s._taskq._tasks = [some 2] ∧ s.executed = [(0, 1)] ∧
      s._threads.map (fun w => w.pc) = [.l79] ∧
      run s scenarioDrain_rest = some s1 ∧ s1._is_stop = true ∧
      s1.executed = [(0, 1), (0, 2)] :=
  ⟨_, _, rfl, rfl, rfl, rfl, rfl, rfl, rfl, rfl⟩

theorem step_waitPath {s s1 : State} {a : Action} (h : Step s a s1) (i : Nat)
    (hstop : s._is_stop = true)
    (hi : ∃ w, s._threads[i]? = some w ∧ w.pc.onWaitPath = true) :
    (∃ w1, s1._threads[i]? = some w1 ∧ w1.pc.onWaitPath = true) ∧
      s1.startedBy i = s.startedBy i := by
  obtain ⟨w, hw, hp⟩ := hi
  cases h with
  | worker j wj sh w1 hwj hws =>
    have hth := hws.threads_eq
    have hlt := getElem?_lt hwj
    by_cases hji : j = i
    · subst hji
      rw [hw] at hwj
      simp at hwj
      subst hwj
      refine ⟨⟨w1, by simp [State.setWorker, hth, List.getElem?_set, hlt], ?_⟩, ?_⟩
      · cases hws <;> simp_all [WorkerPc.onWaitPath]
      · cases hws <;> simp_all [WorkerPc.onWaitPath, State.startedBy, State.setWorker]
    · refine ⟨⟨w, by simp [State.setWorker, hth, List.getElem?_set, hji, hw], hp⟩, ?_⟩
      cases hws <;> simp [State.startedBy, State.setWorker, List.filter_append, hji]
  | caller c choice s1 hcs =>
    cases hcs
    case l123 j wj hpc hwj ht =>
      refine ⟨?_, rfl⟩
      simp only [State.setCaller, State.setWorker]
      by_cases hji : j = i
      · subst hji
        rw [hw] at hwj
        simp at hwj
        subst hwj
        exact ⟨{ w with joinable := false }, by simp [List.getElem?_set, getElem?_lt hw], hp⟩
      · exact ⟨w, by simp [List.getElem?_set, hji, hw], hp⟩
    all_goals exact ⟨⟨w, hw, hp⟩, rfl⟩
  | submit c f hpc => exact ⟨⟨w, hw, hp⟩, rfl⟩
  | stop c hpc => exact ⟨⟨w, hw, hp⟩, rfl⟩
  | wake_worker j hcv => exact ⟨⟨w, hw, hp⟩, rfl⟩
  | wake_caller c hcv => exact ⟨⟨w, hw, hp⟩, rfl⟩

/-- C11, amended. Once the stop flag is true, a worker that has left its draining loop (it is
between the lock of line 85 and the check of line 89, or has returned) starts no further
task: along every schedule from such a state the worker stays on that path and the tasks it
has called stay the same. -/
theorem parked_worker_starts_no_task (n : Nat) (cap : Int) (s : State)
    (hs : Reachable n cap s) (hstop : s._is_stop = true) (i : Nat) (w : Worker)
    (hw : s._threads[i]? = some w) (hpath : w.pc.onWaitPath = true)
    (l : List Action) (s1 : State) (hrun : run s l = some s1) :
    Reachable n cap s1 ∧ s1._is_stop = true ∧
    (∃ w1, s1._threads[i]? = some w1 ∧ w1.pc.onWaitPath = true) ∧
    s1.startedBy i = s.startedBy i ∧
    ∀ k : Nat, (s1.executed.drop s.executed.length).count (i, k) = 0 := by
  have hmain : ∀ (l : List Action) (s s1 : State), s._is_stop = true →
      (∃ w, s._threads[i]? = some w ∧ w.pc.onWaitPath = true) → run s l = some s1 →
      s1._is_stop = true ∧ (∃ w1, s1._threads[i]? = some w1 ∧ w1.pc.onWaitPath = true) ∧
        s1.startedBy i = s.startedBy i ∧ ∃ t, s1.executed = s.executed ++ t := by
    intro l
    induction l with
    | nil =>
      intro s s1 h1 h2 hrun
      simp [run] at hrun
      subst hrun
      exact ⟨h1, h2, rfl, [], by simp⟩
    | cons a l ih =>
      intro s s1 h1 h2 hrun
      simp only [run] at hrun
      cases hst : step s a with
      | none => simp [hst] at hrun
      | some s2 =>
        simp only [hst] at hrun
        have hS := step_sound s a s2 hst
        obtain ⟨h3, h4⟩ := step_waitPath hS i h1 h2
        obtain ⟨h5, h6, h7, t, h8⟩ := ih s2 s1 (step_stop_mono hS h1) h3 hrun
        refine ⟨h5, h6, by rw [h7, h4], ?_⟩
        have hext : ∃ t0, s2.executed = s.executed ++ t0 := by
          cases hS with
          | worker j wj sh w1 hwj hws =>
            cases hws
            case l78_call k hpc hf => exact ⟨[(j, k)], rfl⟩
            all_goals exact ⟨[], by simp [State.setWorker]⟩
          | caller c choice s1 hcs =>
            cases hcs <;> exact ⟨[], by simp [State.setWorker, State.setCaller]⟩
          | _ => exact ⟨[], by simp [State.setCaller]⟩
        obtain ⟨t0, h9⟩ := hext
        exact ⟨t0 ++ t, by rw [h8, h9, List.append_assoc]⟩
  obtain ⟨h1, h2, h3, t, h4⟩ := hmain l s s1 hstop ⟨w, hw, hpath⟩ hrun
  obtain ⟨l0, hl0⟩ := hs
  refine ⟨⟨l0 ++ l, run_append l0 l _ s s1 hl0 hrun⟩, h1, h2, h3, fun k => ?_⟩
  have h5 : s1.startedBy i = s.startedBy i := h3
  simp only [State.startedBy, h4, List.filter_append, List.map_append] at h5
  have h6 : (t.filter (fun e => e.1 = i)).map Prod.snd = [] := by
    have := congrArg List.length h5
    simp at this
    exact List.eq_nil_of_length_eq_zero (by simpa using this)
  rw [h4, List.drop_left]
  rw [List.count_eq_zero]
  intro hmem
  have : (i, k) ∈ t.filter (fun e => e.1 = i) := by simp [List.mem_filter, hmem]
  have h7 : t.filter (fun e => e.1 = i) = [] := by simpa using h6
  rw [h7] at this
  simp at this

set_option maxRecDepth 100000 in
/-- A parked worker that is notified of `T1` and finds the stop flag set returns without
calling `T1`. -/
theorem parked_worker_starts_no_task_witness :
    ∃ s s1, run (State.init 1 5) scenarioParked_stop = some s ∧ s._is_stop = true ∧
      s._taskq._tasks = [some 1] ∧ run s scenarioParked_rest = some s1 ∧
      s1.startedBy 0 = s.startedBy 0 ∧ s1.startedBy 0 = [] ∧
      s1._threads.map (fun w => w.pc) = [.terminated] :=
  ⟨_, _, rfl, rfl, rfl, rfl,
    (parked_worker_starts_no_task 1 5 _ ⟨scenarioParked_stop, rfl⟩ rfl 0
      { pc := .wait, f := none, is_pop := false, joinable := true } rfl rfl
      scenarioParked_rest _ rfl).2.2.2.1, rfl, rfl⟩

/-! ## C12: order of the calls -/

set_option maxRecDepth 100000 in
/-- C12, counterexample. In a pool with two workers, one producer submits `T1` then `T2`;
worker 0 dequeues `T1`, worker 1 dequeues `T2` and calls it before worker 0 calls `T1`: the
tasks are dequeued in the order of submission and start in the opposite order. -/
theorem two_workers_start_out_of_order :
    ∃ s, run (State.init 2 5) scenarioRace = some s ∧
      submitted scenarioRace = [some 1, some 2] ∧
      (∀ a ∈ scenarioRace, a.submitter = none ∨ a.submitter = some 0) ∧
      s.pushed = [some 1, some 2] ∧ s.popped = [some 1, some 2] ∧
      s.executed = [(1, 2), (0, 1)] ∧ s.executed.map Prod.snd = [2, 1] :=
  ⟨_, rfl, rfl, by decide, rfl, rfl, rfl, rfl⟩

theorem TaskQueue.front_filterMap (q : TaskQueue) :
    q.front.filterMap id = q.pop.1.toList := by
  unfold TaskQueue.front TaskQueue.pop
  cases h : q._tasks with
  | nil => simp
  | cons f rest => cases f <;> simp

/-- With one worker, the tasks called followed by the task the worker has taken and not
called yet are the non-empty entries dequeued, in order. -/
theorem step_single_order {s s1 : State} {a : Action} (h : Step s a s1)
    (hok : ∀ (i : Nat) (w : Worker), s._threads[i]? = some w → w.ok)
    (hi : ∀ w, s._threads = [w] → s.executed.map Prod.snd ++ w.held = s.popped.filterMap id) :
    ∀ w1, s1._threads = [w1] →
      s1.executed.map Prod.snd ++ w1.held = s1.popped.filterMap id := by
  have hff := TaskQueue.front_filterMap s._taskq
  cases h with
  | worker i w sh w2 hw hws =>
    intro w1 h1
    have hth := hws.threads_eq
    have hlen : s._threads.length = 1 := by
      have := congrArg List.length h1
      simpa [State.setWorker, hth] using this
    obtain ⟨w0, hw0⟩ := List.length_eq_one.mp hlen
    have hi0 : i = 0 := by
      have := getElem?_lt hw
      omega
    subst hi0
    have hww : w0 = w := by
      rw [hw0] at hw
      simpa using hw
    subst hww
    have hw21 : w2 = w1 := by
      simp only [State.setWorker, hth, hw0] at h1
      simpa using h1
    subst hw21
    have hinv := hi w0 hw0
    have hokw := hok 0 w0 hw
    unfold Worker.ok at hokw
    cases hws <;>
      simp_all [Worker.held, State.setWorker, List.filterMap_append]
  | caller c choice s1 hcs =>
    cases hcs
    case l123 j wj hpc hwj ht =>
      intro w1 h1
      simp only [State.setCaller, State.setWorker] at h1 ⊢
      have hlen : s._threads.length = 1 := by
        have := congrArg List.length h1
        simpa using this
      obtain ⟨w0, hw0⟩ := List.length_eq_one.mp hlen
      have hj0 : j = 0 := by
        have := getElem?_lt hwj
        omega
      subst hj0
      have hww : w0 = wj := by
        rw [hw0] at hwj
        simpa using hwj
      subst hww
      have hinv := hi w0 hw0
      rw [hw0] at h1
      simp at h1
      subst h1
      simpa [Worker.held] using hinv
    all_goals exact hi
  | submit c f hpc => exact hi
  | stop c hpc => exact hi
  | wake_worker j hcv => exact hi
  | wake_caller c hcv => exact hi

theorem step_single_producer {s s1 : State} {a : Action} (h : Step s a s1) (c : Nat)
    (ha : a.submitter = none ∨ a.submitter = some c)
    (hi : ∀ c2 : Nat, c2 ≠ c → (s.callers c2).inflight = []) :
    (∀ c2 : Nat, c2 ≠ c → (s1.callers c2).inflight = []) ∧
      s1.pushed ++ (s1.callers c).inflight =
        s.pushed ++ (s.callers c).inflight ++ submitted [a] := by
  cases h with
  | worker i w sh w1 hw hws =>
    obtain ⟨_, h2, _, _, _, h6, _⟩ := hws.frame
    refine ⟨fun c2 hc2 => ?_, ?_⟩
    · show (sh.callers c2).inflight = []
      rw [h2]
      exact hi c2 hc2
    · show sh.pushed ++ (sh.callers c).inflight = _
      rw [h2, h6]
      simp [submitted]
  | caller c1 choice s1 hcs =>
    by_cases hc : c1 = c
    · subst hc
      cases hcs
      all_goals
        refine ⟨fun c2 hc2 => ?_, ?_⟩
        · simp only [setCaller_callers, if_neg hc2]
          exact hi c2 hc2
        · simp_all [setCaller_callers, CallerPc.inflight, submitted, State.setCaller,
            State.setWorker]
    · have hc1 := hi c1 hc
      have hne : ¬ c = c1 := fun e => hc e.symm
      cases hcs
      all_goals
        refine ⟨fun c2 hc2 => ?_, ?_⟩
        · by_cases h12 : c2 = c1
          · subst h12
            simp_all [setCaller_callers, CallerPc.inflight]
          · simp only [setCaller_callers, if_neg h12]
            exact hi c2 hc2
        · simp_all [setCaller_callers, CallerPc.inflight, submitted, State.setCaller,
            State.setWorker]
  | submit c1 f hpc =>
    have hc : c1 = c := by
      rcases ha with h | h <;> simp [Action.submitter] at h
      exact h
    subst hc
    refine ⟨fun c2 hc2 => ?_, ?_⟩
    · simp only [setCaller_callers, if_neg hc2]
      exact hi c2 hc2
    · simp [setCaller_callers, CallerPc.inflight, submitted, State.setCaller, hpc]
  | stop c1 hpc =>
    refine ⟨fun c2 hc2 => ?_, ?_⟩
    · by_cases h12 : c2 = c1
      · subst h12
        simp [setCaller_callers, CallerPc.inflight]
      · simp only [setCaller_callers, if_neg h12]
        exact hi c2 hc2
    · by_cases hc : c = c1
      · subst hc
        simp [setCaller_callers, CallerPc.inflight, submitted, State.setCaller, hpc]
      · simp [setCaller_callers, CallerPc.inflight, submitted, State.setCaller, hc]
  | wake_worker j hcv => exact ⟨hi, by simp [submitted]⟩
  | wake_caller c1 hcv => exact ⟨hi, by simp [submitted]⟩

theorem submitted_cons (a : Action) (l : List Action) :
    submitted (a :: l) = submitted [a] ++ submitted l := by
  cases a <;> simp [submitted]

theorem run_single_producer (c : Nat) (l : List Action) :
    ∀ (s s1 : State), (∀ a ∈ l, a.submitter = none ∨ a.submitter = some c) →
      (∀ c2 : Nat, c2 ≠ c → (s.callers c2).inflight = []) → run s l = some s1 →
      s1.pushed ++ (s1.callers c).inflight =
        s.pushed ++ (s.callers c).inflight ++ submitted l := by
  induction l with
  | nil =>
    intro s s1 _ _ hrun
    simp [run] at hrun
    subst hrun
    simp [submitted]
  | cons a l ih =>
    intro s s1 hl hi hrun
    simp only [run] at hrun
    cases hst : step s a with
    | none => simp [hst] at hrun
    | some s2 =>
      simp only [hst] at hrun
      obtain ⟨h1, h2⟩ := step_single_producer (step_sound s a s2 hst) c
        (hl a (List.mem_cons_self a l)) hi
      have h3 := ih s2 s1 (fun b hb => hl b (List.mem_cons_of_mem a hb)) h1 hrun
      rw [h3, h2, submitted_cons a l, List.append_assoc]

/-- C12, amended. In a pool with exactly one worker, for the tasks submitted by a single
producer thread, in every schedule the order in which tasks begin execution is the order in
which they were submitted: the tasks called so far are an initial part of the non-empty
functions submitted, in the order of the `submit` calls, and the rest are the task the
worker has taken and not called yet, the tasks in the queue and the task of a `submit` in
progress. -/
theorem fifo_start_single_worker (cap : Int) (c : Nat) (l : List Action) (s : State)
    (hrun : run (State.init 1 cap) l = some s)
    (hsingle : ∀ a ∈ l, a.submitter = none ∨ a.submitter = some c) :
    s.executed.map Prod.snd <+: (submitted l).filterMap id ∧
    s.pushed <+: submitted l ∧
    ∃ w, s._threads = [w] ∧
      s.executed.map Prod.snd ++ w.held ++ s._taskq._tasks.filterMap id ++
        (s.callers c).inflight.filterMap id = (submitted l).filterMap id := by
  have hr : Reachable 1 cap s := ⟨l, hrun⟩
  have hlen := (reachable_threads_num hr).2
  obtain ⟨w, hw⟩ := List.length_eq_one.mp hlen
  have hord : ∀ w, s._threads = [w] →
      s.executed.map Prod.snd ++ w.held = s.popped.filterMap id := by
    have h := @reachable_invariant 1 cap
      (fun s => (∀ (i : Nat) (w : Worker), s._threads[i]? = some w → w.ok) ∧
        ∀ w, s._threads = [w] → s.executed.map Prod.snd ++ w.held = s.popped.filterMap id)
      ?_ ?_ s hr
    · exact h.2
    · refine ⟨reachable_worker_ok (reachable_init 1 cap), ?_⟩
      intro w hw
      simp [State.init] at hw
      subst hw
      simp [State.init, Worker.held]
    · intro s a s1 hi hS
      exact ⟨step_worker_ok hS hi.1, step_single_order hS hi.1 hi.2⟩
  have hfifo := reachable_fifo hr
  have hprod := run_single_producer c l (State.init 1 cap) s hsingle
    (fun c2 _ => by simp [State.init, CallerPc.inflight]) hrun
  have hprod2 : s.pushed ++ (s.callers c).inflight = submitted l := by
    simpa [State.init, CallerPc.inflight] using hprod
  have hall : s.executed.map Prod.snd ++ w.held ++ s._taskq._tasks.filterMap id ++
      (s.callers c).inflight.filterMap id = (submitted l).filterMap id := by
    rw [← hprod2, hfifo, List.filterMap_append, List.filterMap_append, ← hord w hw]
  refine ⟨⟨w.held ++ s._taskq._tasks.filterMap id ++ (s.callers c).inflight.filterMap id,
    by rw [← hall]; simp [List.append_assoc]⟩, ⟨(s.callers c).inflight, hprod2⟩, w, hw, hall⟩

set_option maxRecDepth 100000 in
/-- One worker, `T1` then `T2` submitted by one producer: the worker calls `T1`, then
`T2`. -/
theorem fifo_start_single_worker_witness :
    ∃ s, run (State.init 1 5) (scenarioDrain_stop ++ scenarioDrain_rest) = some s ∧
      submitted (scenarioDrain_stop ++ scenarioDrain_rest) = [some 1, some 2] ∧
      s.executed.map Prod.snd = [1, 2] ∧
      s.executed.map Prod.snd <+:
        (submitted (scenarioDrain_stop ++ scenarioDrain_rest)).filterMap id :=
  ⟨_, rfl, rfl, rfl,
    (fifo_start_single_worker 5 0 (scenarioDrain_stop ++ scenarioDrain_rest) _ rfl
      (by decide)).1⟩

/-! ## C14: no missed wakeup -/

set_option maxRecDepth 100000 in
/-- C14, counterexample. In a pool with one worker, an empty function and then `T2` are
submitted to the parked worker; the worker, notified once, dequeues the empty function
inside the predicate of its wait and blocks again: the stop flag is false, no call is in
progress, `T2` is in the queue, and the only worker waits on the pool's condition variable
with no wakeup pending, so that no worker can take a step. -/
theorem empty_function_misses_wakeup :
    ∃ s, run (State.init 1 5) scenarioMissed = some s ∧ s._is_stop = false ∧
      s._taskq._tasks = [some 2] ∧ s.executed = [] ∧
      s._threads = [{ pc := .wait, f := none, is_pop := false, joinable := true }] ∧
      s._cv = [0] ∧ s._mtx = none ∧ s._taskq._mtx = none ∧
      s.pushed = [none, some 2] ∧ s.returned = [none, some 2] ∧
      step s (.worker 0) = none ∧ step s (.caller 0 0) = none :=
  ⟨_, rfl, rfl, rfl, rfl, rfl, rfl, rfl, rfl, rfl, rfl, rfl, rfl⟩

theorem workerAwake_of_cv {s s1 : State} {i : Nat} {w : Worker}
    (h : workerAwake s i w = true) (hcv : i ∉ s._cv → i ∉ s1._cv) :
    workerAwake s1 i w = true := by
  unfold workerAwake at h ⊢
  cases hpc : w.pc <;> simp_all

/-- The invariant carries over to a state that has the same flag and queue or less, keeps
the `submit` calls about to notify, and keeps some worker awake. -/
theorem wakeupInv_transfer {s s1 : State} (hI : s.wakeupInv)
    (hflag : s1._is_stop = false → s._is_stop = false)
    (hq : s1._taskq._tasks ≠ [] → s._taskq._tasks ≠ [])
    (hc : ∀ c f, (s.callers c = .l109 f ∨ s.callers c = .l110 f) →
      s1._is_stop = false → s1._taskq._tasks ≠ [] →
      (∃ c1 f1, s1.callers c1 = .l109 f1 ∨ s1.callers c1 = .l110 f1) ∨
      (∃ i w, s1._threads[i]? = some w ∧ workerAwake s1 i w = true))
    (hw : ∀ i w, s._threads[i]? = some w → workerAwake s i w = true →
      s1._is_stop = false → s1._taskq._tasks ≠ [] →
      (∃ c1 f1, s1.callers c1 = .l109 f1 ∨ s1.callers c1 = .l110 f1) ∨
      (∃ i1 w1, s1._threads[i1]? = some w1 ∧ workerAwake s1 i1 w1 = true)) :
    s1.wakeupInv := by
  intro h1 h2
  rcases hI (hflag h1) (hq h2) with ⟨c, f, h⟩ | ⟨i, w, h3, h4⟩
  · exact hc c f h h1 h2
  · exact hw i w h3 h4 h1 h2

theorem TaskQueue.pop_isSome (q : TaskQueue) (h : q._tasks ≠ [])
    (hne : ∀ f ∈ q._tasks, f ≠ none) : q.pop.1.isSome = true := by
  unfold TaskQueue.pop
  cases ht : q._tasks with
  | nil => exact absurd ht h
  | cons f rest =>
    have := hne f (by simp [ht])
    cases f with
    | none => exact absurd rfl this
    | some k => simp

theorem TaskQueue.pop_nonempty (q : TaskQueue) (h : q.pop.2._tasks ≠ []) : q._tasks ≠ [] := by
  intro h0
  apply h
  unfold TaskQueue.pop
  simp [h0]

theorem WStep.queue_eq {s sh : State} {i : Nat} {w w1 : Worker} (h : WStep s i w sh w1) :
    sh._taskq._tasks = s._taskq._tasks ∨ sh._taskq._tasks = s._taskq.pop.2._tasks := by
  cases h <;> simp

theorem step_pushed_mono {s s1 : State} {a : Action} (h : Step s a s1) :
    ∀ f ∈ s.pushed, f ∈ s1.pushed := by
  intro f hf
  cases h with
  | worker i w sh w1 hw hws =>
    show f ∈ sh.pushed
    rw [hws.frame.2.2.2.2.2.1]
    exact hf
  | caller c choice s1 hcs =>
    cases hcs <;> simp [State.setCaller, State.setWorker, hf]
  | _ => exact hf

theorem step_wakeupInv_worker {n : Nat} {cap : Int} {s sh : State} {i : Nat} {w w1 : Worker}
    (hr : Reachable n cap s) (hw : s._threads[i]? = some w) (hws : WStep s i w sh w1)
    (hne : ∀ f ∈ s._taskq._tasks, f ≠ none) (hI : s.wakeupInv) :
    (sh.setWorker i w1).wakeupInv := by
  have hok := reachable_worker_ok hr i w hw
  obtain ⟨hf1, hf2, _⟩ := hws.frame
  have hth := hws.threads_eq
  have hcv := hws.cv_eq.2
  have hqe := hws.queue_eq
  have hq : (sh.setWorker i w1)._taskq._tasks ≠ [] → s._taskq._tasks ≠ [] := by
    intro h
    rcases hqe with h1 | h1
    · rw [← h1]
      exact h
    · exact TaskQueue.pop_nonempty _ (by rw [← h1]; exact h)
  refine wakeupInv_transfer hI (fun h => by rw [← hf1]; exact h) hq ?_ ?_
  · intro c f h _ _
    exact Or.inl ⟨c, f, by
      show sh.callers c = _ ∨ sh.callers c = _
      rw [hf2]
      exact h⟩
  · intro j wj hj hfresh hstop1 hq1
    right
    have hstop : s._is_stop = false := by
      rw [← hf1]
      exact hstop1
    by_cases hji : j = i
    · subst hji
      rw [hw] at hj
      simp at hj
      subst hj
      refine ⟨j, w1, setWorker_getElem?_self (by rw [hth]; exact hw), ?_⟩
      have hpop := TaskQueue.pop_isSome s._taskq (hq hq1) hne
      unfold Worker.ok at hok
      cases hws <;> simp_all [workerAwake, State.setWorker]
    · refine ⟨j, wj, by rw [setWorker_getElem?_ne hji, hth]; exact hj, ?_⟩
      refine workerAwake_of_cv hfresh (fun hnot => ?_)
      show j ∉ sh._cv
      rcases hcv with ⟨h1, _⟩ | ⟨h1, _⟩
      · rw [h1]
        exact hnot
      · rw [h1]
        simp [hnot, hji]

/-- A caller step that leaves the flag, the queue, the workers and the wait set alone, and
is not taken by a `submit` call about to notify, keeps the invariant. -/
theorem wakeupInv_caller_keep {s : State} (hI : s.wakeupInv) (c : Nat) (pc : CallerPc)
    (s1 : State) (hflag : s1._is_stop = s._is_stop) (hq : s1._taskq._tasks = s._taskq._tasks)
    (hth : s1._threads = s._threads) (hcv : ∀ i, i ∉ s._cv → i ∉ s1._cv)
    (hcall : s1.callers = fun j => if j = c then pc else s.callers j)
    (hpc : ∀ f, s.callers c ≠ .l109 f ∧ s.callers c ≠ .l110 f) : s1.wakeupInv := by
  refine wakeupInv_transfer hI (fun h => by rw [← hflag]; exact h)
    (fun h => by rw [← hq]; exact h) ?_ ?_
  · intro c2 f h _ _
    have hne : c2 ≠ c := by
      intro e
      subst e
      rcases h with h | h
      · exact (hpc f).1 h
      · exact (hpc f).2 h
    exact Or.inl ⟨c2, f, by rw [hcall]; simpa [hne] using h⟩
  · intro i w hw hfresh _ _
    exact Or.inr ⟨i, w, by rw [hth]; exact hw, workerAwake_of_cv hfresh (hcv i)⟩

theorem step_wakeupInv {n : Nat} {cap : Int} {s s1 : State} {a : Action}
    (hr : Reachable n cap s) (hn : 0 < n) (h : Step s a s1)
    (hne : ∀ f ∈ s._taskq._tasks, f ≠ none) (hI : s.wakeupInv) : s1.wakeupInv := by
  cases h with
  | worker i w sh w1 hw hws => exact step_wakeupInv_worker hr hw hws hne hI
  | caller c choice s1 hcs =>
    cases hcs
    case l33_push f q1 cv1 hpc hp hn1 =>
      intro _ _
      exact Or.inl ⟨c, f, Or.inl (by simp [setCaller_callers])⟩
    case l109 f hpc hm =>
      intro _ _
      exact Or.inl ⟨c, f, Or.inr (by simp [setCaller_callers])⟩
    case l110 f cv1 hpc hn1 =>
      intro hstop1 hq1
      right
      have hstop : s._is_stop = false := hstop1
      have hP := reachable_poolMutexInv hr
      have hC := reachable_cvInv hr
      have hm : s._mtx = some (.caller c) := hP.2.1 c (by simp [hpc, CallerPc.holdsPool])
      unfold notify_one at hn1
      split at hn1
      · rename_i hcv0
        simp at hn1
        subst hn1
        have hlen := (reachable_threads_num hr).2
        have hlt : 0 < s._threads.length := by omega
        refine ⟨0, s._threads[0], by simp [State.setCaller, List.getElem?_eq_getElem hlt], ?_⟩
        have hw0 : s._threads[0]? = some s._threads[0] := List.getElem?_eq_getElem hlt
        have hok := reachable_worker_ok hr 0 _ hw0
        have hex := reachable_exit_flag hr 0 _ hw0
        have hpool := hP.1 0 _ hw0
        unfold Worker.ok at hok
        unfold workerAwake
        cases hpc0 : (s._threads[0]).pc <;>
          simp_all [WorkerPc.holdsPool, WorkerPc.exited, State.setCaller]
      · split at hn1
        · rename_i hcv0 hin
          simp at hn1
          subst hn1
          obtain ⟨w, hw, hwait⟩ := hC.2 choice hin
          refine ⟨choice, w, hw, ?_⟩
          have : choice ∉ s._cv.erase choice := fun hmem =>
            (List.Nodup.mem_erase_iff hC.1).mp hmem |>.1 rfl
          simp [workerAwake, hwait, State.setCaller, this]
        · simp at hn1
    case l115 hpc =>
      intro hstop1 _
      simp [State.setCaller] at hstop1
    case l123 j wj hpc hwj ht =>
      refine wakeupInv_transfer hI (fun h => h) (fun h => h) ?_ ?_
      · intro c2 f h _ _
        have hne2 : c2 ≠ c := by
          intro e
          subst e
          rcases h with h | h <;> simp [hpc] at h
        exact Or.inl ⟨c2, f, by simpa [setCaller_callers, hne2] using h⟩
      · intro i w hw hfresh _ _
        right
        by_cases hij : i = j
        · subst hij
          rw [hwj] at hw
          simp at hw
          subst hw
          refine ⟨i, { wj with joinable := false }, ?_, ?_⟩
          · have := @setWorker_getElem?_self s i wj { wj with joinable := false } hwj
            simpa [State.setCaller] using this
          · simp [workerAwake, ht] at hfresh
        · refine ⟨i, w, ?_, ?_⟩
          · have := @setWorker_getElem?_ne s j i { wj with joinable := false } hij
            simp only [State.setCaller]
            rw [this]
            exact hw
          · exact workerAwake_of_cv hfresh (fun h => h)
    all_goals
      refine wakeupInv_caller_keep hI c _ _ rfl rfl rfl ?_ rfl ?_
      · intro i hi
        simp [State.setCaller, hi]
      · intro f
        simp [*]
  | submit c f hpc =>
    exact wakeupInv_caller_keep hI c _ _ rfl rfl rfl (fun i hi => hi) rfl
      (fun f => by simp [hpc])
  | stop c hpc =>
    exact wakeupInv_caller_keep hI c _ _ rfl rfl rfl (fun i hi => hi) rfl
      (fun f => by simp [hpc])
  | wake_worker i hcv =>
    refine wakeupInv_transfer hI (fun h => h) (fun h => h) ?_ ?_
    · intro c f h _ _
      exact Or.inl ⟨c, f, h⟩
    · intro j w hw hfresh _ _
      exact Or.inr ⟨j, w, hw, workerAwake_of_cv hfresh
        (fun hj hmem => hj (List.mem_of_mem_erase hmem))⟩
  | wake_caller c hcv =>
    refine wakeupInv_transfer hI (fun h => h) (fun h => h) ?_ ?_
    · intro c2 f h _ _
      exact Or.inl ⟨c2, f, h⟩
    · intro j w hw hfresh _ _
      exact Or.inr ⟨j, w, hw, workerAwake_of_cv hfresh (fun h => h)⟩

theorem reachable_induction {n : Nat} {cap : Int} (P : State → Prop)
    (h0 : P (State.init n cap))
    (hstep : ∀ s a s1, Reachable n cap s → P s → step s a = some s1 → P s1) :
    ∀ s, Reachable n cap s → P s := by
  have hmain : ∀ (l : List Action) (s s1 : State), Reachable n cap s → P s →
      run s l = some s1 → P s1 := by
    intro l
    induction l with
    | nil =>
      intro s s1 _ hP hrun
      simp [run] at hrun
      exact hrun ▸ hP
    | cons a l ih =>
      intro s s1 hr hP hrun
      simp only [run] at hrun
      cases hs : step s a with
      | none => simp [hs] at hrun
      | some s2 =>
        simp only [hs] at hrun
        exact ih s2 s1 (reachable_step a hr hs) (hstep s a s2 hr hP hs) hrun
  intro s hr
  obtain ⟨l, hl⟩ := hr
  exact hmain l _ s (reachable_init n cap) h0 hl

theorem reachable_wakeupInv {n : Nat} {cap : Int} {s : State} (hr : Reachable n cap s)
    (hn : 0 < n) (hne : ∀ f ∈ s.pushed, f ≠ none) : s.wakeupInv := by
  refine reachable_induction (fun s => (∀ f ∈ s.pushed, f ≠ none) → s.wakeupInv) ?_ ?_ s hr hne
  · intro _ _ hq
    simp [State.init, TaskQueue.new] at hq
  · intro s a s1 hrs hIs hst hne1
    have hS := step_sound s a s1 hst
    have hnes : ∀ f ∈ s.pushed, f ≠ none := fun f hf => hne1 f (step_pushed_mono hS f hf)
    have hfifo := reachable_fifo hrs
    exact step_wakeupInv hrs hn hS
      (fun f hf => hnes f (by rw [hfifo]; simp [hf])) (hIs hnes)

/-! ## C14: progress of the workers while work is pending -/

theorem nodup_length_le (l : List Nat) (N : Nat) (hnd : l.Nodup) (hlt : ∀ x ∈ l, x < N) :
    l.length ≤ N := by
  have h1 : l.toFinset ⊆ Finset.range N := by
    intro x hx
    simp only [List.mem_toFinset] at hx
    simpa using hlt x hx
  have h2 := Finset.card_le_card h1
  rw [List.toFinset_card_of_nodup hnd, Finset.card_range] at h2
  exact h2

theorem State.cvInv.length_le {s : State} (h : s.cvInv) : s._cv.length ≤ s._threads.length :=
  nodup_length_le _ _ h.1 (fun i hi => by
    obtain ⟨w, hw, _⟩ := h.2 i hi
    exact getElem?_lt hw)

/-- While the stop flag is false, a worker step is the call of a task, or moves the worker
closer to a call or to the wait set. -/
theorem WStep.idle_decrease {s sh : State} {i : Nat} {w w1 : Worker} (h : WStep s i w sh w1)
    (hstop : s._is_stop = false) :
    (∃ k, sh.executed = s.executed ++ [(i, k)]) ∨
    (sh.executed = s.executed ∧
      ((sh._cv = s._cv ∧ w1.idleRank < w.idleRank) ∨
        (sh._cv = s._cv ++ [i] ∧ w1.idleRank < w.idleRank + 10))) := by
  cases h
  case l78_call k hpc hf => exact Or.inl ⟨k, rfl⟩
  case l73_pop hpc =>
    right
    refine ⟨rfl, Or.inl ⟨rfl, ?_⟩⟩
    simp only [Worker.idleRank, hpc]
    split <;> omega
  case l79_pop hpc =>
    right
    refine ⟨rfl, Or.inl ⟨rfl, ?_⟩⟩
    simp only [Worker.idleRank, hpc]
    split <;> omega
  case l87_pop hpc =>
    right
    refine ⟨rfl, Or.inl ⟨rfl, ?_⟩⟩
    simp only [Worker.idleRank, hpc]
    split <;> omega
  case l90 hpc =>
    right
    refine ⟨rfl, Or.inl ⟨rfl, ?_⟩⟩
    simp only [Worker.idleRank, hpc]
    cases hf : w.f.isSome <;> simp
    split <;> omega
  case l89_go hpc hs =>
    right
    refine ⟨rfl, Or.inl ⟨rfl, ?_⟩⟩
    simp only [Worker.idleRank, hpc]
    split <;> omega
  all_goals
    right
    simp_all [Worker.idleRank]

theorem step_idle_decrease {n : Nat} {cap : Int} {s s1 : State} {i : Nat}
    (hr : Reachable n cap s) (hstop : s._is_stop = false)
    (hst : step s (.worker i) = some s1) :
    (∃ k, s1.executed = s.executed ++ [(i, k)]) ∨
    (s1.executed = s.executed ∧ s1.idleRank < s.idleRank) := by
  have hC1 := (reachable_cvInv (reachable_step _ hr hst)).length_le
  have hC := (reachable_cvInv hr).length_le
  have hS := step_sound s _ s1 hst
  cases hS with
  | worker i w sh w1 hw hws =>
    have hth := hws.threads_eq
    have hsum := sum_map_set Worker.idleRank s._threads i w w1 hw
    have hlen : (s._threads.set i w1).length = s._threads.length := by simp
    rcases hws.idle_decrease hstop with h | ⟨h1, h2⟩
    · exact Or.inl h
    · right
      refine ⟨h1, ?_⟩
      simp only [State.idleRank, State.setWorker, hth] at hC1 ⊢
      rcases h2 with ⟨h3, h4⟩ | ⟨h3, h4⟩
      · rw [h3, hlen]
        omega
      · rw [h3] at hC1 ⊢
        simp only [List.length_append, List.length_singleton, hlen] at hC1 ⊢
        omega

theorem step_workPending {n : Nat} {cap : Int} {s s1 : State} {i : Nat}
    (hr : Reachable n cap s) (hstop : s._is_stop = false)
    (hidle : ∀ c : Nat, s.callers c = .idle) (hne : ∀ f ∈ s.pushed, f ≠ none)
    (hp : s.workPending) (hst : step s (.worker i) = some s1) :
    s1._is_stop = false ∧ (∀ c : Nat, s1.callers c = .idle) ∧
      (∀ f ∈ s1.pushed, f ≠ none) ∧
      ((∃ k, s1.executed = s.executed ++ [(i, k)]) ∨ s1.workPending) := by
  have hfifo := reachable_fifo hr
  have hneq : ∀ f ∈ s._taskq._tasks, f ≠ none := fun f hf => hne f (by rw [hfifo]; simp [hf])
  have hS := step_sound s _ s1 hst
  cases hS with
  | worker i w sh w1 hw hws =>
    obtain ⟨hf1, hf2, _, _, _, hf6, _⟩ := hws.frame
    have hth := hws.threads_eq
    have hok := reachable_worker_ok hr i w hw
    have hself : (sh.setWorker i w1)._threads[i]? = some w1 :=
      setWorker_getElem?_self (by rw [hth]; exact hw)
    refine ⟨by show sh._is_stop = false; rw [hf1]; exact hstop,
      fun c => by show sh.callers c = .idle; rw [hf2]; exact hidle c,
      fun f hf => hne f (by rw [← hf6]; exact hf), ?_⟩
    rcases hp with ⟨j, wj, hj, hh⟩ | ⟨hq, j, wj, hj, hfresh⟩
    · by_cases hji : j = i
      · subst hji
        rw [hw] at hj
        simp at hj
        subst hj
        unfold Worker.ok at hok
        have hcases : (∃ k, sh.executed = s.executed ++ [(j, k)]) ∨ w1.holdsTask = true := by
          cases hws <;> simp_all [Worker.holdsTask]
        rcases hcases with h | h
        · exact Or.inl h
        · exact Or.inr (Or.inl ⟨j, w1, hself, h⟩)
      · exact Or.inr (Or.inl ⟨j, wj, by rw [setWorker_getElem?_ne hji, hth]; exact hj, hh⟩)
    · right
      by_cases hq1 : (sh.setWorker i w1)._taskq._tasks = []
      · left
        refine ⟨i, w1, hself, ?_⟩
        have hpop := TaskQueue.pop_isSome s._taskq hq hneq
        have hq2 : sh._taskq._tasks = [] := hq1
        cases hws <;> simp_all [Worker.holdsTask]
      · have hI : s.wakeupInv := fun _ _ => Or.inr ⟨j, wj, hj, hfresh⟩
        have hI1 := step_wakeupInv_worker hr hw hws hneq hI
        rcases hI1 (by show sh._is_stop = false; rw [hf1]; exact hstop) hq1 with
          ⟨c, f, h⟩ | h
        · have hc : (sh.setWorker i w1).callers c = .idle := by
            show sh.callers c = .idle
            rw [hf2]
            exact hidle c
          rw [hc] at h
          simp at h
        · exact Or.inr ⟨hq1, h⟩

/-- While work is pending and no external thread is inside a call, some worker can take a
step. -/
theorem pending_progress {n : Nat} {cap : Int} {s : State} (hr : Reachable n cap s)
    (hidle : ∀ c : Nat, s.callers c = .idle) (hp : s.workPending) :
    ∃ i, (step s (.worker i)).isSome = true := by
  have hok := reachable_worker_ok hr
  have hM := reachable_poolMutexInv hr
  have hQ := reachable_queueMutexInv hr
  have hqfree : s._taskq._mtx = none ∨ ∃ i, (step s (.worker i)).isSome = true := by
    cases hm : s._taskq._mtx with
    | none => exact Or.inl rfl
    | some t =>
      right
      cases t with
      | worker i =>
        obtain ⟨w, hw, hh⟩ := hQ.2.2.1 i hm
        refine ⟨i, step_worker_isSome s i w hw ?_⟩
        unfold workerEnabled
        cases hpc : w.pc <;> simp [hpc, WorkerPc.holdsQueue] at hh ⊢
      | caller c =>
        have := hQ.2.2.2 c hm
        rw [hidle c] at this
        simp [CallerPc.holdsQueue] at this
  rcases hqfree with hq | hq
  · have hpfree : s._mtx = none ∨ ∃ i, (step s (.worker i)).isSome = true := by
      cases hm : s._mtx with
      | none => exact Or.inl rfl
      | some t =>
        right
        cases t with
        | worker i =>
          obtain ⟨w, hw, hh⟩ := hM.2.2.1 i hm
          refine ⟨i, step_worker_isSome s i w hw ?_⟩
          unfold workerEnabled
          cases hpc : w.pc <;> simp [hpc, WorkerPc.holdsPool, hq] at hh ⊢
        | caller c =>
          have := hM.2.2.2 c hm
          rw [hidle c] at this
          simp [CallerPc.holdsPool] at this
    rcases hpfree with hpf | hpf
    · have hex : ∃ j wj, s._threads[j]? = some wj ∧
          (wj.holdsTask = true ∨ workerAwake s j wj = true) := by
        rcases hp with ⟨j, wj, hj, hh⟩ | ⟨_, j, wj, hj, hh⟩
        · exact ⟨j, wj, hj, Or.inl hh⟩
        · exact ⟨j, wj, hj, Or.inr hh⟩
      obtain ⟨j, wj, hj, hh⟩ := hex
      refine ⟨j, step_worker_isSome s j wj hj ?_⟩
      unfold workerEnabled
      unfold Worker.holdsTask workerAwake at hh
      cases hpc : wj.pc <;> simp [hpc, hq, hpf] at hh ⊢
      exact hh
    · exact hpf
  · exact hq

theorem step_executed_length {s s1 : State} {a : Action} (h : Step s a s1) :
    s.executed.length ≤ s1.executed.length := by
  cases h with
  | worker j wj sh w1 hwj hws => cases hws <;> simp [State.setWorker]
  | caller c choice s1 hcs => cases hcs <;> simp [State.setWorker, State.setCaller]
  | _ => simp [State.setCaller]

theorem run_executed_length (l : List Action) :
    ∀ s s1 : State, run s l = some s1 → s.executed.length ≤ s1.executed.length :=
  fun s s1 hrun =>
    run_invariant (fun t => s.executed.length ≤ t.executed.length)
      (fun _ _ _ hi h => Nat.le_trans hi (step_executed_length h)) l s s1 (Nat.le_refl _) hrun

/-- A schedule of worker steps in which no task is called, started while work is pending, the
stop flag is false and no external thread is inside a call, is shorter than the rank and
ends in a state of the same kind. -/
theorem pending_bounded {n : Nat} {cap : Int} (l : List Action) :
    ∀ (s s1 : State), Reachable n cap s → s._is_stop = false →
      (∀ c : Nat, s.callers c = .idle) → (∀ f ∈ s.pushed, f ≠ none) → s.workPending →
      (∀ a ∈ l, a.isWorker = true) → run s l = some s1 →
      s1.executed.length = s.executed.length →
      l.length + s1.idleRank ≤ s.idleRank ∧ Reachable n cap s1 ∧ s1._is_stop = false ∧
        (∀ c : Nat, s1.callers c = .idle) ∧ s1.workPending := by
  induction l with
  | nil =>
    intro s s1 hr hstop hidle _ hp _ hrun _
    simp [run] at hrun
    subst hrun
    exact ⟨by simp, hr, hstop, hidle, hp⟩
  | cons a l ih =>
    intro s s1 hr hstop hidle hne hp hl hrun hex
    simp only [run] at hrun
    cases hs : step s a with
    | none => simp [hs] at hrun
    | some s2 =>
      simp only [hs] at hrun
      have ha := hl a (List.mem_cons_self a l)
      cases a with
      | worker i =>
        have hmono := run_executed_length l s2 s1 hrun
        obtain ⟨h1, h2, h3, h4⟩ := step_workPending hr hstop hidle hne hp hs
        have hdec := step_idle_decrease hr hstop hs
        have hsame : s2.executed = s.executed ∧ s2.idleRank < s.idleRank := by
          rcases hdec with ⟨k, hk⟩ | h
          · have := congrArg List.length hk
            simp at this
            omega
          · exact h
        have hp2 : s2.workPending := by
          rcases h4 with ⟨k, hk⟩ | h
          · have := congrArg List.length hk
            simp at this
            omega
          · exact h
        obtain ⟨h5, h6⟩ := ih s2 s1 (reachable_step _ hr hs) h1 h2 h3 hp2
          (fun b hb => hl b (List.mem_cons_of_mem _ hb)) hrun (by rw [hex, hsame.1])
        refine ⟨?_, h6⟩
        simp only [List.length_cons]
        omega
      | _ => simp [Action.isWorker] at ha

/-- While work is pending, the stop flag is false and no external thread is inside a call,
some schedule of worker steps ends with the call of a task. -/
theorem pending_completes {n : Nat} {cap : Int} (r : Nat) :
    ∀ s : State, Reachable n cap s → s._is_stop = false →
      (∀ c : Nat, s.callers c = .idle) → (∀ f ∈ s.pushed, f ≠ none) → s.workPending →
      s.idleRank ≤ r →
      ∃ (l : List Action) (s1 : State) (i k : Nat), (∀ a ∈ l, a.isWorker = true) ∧
        run s l = some s1 ∧ s1.executed = s.executed ++ [(i, k)] := by
  induction r with
  | zero =>
    intro s hr hstop hidle hne hp hrank
    obtain ⟨i, hen⟩ := pending_progress hr hidle hp
    obtain ⟨s2, hs2⟩ := Option.isSome_iff_exists.mp hen
    rcases step_idle_decrease hr hstop hs2 with ⟨k, hk⟩ | ⟨_, h⟩
    · exact ⟨[.worker i], s2, i, k, by simp [Action.isWorker], by simp [run, hs2], hk⟩
    · omega
  | succ r ih =>
    intro s hr hstop hidle hne hp hrank
    obtain ⟨i, hen⟩ := pending_progress hr hidle hp
    obtain ⟨s2, hs2⟩ := Option.isSome_iff_exists.mp hen
    obtain ⟨h1, h2, h3, h4⟩ := step_workPending hr hstop hidle hne hp hs2
    rcases step_idle_decrease hr hstop hs2 with ⟨k, hk⟩ | ⟨hsame, hlt⟩
    · exact ⟨[.worker i], s2, i, k, by simp [Action.isWorker], by simp [run, hs2], hk⟩
    · have hp2 : s2.workPending := by
        rcases h4 with ⟨k, hk⟩ | h
        · rw [hsame] at hk
          simp at hk
        · exact h
      obtain ⟨l, s1, j, k, hl, hrun, hk⟩ :=
        ih s2 (reachable_step _ hr hs2) h1 h2 h3 hp2 (by omega)
      refine ⟨.worker i :: l, s1, j, k, ?_, ?_, by rw [hk, hsame]⟩
      · intro b hb
        rcases List.mem_cons.mp hb with h | h
        · rw [h]
          rfl
        · exact hl b h
      · simp only [run, hs2]
        exact hrun

/-- C14, amended. No missed wakeup, for a pool with at least one worker to which only
non-empty functions have been submitted: in every reachable state in which the stop flag is
false and the queue is not empty, a `submit` call is between its `push` and its
`notify_one`, or some worker is awake (it will look at the queue again, or call the task it
has claimed, before it blocks); so with no such `submit` in progress not every worker waits
on the pool's condition variable with no wakeup pending.  And when no external thread is
inside a call, every schedule of worker steps in which no task is called has at most
`idleRank` steps and can be continued by a worker step, and some schedule of worker steps
ends with the call of a task. -/
theorem no_missed_wakeup (n : Nat) (cap : Int) (s : State) (hs : Reachable n cap s)
    (hn : 0 < n) (hne : ∀ f ∈ s.pushed, f ≠ none) (hstop : s._is_stop = false)
    (hq : s._taskq._tasks ≠ []) :
    ((∃ c f, s.callers c = .l109 f ∨ s.callers c = .l110 f) ∨
      (∃ i w, s._threads[i]? = some w ∧ workerAwake s i w = true)) ∧
    ((∀ c f, s.callers c ≠ .l109 f ∧ s.callers c ≠ .l110 f) →
      ∃ i w, s._threads[i]? = some w ∧ workerAwake s i w = true ∧
        ¬ (w.pc = .wait ∧ i ∈ s._cv)) ∧
    ((∀ c : Nat, s.callers c = .idle) →
      (∀ (l : List Action) (s1 : State), (∀ a ∈ l, a.isWorker = true) →
        run s l = some s1 → s1.executed.length = s.executed.length →
          l.length ≤ s.idleRank ∧ ∃ i, (step s1 (.worker i)).isSome = true) ∧
      ∃ (l : List Action) (s1 : State) (i k : Nat), (∀ a ∈ l, a.isWorker = true) ∧
        run s l = some s1 ∧ s1.executed = s.executed ++ [(i, k)]) := by
  have hI := reachable_wakeupInv hs hn hne hstop hq
  have hawake : (∀ c f, s.callers c ≠ .l109 f ∧ s.callers c ≠ .l110 f) →
      ∃ i w, s._threads[i]? = some w ∧ workerAwake s i w = true := by
    intro hno
    rcases hI with ⟨c, f, h⟩ | h
    · rcases h with h | h
      · exact absurd h (hno c f).1
      · exact absurd h (hno c f).2
    · exact h
  refine ⟨hI, fun hno => ?_, fun hidle => ?_⟩
  · obtain ⟨i, w, hw, hfresh⟩ := hawake hno
    refine ⟨i, w, hw, hfresh, fun hwait => ?_⟩
    simp [workerAwake, hwait.1, hwait.2] at hfresh
  · have hp : s.workPending :=
      Or.inr ⟨hq, hawake (fun c f => by rw [hidle c]; simp)⟩
    refine ⟨fun l s1 hl hrun hex => ?_, pending_completes s.idleRank s hs hstop hidle hne hp
      (Nat.le_refl _)⟩
    obtain ⟨h1, h2, _, h4, h5⟩ := pending_bounded l s s1 hs hstop hidle hne hp hl hrun hex
    exact ⟨by omega, pending_progress h2 h4 h5⟩

set_option maxRecDepth 100000 in
/-- A task submitted to a parked worker: when `submit` has returned the worker has a wakeup
pending, and nine steps of the worker end with the call of the task. -/
theorem no_missed_wakeup_witness :
    ∃ s s1, run (State.init 1 5) scenarioWake = some s ∧ s._is_stop = false ∧
      s._taskq._tasks = [some 1] ∧ s.pushed = [some 1] ∧
      ((∃ c f, s.callers c = .l109 f ∨ s.callers c = .l110 f) ∨
        (∃ i w, s._threads[i]? = some w ∧ workerAwake s i w = true)) ∧
      run s scenarioWake_rest = some s1 ∧ s1.executed = [(0, 1)] := by
  have h0 : (run (State.init 1 5) (scenarioWake ++ scenarioWake_rest)).isSome = true := rfl
  obtain ⟨s1, hs1⟩ := Option.isSome_iff_exists.mp h0
  obtain ⟨s, hs, hrest⟩ := run_append_inv scenarioWake scenarioWake_rest _ _ hs1
  have hfacts : s._is_stop = false ∧ s._taskq._tasks = [some 1] ∧ s.pushed = [some 1] := by
    have h : (run (State.init 1 5) scenarioWake).map
        (fun s => (s._is_stop, s._taskq._tasks, s.pushed)) =
        some (false, [some 1], [some 1]) := rfl
    rw [hs] at h
    simpa using h
  have hex : s1.executed = [(0, 1)] := by
    have h : (run (State.init 1 5) (scenarioWake ++ scenarioWake_rest)).map
        (fun s => s.executed) = some [(0, 1)] := rfl
    rw [hs1] at h
    simpa using h
  obtain ⟨h1, h2, h3⟩ := hfacts
  exact ⟨s, s1, hs, h1, h2, h3,
    (no_missed_wakeup 1 5 s ⟨scenarioWake, hs⟩ (by decide) (by rw [h3]; simp) h1
      (by rw [h2]; simp)).1, hrest, hex⟩

end ThreadPool
